import Mathlib

/-!
# The styled-text tokenizer of the pager (`m/ansiTokenizer.go`)

A shallow embedding of the tokenizer: Go strings are byte sequences, a Nat is
a natural number (no Nat the tokenizer handles is negative), a run-time panic (index or slice out of range, nil
dereference) is the value `none`, and the two package-level man-page styles
are an explicit `ManPageFormat` argument.
-/

namespace Moor

/-! ## Go strings, runes and UTF-8 -/

/-- A Go `byte`. -/
abbrev Byte := Fin 256

/-- A Go `string`: an arbitrary sequence of bytes, valid UTF-8 or not. -/
abbrev GoString := List Byte

/-- The conversion `byte(n)`: the low eight bits of `n`. -/
def byte (n : Nat) : Byte := ⟨n % 256, Nat.mod_lt n (by decide)⟩

/-- The constant `utf8.RuneError`, U+FFFD. -/
def RuneError : Nat := 0xFFFD

/-- The constant `utf8.MaxRune`, U+10FFFF. -/
def MaxRune : Nat := 0x10FFFF

/-- The size column of the table `first` of package `unicode/utf8`, by lead byte:
`1` for ASCII, `0` for a byte that cannot start a sequence, else the length. -/
def firstSize (s0 : Nat) : Nat :=
  if s0 < 0x80 then 1
  else if s0 < 0xC2 then 0
  else if s0 < 0xE0 then 2
  else if s0 < 0xF0 then 3
  else if s0 < 0xF5 then 4
  else 0

/-- The lower bound `acceptRanges[..].lo` for the second byte, by lead byte. -/
def acceptLo (s0 : Nat) : Nat :=
  if s0 = 0xE0 then 0xA0 else if s0 = 0xF0 then 0x90 else 0x80

/-- The upper bound `acceptRanges[..].hi` for the second byte, by lead byte. -/
def acceptHi (s0 : Nat) : Nat :=
  if s0 = 0xED then 0x9F else if s0 = 0xF4 then 0x8F else 0xBF

/-- Go's `utf8.DecodeRuneInString`: the first Nat of `s` and its width in bytes.
An undecodable byte gives `(RuneError, 1)`, the empty string `(RuneError, 0)`.
The masks and shifts of the original are written as `%`, `*` and `+`. -/
def DecodeRuneInString (s : GoString) : Nat × Nat :=
  match s with
  | [] => (RuneError, 0)
  | s0 :: t =>
    let sz := firstSize s0.val
    if sz = 1 then (s0.val, 1)
    else if sz = 0 then (RuneError, 1)
    else if s.length < sz then (RuneError, 1)
    else
      let s1 := (t.getD 0 0).val
      if s1 < acceptLo s0.val ∨ acceptHi s0.val < s1 then (RuneError, 1)
      else if sz ≤ 2 then (64 * (s0.val % 32) + s1 % 64, 2)
      else
        let s2 := (t.getD 1 0).val
        if s2 < 0x80 ∨ 0xBF < s2 then (RuneError, 1)
        else if sz ≤ 3 then (4096 * (s0.val % 16) + 64 * (s1 % 64) + s2 % 64, 3)
        else
          let s3 := (t.getD 2 0).val
          if s3 < 0x80 ∨ 0xBF < s3 then (RuneError, 1)
          else (262144 * (s0.val % 8) + 4096 * (s1 % 64) + 64 * (s2 % 64) + s3 % 64, 4)

/-- The loop of the conversion `[]rune(s)`: decode a rune, then step over its
bytes; `skip` counts the bytes of the current Nat that are still to be passed. -/
def runesFrom : Nat → GoString → List Nat
  | _, [] => []
  | skip + 1, _ :: t => runesFrom skip t
  | 0, s0 :: t =>
    (DecodeRuneInString (s0 :: t)).1 :: runesFrom ((DecodeRuneInString (s0 :: t)).2 - 1) t

/-- The conversion `[]rune(s)`. -/
def stringToRunes (s : GoString) : List Nat := runesFrom 0 s

/-- Go's `utf8.RuneCountInString`. -/
def RuneCountInString (s : GoString) : Nat := (stringToRunes s).length

/-- Go's `utf8.AppendRune` on an empty buffer, which `strings.Builder.WriteRune`
appends: the UTF-8 encoding of `r`, that of U+FFFD for a surrogate or a value
above `MaxRune`. -/
def EncodeRune (r : Nat) : GoString :=
  if r ≤ 0x7F then [byte r]
  else if r ≤ 0x7FF then [byte (0xC0 + r / 64), byte (0x80 + r % 64)]
  else if MaxRune < r ∨ (0xD800 ≤ r ∧ r ≤ 0xDFFF) then [0xEF, 0xBF, 0xBD]
  else if r ≤ 0xFFFF then
    [byte (0xE0 + r / 4096), byte (0x80 + r / 64 % 64), byte (0x80 + r % 64)]
  else
    [byte (0xF0 + r / 262144), byte (0x80 + r / 4096 % 64), byte (0x80 + r / 64 % 64),
      byte (0x80 + r % 64)]

/-- A Nat that a string can hold: a Unicode scalar value. -/
def ValidRune (r : Nat) : Prop := r ≤ MaxRune ∧ ¬ (0xD800 ≤ r ∧ r ≤ 0xDFFF)

instance (r : Nat) : Decidable (ValidRune r) := by
  unfold ValidRune; infer_instance

/-! ## The `tcell` styles and colours the tokenizer uses -/

namespace tcell

/-- The type `tcell.Color`, a 64-bit unsigned number. -/
abbrev Color := Nat

def ColorDefault : Color := 0
def ColorValid : Color := 2 ^ 32
def ColorIsRGB : Color := 2 ^ 33
def ColorBlack : Color := ColorValid + 0
def ColorMaroon : Color := ColorValid + 1
def ColorGreen : Color := ColorValid + 2
def ColorOlive : Color := ColorValid + 3
def ColorNavy : Color := ColorValid + 4
def ColorPurple : Color := ColorValid + 5
def ColorTeal : Color := ColorValid + 6
def ColorSilver : Color := ColorValid + 7
def ColorGray : Color := ColorValid + 8
def ColorRed : Color := ColorValid + 9
def ColorLime : Color := ColorValid + 10
def ColorYellow : Color := ColorValid + 11
def ColorBlue : Color := ColorValid + 12
def ColorFuchsia : Color := ColorValid + 13
def ColorAqua : Color := ColorValid + 14
def ColorWhite : Color := ColorValid + 15
def Color16 : Color := ColorValid + 16

/-- The palette colour `tcell.PaletteColor(n)`. -/
def PaletteColor (n : Nat) : Color := ColorValid + n

/-- The colour `tcell.NewRGBColor(r, g, b)`: each component is masked to eight
bits (`x & 0xff`) and the three are packed under the two flag bits. -/
def NewRGBColor (r g b : Int) : Color :=
  ColorIsRGB + ColorValid + (65536 * (r % 256).toNat + 256 * (g % 256).toNat + (b % 256).toNat)

/-- The type `tcell.Style`: a foreground, a background and the attribute flags
that the tokenizer sets. -/
structure Style where
  fg : Color
  bg : Color
  bold : Bool
  dim : Bool
  italic : Bool
  underline : Bool
  reverse : Bool
deriving DecidableEq, Repr

def StyleDefault : Style := ⟨ColorDefault, ColorDefault, false, false, false, false, false⟩

def Style.Foreground (s : Style) (c : Color) : Style := { s with fg := c }
def Style.Background (s : Style) (c : Color) : Style := { s with bg := c }
def Style.Bold (s : Style) (b : Bool) : Style := { s with bold := b }
def Style.Dim (s : Style) (b : Bool) : Style := { s with dim := b }
def Style.Italic (s : Style) (b : Bool) : Style := { s with italic := b }
def Style.Underline (s : Style) (b : Bool) : Style := { s with underline := b }
def Style.Reverse (s : Style) (b : Bool) : Style := { s with reverse := b }

end tcell

open tcell

/-! ## Tokens and man-page overstrike -/

/-- The constant `_TabSize`. -/
def _TabSize : Nat := 4

/-- A Nat with a style, to be written to a cell on screen. -/
structure Token where
  Rune : Nat
  Style : tcell.Style
deriving DecidableEq, Repr

/-- The package-level variables `manPageBold` and `manPageUnderline`, passed
explicitly to the functions that read them. -/
structure ManPageFormat where
  manPageBold : tcell.Style
  manPageUnderline : tcell.Style
deriving DecidableEq, Repr

/-- The initial values of the two variables, which `resetManPageFormatForTesting`
restores. -/
def resetManPageFormatForTesting : ManPageFormat :=
  ⟨StyleDefault.Bold true, StyleDefault.Underline true⟩

/-- The type `_StyledString`: a substring of the input with the style in effect. -/
structure StyledString where
  String : GoString
  Style : tcell.Style
deriving DecidableEq, Repr

/-- The function `consumeBold`: the next index and the token, `nil` token and the
same index when there is no match; `none` is a panic. -/
def consumeBold (cfg : ManPageFormat) (runes : List Nat) (index : Nat) :
    Option (Nat × Option Token) :=
  if index + 2 ≥ runes.length then some (index, none)
  else do
    let r1 ← runes[index + 1]?
    if r1 ≠ 0x08 then some (index, none)
    else do
      let r0 ← runes[index]?
      let r2 ← runes[index + 2]?
      if r0 ≠ r2 then some (index, none)
      else some (index + 3, some ⟨r0, cfg.manPageBold⟩)

/-- The function `consumeUnderline`. -/
def consumeUnderline (cfg : ManPageFormat) (runes : List Nat) (index : Nat) :
    Option (Nat × Option Token) :=
  if index + 2 ≥ runes.length then some (index, none)
  else do
    let r1 ← runes[index + 1]?
    if r1 ≠ 0x08 then some (index, none)
    else do
      let r0 ← runes[index]?
      if r0 ≠ 0x5F then some (index, none)
      else do
        let r2 ← runes[index + 2]?
        some (index + 3, some ⟨r2, cfg.manPageUnderline⟩)

/-- The two bullet patterns, `"+\bo"` and `"+\b+\bo\bo"`, as bytes. -/
def bulletPatterns : List GoString :=
  [[0x2B, 0x08, 0x6F], [0x2B, 0x08, 0x2B, 0x08, 0x6F, 0x08, 0x6F]]

/-- What `for delta, patternChar := range pattern` iterates over: each Nat of
the string with the byte offset it starts at. -/
def rangeString : Nat → Nat → GoString → List (Nat × Nat)
  | _, _, [] => []
  | skip + 1, off, _ :: t => rangeString skip (off + 1) t
  | 0, off, s0 :: t =>
    (off, (DecodeRuneInString (s0 :: t)).1) ::
      rangeString ((DecodeRuneInString (s0 :: t)).2 - 1) (off + 1) t

/-- The inner loop of `consumeBullet`: compare every Nat of the pattern with
the Nat at the same offset from `index`, without stopping at a mismatch. -/
def bulletMismatch (runes : List Nat) (index : Nat) :
    List (Nat × Nat) → Bool → Option Bool
  | [], mismatch => some mismatch
  | (delta, patternChar) :: rest, mismatch => do
    let r ← runes[index + delta]?
    bulletMismatch runes index rest (if patternChar ≠ r then true else mismatch)

/-- The outer loop of `consumeBullet`, over the patterns. -/
def consumeBulletLoop (runes : List Nat) (index : Nat) :
    List GoString → Option (Nat × Option Token)
  | [] => some (index, none)
  | pattern :: rest =>
    if index + pattern.length > runes.length then consumeBulletLoop runes index rest
    else do
      let mismatch ← bulletMismatch runes index (rangeString 0 0 pattern) false
      if mismatch then consumeBulletLoop runes index rest
      else some (index + pattern.length, some ⟨0x2022, StyleDefault⟩)

/-- The function `consumeBullet`. -/
def consumeBullet (runes : List Nat) (index : Nat) : Option (Nat × Option Token) :=
  consumeBulletLoop runes index bulletPatterns

/-- The loop of `tokensFromStyledString`, from `index` on with the tokens so
far. A detector that matched hands over the index to go on from (the source
sets `index = nextIndex - 1` and the loop header adds one). Each round uses one
unit of `fuel`; running out of it is `none`, as a panic is. -/
def tokensLoop (cfg : ManPageFormat) (style : tcell.Style) (runes : List Nat) :
    Nat → Nat → List Token → Option (List Token)
  | 0, _, _ => none
  | fuel + 1, index, tokens =>
    if index < runes.length then do
      let (nextIndex, token) ← consumeBullet runes index
      if nextIndex ≠ index then do
        let tok ← token
        tokensLoop cfg style runes fuel nextIndex (tokens ++ [tok])
      else do
        let (nextIndex, token) ← consumeBold cfg runes index
        if nextIndex ≠ index then do
          let tok ← token
          tokensLoop cfg style runes fuel nextIndex (tokens ++ [tok])
        else do
          let (nextIndex, token) ← consumeUnderline cfg runes index
          if nextIndex ≠ index then do
            let tok ← token
            tokensLoop cfg style runes fuel nextIndex (tokens ++ [tok])
          else do
            let r ← runes[index]?
            tokensLoop cfg style runes fuel (index + 1) (tokens ++ [⟨r, style⟩])
    else some tokens

/-- The function `tokensFromStyledString`; the loop gets one round per Nat and
one for the final test. -/
def tokensFromStyledString (cfg : ManPageFormat) (styledString : StyledString) :
    Option (List Token) :=
  tokensLoop cfg styledString.Style (stringToRunes styledString.String)
    ((stringToRunes styledString.String).length + 1) 0 []

/-! ## The SGR interpreter -/

/-- Go's `strings.Split(s, ";")`: the pieces of `s` between the semicolons; a
string without a semicolon, the empty one too, is its own single piece. -/
def Split : GoString → List GoString
  | [] => [[]]
  | c :: cs =>
    if c.val = 0x3B then [] :: Split cs
    else
      match Split cs with
      | [] => [[c]]
      | piece :: pieces => (c :: piece) :: pieces

/-- Go's `strings.TrimLeft(number, "0")`. -/
def TrimLeft : GoString → GoString
  | [] => []
  | c :: cs => if c.val = 0x30 then TrimLeft cs else c :: cs

/-- The value of a string of decimal digits after the digits `acc` stands for;
`none` when a byte is not a digit. -/
def parseDigits : GoString → Nat → Option Nat
  | [], acc => some acc
  | c :: cs, acc =>
    if 0x30 ≤ c.val ∧ c.val ≤ 0x39 then parseDigits cs (10 * acc + (c.val - 0x30)) else none

/-- Go's `strconv.ParseInt(s, 10, bits)` and, with `bits = 64`, `strconv.Atoi(s)`:
an optional sign, then at least one decimal digit and nothing else, and a value
that fits `bits` bits; `none` is the returned error. -/
def ParseInt (s : GoString) (bits : Nat) : Option Int :=
  match s with
  | [] => none
  | c :: cs =>
    if c.val = 0x2D then
      match cs with
      | [] => none
      | _ :: _ =>
        match parseDigits cs 0 with
        | none => none
        | some n => if n ≤ 2 ^ (bits - 1) then some (- (n : Int)) else none
    else
      let digits := if c.val = 0x2B then cs else c :: cs
      match digits with
      | [] => none
      | _ :: _ =>
        match parseDigits digits 0 with
        | none => none
        | some n => if n < 2 ^ (bits - 1) then some (n : Int) else none

/-- Go's `strconv.Atoi` on a 64-bit platform. -/
def Atoi (s : GoString) : Option Int := ParseInt s 64

/-- The function `consumeCompositeColor`. The outer `none` is a panic; inside,
`none` is a returned error and `some (i, c)` the first index not consumed with
the colour. -/
def consumeCompositeColor (numbers : List GoString) (index : Nat) :
    Option (Option (Nat × Color)) := do
  let start ← numbers[index]?
  if start ≠ [0x33, 0x38] ∧ start ≠ [0x34, 0x38] then some none
  else if index + 1 ≥ numbers.length then some none
  else do
    let kind ← numbers[index + 1]?
    if kind = [0x35] then
      if index + 2 ≥ numbers.length then some none
      else do
        let number ← numbers[index + 2]?
        match Atoi number with
        | none => some none
        | some colorNumber =>
          some (some (index + 3, (((Color16 : Int) - 16 + colorNumber) % 2 ^ 64).toNat))
    else if kind = [0x32] then
      if index + 4 ≥ numbers.length then some none
      else do
        let rNumber ← numbers[index + 2]?
        match ParseInt rNumber 32 with
        | none => some none
        | some rValue =>
          let gNumber ← numbers[index + 3]?
          match Atoi gNumber with
          | none => some none
          | some gValue =>
            let bNumber ← numbers[index + 4]?
            match Atoi bNumber with
            | none => some none
            | some bValue => some (some (index + 5, NewRGBColor rValue gValue bValue))
    else some none

/-- The cases of the `switch` in `updateStyle` that only assign `style`, by the
number with its leading zeros trimmed; the `default` case leaves the style. -/
def sgrStyle (code : GoString) (style : tcell.Style) : tcell.Style :=
  if code = [] then StyleDefault
  else if code = [0x31] then style.Bold true
  else if code = [0x32] then style.Dim true
  else if code = [0x33] then style.Italic true
  else if code = [0x34] then style.Underline true
  else if code = [0x37] then style.Reverse true
  else if code = [0x32, 0x32] then (style.Bold false).Dim false
  else if code = [0x32, 0x33] then style.Italic false
  else if code = [0x32, 0x34] then style.Underline false
  else if code = [0x32, 0x37] then style.Reverse false
  else if code = [0x33, 0x30] then style.Foreground ColorBlack
  else if code = [0x33, 0x31] then style.Foreground ColorMaroon
  else if code = [0x33, 0x32] then style.Foreground ColorGreen
  else if code = [0x33, 0x33] then style.Foreground ColorOlive
  else if code = [0x33, 0x34] then style.Foreground ColorNavy
  else if code = [0x33, 0x35] then style.Foreground ColorPurple
  else if code = [0x33, 0x36] then style.Foreground ColorTeal
  else if code = [0x33, 0x37] then style.Foreground ColorSilver
  else if code = [0x33, 0x39] then style.Foreground ColorDefault
  else if code = [0x34, 0x30] then style.Background ColorBlack
  else if code = [0x34, 0x31] then style.Background ColorMaroon
  else if code = [0x34, 0x32] then style.Background ColorGreen
  else if code = [0x34, 0x33] then style.Background ColorOlive
  else if code = [0x34, 0x34] then style.Background ColorNavy
  else if code = [0x34, 0x35] then style.Background ColorPurple
  else if code = [0x34, 0x36] then style.Background ColorTeal
  else if code = [0x34, 0x37] then style.Background ColorSilver
  else if code = [0x34, 0x39] then style.Background ColorDefault
  else if code = [0x39, 0x30] then style.Foreground ColorGray
  else if code = [0x39, 0x31] then style.Foreground ColorRed
  else if code = [0x39, 0x32] then style.Foreground ColorLime
  else if code = [0x39, 0x33] then style.Foreground ColorYellow
  else if code = [0x39, 0x34] then style.Foreground ColorBlue
  else if code = [0x39, 0x35] then style.Foreground ColorFuchsia
  else if code = [0x39, 0x36] then style.Foreground ColorAqua
  else if code = [0x39, 0x37] then style.Foreground ColorWhite
  else style

/-- The loop of `updateStyle` over `numbers`, from `index` on. The cases `"38"`
and `"48"` call `consumeCompositeColor` on the index of the number just read
and return the style reached so far when it reports an error. Each round uses
one unit of `fuel`; running out of it is `none`, as a panic is. -/
def updateStyleLoop (numbers : List GoString) : Nat → Nat → tcell.Style → Option tcell.Style
  | 0, _, _ => none
  | fuel + 1, index, style =>
    if index < numbers.length then do
      let number ← numbers[index]?
      if TrimLeft number = [0x33, 0x38] then do
        match ← consumeCompositeColor numbers index with
        | none => some style
        | some (next, color) => updateStyleLoop numbers fuel next (style.Foreground color)
      else if TrimLeft number = [0x34, 0x38] then do
        match ← consumeCompositeColor numbers index with
        | none => some style
        | some (next, color) => updateStyleLoop numbers fuel next (style.Background color)
      else updateStyleLoop numbers fuel (index + 1) (sgrStyle (TrimLeft number) style)
    else some style

/-- The slice expression `s[lo:hi]`, a panic when the bounds are out of range. -/
def slice (s : GoString) (lo hi : Nat) : Option GoString :=
  if lo ≤ hi ∧ hi ≤ s.length then some ((s.drop lo).take (hi - lo)) else none

/-- The function `updateStyle`: the numbers are the pieces of the sequence
without its first two bytes and its last one; the loop gets one round per
number and one for the final test. -/
def updateStyle (style : tcell.Style) (escapeSequence : GoString) : Option tcell.Style := do
  let inner ← slice escapeSequence 2 (escapeSequence.length - 1)
  updateStyleLoop (Split inner) ((Split inner).length + 1) 0 style

/-! ## The segment splitter -/

/-- A byte of the class `[0-9;]`. -/
def isParamByte (c : Byte) : Bool := (0x30 ≤ c.val ∧ c.val ≤ 0x39) ∨ c.val = 0x3B

/-- The length of the prefix of the string that matches `[0-9;]*m`, if one does. -/
def matchParams : GoString → Option Nat
  | [] => none
  | c :: cs =>
    if c.val = 0x6D then some 1
    else if isParamByte c then (matchParams cs).map (· + 1)
    else none

/-- The length of the prefix of the string that matches the pattern of
`styledStringsFromString`, ESC `[` then `[0-9;]*m`, if one does. -/
def matchSGR : GoString → Option Nat
  | e :: b :: rest =>
    if e.val = 0x1B ∧ b.val = 0x5B then (matchParams rest).map (· + 2) else none
  | _ => none

/-- The scan of `pattern.FindAllStringIndex(s, -1)` over the rest of the input
at offset `pos`: a match is taken at the first offset that has one, and the scan
goes on behind it; `skip` counts the bytes of the last match still to be passed. -/
def findAllFrom : Nat → Nat → GoString → List (Nat × Nat)
  | _, _, [] => []
  | skip + 1, pos, _ :: t => findAllFrom skip (pos + 1) t
  | 0, pos, c :: t =>
    match matchSGR (c :: t) with
    | some n => (pos, pos + n) :: findAllFrom (n - 1) (pos + 1) t
    | none => findAllFrom 0 (pos + 1) t

/-- The call `pattern.FindAllStringIndex(s, -1)`: the start and end offset of
every match, leftmost first and without overlap. -/
def FindAllStringIndex (s : GoString) : List (Nat × Nat) := findAllFrom 0 0 s

/-- The loop of `styledStringsFromString` over the matches, with the variables
`styledStrings`, `style`, `beg` and `end` it updates. -/
def styledStringsLoop (s : GoString) :
    List (Nat × Nat) → List StyledString → tcell.Style → Nat → Nat →
      Option (List StyledString × tcell.Style × Nat × Nat)
  | [], styledStrings, style, beg, end_ => some (styledStrings, style, beg, end_)
  | (m0, m1) :: rest, styledStrings, style, beg, _ => do
    let styledStrings ←
      if m0 > beg then do
        let part ← slice s beg m0
        some (styledStrings ++ [⟨part, style⟩])
      else some styledStrings
    let matchedPart ← slice s m0 m1
    let style ← updateStyle style matchedPart
    styledStringsLoop s rest styledStrings style m1 m0

/-- The function `styledStringsFromString`. -/
def styledStringsFromString (s : GoString) : Option (List StyledString) := do
  let (styledStrings, style, beg, end_) ←
    styledStringsLoop s (FindAllStringIndex s) [] StyleDefault 0 0
  if end_ ≠ s.length then do
    let part ← slice s beg s.length
    some (styledStrings ++ [⟨part, style⟩])
  else some styledStrings

/-! ## The tokenizer -/

/-- The style `styleBrokenUtf8` of `TokensFromString`. -/
def styleBrokenUtf8 : tcell.Style :=
  (StyleDefault.Background ColorSilver).Foreground ColorMaroon

/-- The tab loop of `TokensFromString`: append a space until the number of
tokens is a multiple of `_TabSize`. Each round uses one unit of `fuel`; running
out of it is `none`. -/
def tabLoop (style : tcell.Style) : Nat → List Token → Option (List Token)
  | 0, _ => none
  | fuel + 1, tokens =>
    if (tokens ++ [Token.mk 0x20 style]).length % _TabSize = 0 then
      some (tokens ++ [Token.mk 0x20 style])
    else tabLoop style fuel (tokens ++ [Token.mk 0x20 style])

/-- The inner loop of `TokensFromString`, over the tokens of one styled string
whose style is `style`. -/
def translateTokens (style : tcell.Style) : List Token → List Token → Option (List Token)
  | [], tokens => some tokens
  | token :: rest, tokens =>
    if token.Rune = 0x09 then do
      let tokens ← tabLoop style _TabSize tokens
      translateTokens style rest tokens
    else if token.Rune = 0xFFFD then
      translateTokens style rest (tokens ++ [⟨0x3F, styleBrokenUtf8⟩])
    else if token.Rune = 0x08 then
      translateTokens style rest (tokens ++ [⟨0x3C, styleBrokenUtf8⟩])
    else translateTokens style rest (tokens ++ [token])

/-- The outer loop of `TokensFromString`, over the styled strings. -/
def tokensFromRuns (cfg : ManPageFormat) : List StyledString → List Token → Option (List Token)
  | [], tokens => some tokens
  | styledString :: rest, tokens => do
    let fromString ← tokensFromStyledString cfg styledString
    let tokens ← translateTokens styledString.Style fromString tokens
    tokensFromRuns cfg rest tokens

/-- The string the `strings.Builder` of `TokensFromString` ends with: the
encodings of the tokens' runes, one after the other. -/
def plainString (tokens : List Token) : GoString := tokens.flatMap (fun token => EncodeRune token.Rune)

/-- The function `TokensFromString`: the tokens and the unformatted string. -/
def TokensFromString (cfg : ManPageFormat) (s : GoString) : Option (List Token × GoString) := do
  let styledStrings ← styledStringsFromString s
  let tokens ← tokensFromRuns cfg styledStrings []
  some (tokens, plainString tokens)

/-- The function `termcapToStyle`: the style of the last token of the string
with an `x` appended. -/
def termcapToStyle (cfg : ManPageFormat) (termcap : GoString) : Option tcell.Style := do
  let (tokens, _) ← TokensFromString cfg (termcap ++ [0x78])
  if tokens.length < 1 then none
  else do
    let token ← tokens[tokens.length - 1]?
    some token.Style

/-- The function `SetManPageFormatFromEnv`, with the values of the environment
variables `LESS_TERMCAP_md` and `LESS_TERMCAP_us` (empty when unset). -/
def SetManPageFormatFromEnv (cfg : ManPageFormat) (lessTermcapMd lessTermcapUs : GoString) :
    Option ManPageFormat := do
  let cfg ←
    if lessTermcapMd ≠ [] then do
      let style ← termcapToStyle cfg lessTermcapMd
      some { cfg with manPageBold := style }
    else some cfg
  if lessTermcapUs ≠ [] then do
    let style ← termcapToStyle cfg lessTermcapUs
    some { cfg with manPageUnderline := style }
  else some cfg

/-! ## The interpreter and the splitter read off the remaining input

The functions of this section are not in the source: they restate the loops
above by recursion on what is left of the input, and the theorems below prove
each equal to the loop it restates. -/

/-- What `consumeCompositeColor` returns, read off the numbers from its index
on: how many numbers the colour takes, and the colour; `none` is the error. -/
def compositeColor : List GoString → Option (Nat × Color)
  | start :: kind :: rest =>
    if start ≠ [0x33, 0x38] ∧ start ≠ [0x34, 0x38] then none
    else if kind = [0x35] then
      match rest with
      | number :: _ =>
        match Atoi number with
        | some colorNumber => some (3, (((Color16 : Int) - 16 + colorNumber) % 2 ^ 64).toNat)
        | none => none
      | [] => none
    else if kind = [0x32] then
      match rest with
      | rNumber :: gNumber :: bNumber :: _ =>
        match ParseInt rNumber 32, Atoi gNumber, Atoi bNumber with
        | some rValue, some gValue, some bValue => some (5, NewRGBColor rValue gValue bValue)
        | _, _, _ => none
      | _ => none
    else none
  | _ => none

/-- What the loop of `updateStyle` returns, read off the numbers that are
left; `skip` counts the numbers of a composite colour still to be passed. -/
def styleFrom : Nat → List GoString → tcell.Style → tcell.Style
  | _, [], style => style
  | skip + 1, _ :: rest, style => styleFrom skip rest style
  | 0, number :: rest, style =>
    if TrimLeft number = [0x33, 0x38] then
      match compositeColor (number :: rest) with
      | none => style
      | some (taken, color) => styleFrom (taken - 1) rest (style.Foreground color)
    else if TrimLeft number = [0x34, 0x38] then
      match compositeColor (number :: rest) with
      | none => style
      | some (taken, color) => styleFrom (taken - 1) rest (style.Background color)
    else styleFrom 0 rest (sgrStyle (TrimLeft number) style)

/-- Go's `strings.Join(numbers, ";")`. -/
def Join : List GoString → GoString
  | [] => []
  | [number] => number
  | number :: rest => number ++ 0x3B :: Join rest

/-- The escape sequence with the given numbers: ESC `[`, the numbers joined by
semicolons, `m`. -/
def sgr (numbers : List GoString) : GoString := 0x1B :: 0x5B :: (Join numbers ++ [0x6D])

/-- The offsets of the escape sequences when the input from offset `pos` on is
the given gaps and escape sequences in turn. -/
def offsets : Nat → List (GoString × GoString) → List (Nat × Nat)
  | _, [] => []
  | pos, (gap, e) :: segs =>
    (pos + gap.length, pos + gap.length + e.length) ::
      offsets (pos + gap.length + e.length) segs

/-- The input that is the given gaps and escape sequences in turn, then `tail`. -/
def unsplit : List (GoString × GoString) → GoString → GoString
  | [], tail => tail
  | (gap, e) :: segs, tail => gap ++ (e ++ unsplit segs tail)

/-! ## What the specification says of the splitter -/

/-- An escape sequence of the grammar ESC `[` (digit | `;`)* `m`. -/
def IsSGR (e : GoString) : Prop :=
  ∃ params : GoString, (∀ c ∈ params, isParamByte c = true) ∧ e = 0x1B :: 0x5B :: (params ++ [0x6D])

/-- No escape sequence starts at a byte of `gap` in the text `gap ++ rest`. -/
def SGRFree (gap rest : GoString) : Prop :=
  ∀ a b : GoString, gap = a ++ b → b ≠ [] → ∀ e t : GoString, IsSGR e → b ++ rest ≠ e ++ t

/-- The text `s` cut at its escape sequences, leftmost first and without
overlap: `s` is a gap and an escape sequence for each pair of `segs`, in turn,
then `tail`; no escape sequence starts inside a gap or inside `tail`. -/
inductive Segmented : GoString → List (GoString × GoString) → GoString → Prop
  | last (tail : GoString) : SGRFree tail [] → Segmented tail [] tail
  | seg (gap e rest : GoString) (segs : List (GoString × GoString)) (tail : GoString) :
      IsSGR e → SGRFree gap (e ++ rest) → Segmented rest segs tail →
      Segmented (gap ++ (e ++ rest)) ((gap, e) :: segs) tail

/-- Every gap of a cut text, the last one too, with the style it has when
`updateStyle` is folded over the escape sequences before it, from `style` on. -/
def gapRuns : tcell.Style → List (GoString × GoString) → GoString → Option (List StyledString)
  | style, [], tail => some [⟨tail, style⟩]
  | style, (gap, e) :: segs, tail => do
    let next ← updateStyle style e
    let runs ← gapRuns next segs tail
    some (⟨gap, style⟩ :: runs)

/-! ## Notation for the statements -/

/-- The bytes of a string of ASCII characters. -/
def ascii (s : String) : GoString := s.toList.map (fun c => byte c.toNat)

/-- The decimal numeral of a number below 1000, as `strconv.Itoa` writes it. -/
def decimal (n : Nat) : GoString :=
  if n < 10 then [byte (0x30 + n)]
  else if n < 100 then [byte (0x30 + n / 10), byte (0x30 + n % 10)]
  else [byte (0x30 + n / 100), byte (0x30 + n / 10 % 10), byte (0x30 + n % 10)]

/-- A number of an escape sequence has no semicolon in it. -/
def NoSemicolon (number : GoString) : Prop := ∀ c ∈ number, c.val ≠ 0x3B

instance (number : GoString) : Decidable (NoSemicolon number) := by
  unfold NoSemicolon; infer_instance

/-- The numbers that the `switch` of `updateStyle` has a case for, the empty
number and the composite codes among them. -/
def sgrCodes : List GoString :=
  [[], ascii "1", ascii "2", ascii "3", ascii "4", ascii "7", ascii "22", ascii "23", ascii "24",
    ascii "27", ascii "30", ascii "31", ascii "32", ascii "33", ascii "34", ascii "35",
    ascii "36", ascii "37", ascii "38", ascii "39", ascii "40", ascii "41", ascii "42",
    ascii "43", ascii "44", ascii "45", ascii "46", ascii "47", ascii "48", ascii "49",
    ascii "90", ascii "91", ascii "92", ascii "93", ascii "94", ascii "95", ascii "96",
    ascii "97"]

/-! ## What the specification says of plain text -/

/-- A control character: a rune of the Unicode category Cc. -/
def IsControl (r : Nat) : Prop := r < 0x20 ∨ (0x7F ≤ r ∧ r ≤ 0x9F)

instance (r : Nat) : Decidable (IsControl r) := by
  unfold IsControl; infer_instance

/-- A plain rune: a rune a string can hold that is no control character and
not the marker U+FFFD of a broken encoding. -/
def PlainRune (r : Nat) : Prop := ValidRune r ∧ ¬ IsControl r ∧ r ≠ 0xFFFD

instance (r : Nat) : Decidable (PlainRune r) := by
  unfold PlainRune; infer_instance

/-- The conversion `string(runes)`: the encodings of the runes, one after the
other. -/
def runesToString (runes : List Nat) : GoString := runes.flatMap EncodeRune

/-- The text has no escape sequence in it. -/
def NoEscapeSequence (s : GoString) : Prop := ∀ e : GoString, IsSGR e → ¬ List.IsInfix e s

/-! ## The screen-line composer

The function `createScreenLine` is called by the tests of `pager_test.go`; the
file that defines it is not among the source files at hand, so the definitions
of this section follow the specification (section 4.4) and the tests. -/

/-- Modelled from the spec: a compiled search pattern, which the repository
takes from Go's package `regexp`: the function that gives the matches of the
pattern in a text, leftmost first, each as the byte offsets of its start and of
its end. -/
abbrev SearchPattern := GoString → List (Nat × Nat)

/-- Modelled from the spec: the left-overflow indicator, `<` in reverse video. -/
def leftOverflow : Token := ⟨0x3C, StyleDefault.Reverse true⟩

/-- Modelled from the spec: the right-overflow indicator, `>` in reverse video. -/
def rightOverflow : Token := ⟨0x3E, StyleDefault.Reverse true⟩

/-- Modelled from the spec: the matches of the search pattern in the plain
text, each as the character offsets of its start and of its end; no pattern, no
matches. -/
def getMatchRanges (plain : GoString) (search : Option SearchPattern) : List (Nat × Nat) :=
  match search with
  | none => []
  | some pattern =>
    (pattern plain).map (fun m =>
      (RuneCountInString (plain.take m.1), RuneCountInString (plain.take m.2)))

/-- Modelled from the spec: whether the character offset `index` lies inside
one of the matches. -/
def InRange (ranges : List (Nat × Nat)) (index : Nat) : Bool :=
  ranges.any (fun m => decide (m.1 ≤ index ∧ index < m.2))

/-- Modelled from the spec: the search highlight. The tokens are those of the
line from the character offset `index` on; a token whose character lies inside a
match gets reverse video on top of its style, the others stay as they are. -/
def highlight (ranges : List (Nat × Nat)) : Nat → List Token → List Token
  | _, [] => []
  | index, token :: rest =>
    (if InRange ranges index then Token.mk token.Rune (token.Style.Reverse true) else token) ::
      highlight ranges (index + 1) rest

/-- Modelled from the spec: the function `createScreenLine(start, width, line,
search)`, which the source files at hand call from the tests only. An empty
line gives no cell at all. Else the line is tokenized and the pattern matched
against the whole plain text; the cells are the indicator `<` when `start > 0`,
then the tokens of the line from the character offset `start` on, highlighted;
when these are more than `width` cells, the first `width` of them are kept and
the last cell kept is replaced by the indicator `>`. -/
def createScreenLine (cfg : ManPageFormat) (start width : Nat) (line : GoString)
    (search : Option SearchPattern) : Option (List Token) :=
  if line = [] then some []
  else do
    let (tokens, plain) ← TokensFromString cfg line
    let ranges := getMatchRanges plain search
    let cells := (if start > 0 then [leftOverflow] else []) ++
      highlight ranges start (tokens.drop start)
    if cells.length > width then
      if width = 0 then some []
      else some (cells.take (width - 1) ++ [rightOverflow])
    else some cells

/-! ## What the specification says of the search highlight -/

/-- The occurrences of a literal text in `s`, as `FindAllStringIndex` of Go's
package `regexp` gives them for a pattern that is a text without
metacharacters and not empty, such as `b` or `ä`: leftmost first and without
overlap, each as the byte offsets of its start and of its end. The offset of
the first byte of `s` is `pos`; `skip` counts the bytes of the last match that
are still to be passed. -/
def literalMatches (needle : GoString) : Nat → Nat → GoString → List (Nat × Nat)
  | _, _, [] => []
  | skip + 1, pos, _ :: t => literalMatches needle skip (pos + 1) t
  | 0, pos, c :: t =>
    if (c :: t).take needle.length = needle ∧ needle ≠ [] then
      (pos, pos + needle.length) :: literalMatches needle (needle.length - 1) (pos + 1) t
    else literalMatches needle 0 (pos + 1) t

/-- The search pattern compiled from a literal text. -/
def literalPattern (needle : GoString) : SearchPattern := literalMatches needle 0 0

/-- The number of cells the indicator `<` takes: one when `start > 0`. -/
def leftCells (start : Nat) : Nat := if start > 0 then 1 else 0

/-- The character at the character offset `index` of the plain text lies
inside a match of the pattern: between the start and the end of the match,
both counted in characters. -/
def InMatch (pattern : SearchPattern) (plain : GoString) (index : Nat) : Prop :=
  ∃ m ∈ pattern plain,
    RuneCountInString (plain.take m.1) ≤ index ∧ index < RuneCountInString (plain.take m.2)

instance (pattern : SearchPattern) (plain : GoString) (index : Nat) :
    Decidable (InMatch pattern plain index) := by
  unfold InMatch; infer_instance

/-- The byte offset of the character at the character offset `index`, in the
plain text of the tokens. -/
def byteOffset (tokens : List Token) (index : Nat) : Nat :=
  (plainString (tokens.take index)).length

theorem byte_val (n : Nat) : (byte n).val = n % 256 := rfl

theorem DecodeRuneInString_cons (s0 : Byte) (t : GoString) :
    DecodeRuneInString (s0 :: t) =
    if firstSize s0.val = 1 then (s0.val, 1)
    else if firstSize s0.val = 0 then (RuneError, 1)
    else if (s0 :: t).length < firstSize s0.val then (RuneError, 1)
    else
      if (t.getD 0 0).val < acceptLo s0.val ∨ acceptHi s0.val < (t.getD 0 0).val then (RuneError, 1)
      else if firstSize s0.val ≤ 2 then (64 * (s0.val % 32) + (t.getD 0 0).val % 64, 2)
      else
        if (t.getD 1 0).val < 0x80 ∨ 0xBF < (t.getD 1 0).val then (RuneError, 1)
        else if firstSize s0.val ≤ 3 then (4096 * (s0.val % 16) + 64 * ((t.getD 0 0).val % 64) + (t.getD 1 0).val % 64, 3)
        else
          if (t.getD 2 0).val < 0x80 ∨ 0xBF < (t.getD 2 0).val then (RuneError, 1)
          else (262144 * (s0.val % 8) + 4096 * ((t.getD 0 0).val % 64) + 64 * ((t.getD 1 0).val % 64) + (t.getD 2 0).val % 64, 4) := rfl

theorem firstSize_cases (a : Nat) :
    (a < 0x80 ∧ firstSize a = 1) ∨ (0x80 ≤ a ∧ (a < 0xC2 ∨ 0xF5 ≤ a) ∧ firstSize a = 0) ∨
    (0xC2 ≤ a ∧ a < 0xE0 ∧ firstSize a = 2) ∨ (0xE0 ≤ a ∧ a < 0xF0 ∧ firstSize a = 3) ∨
    (0xF0 ≤ a ∧ a < 0xF5 ∧ firstSize a = 4) := by
  unfold firstSize; split_ifs <;> omega

/-- The decoder by the class of the lead byte, with one test for all the ways a
multi-byte sequence can be broken. -/
theorem DecodeRuneInString_classes (s0 : Byte) (t : GoString) :
    (firstSize s0.val = 1 ∧ DecodeRuneInString (s0 :: t) = (s0.val, 1)) ∨
    (firstSize s0.val = 0 ∧ DecodeRuneInString (s0 :: t) = (RuneError, 1)) ∨
    (firstSize s0.val = 2 ∧ DecodeRuneInString (s0 :: t) =
      if (s0 :: t).length < 2 ∨ (t.getD 0 0).val < acceptLo s0.val ∨
          acceptHi s0.val < (t.getD 0 0).val then (RuneError, 1)
      else (64 * (s0.val % 32) + (t.getD 0 0).val % 64, 2)) ∨
    (firstSize s0.val = 3 ∧ DecodeRuneInString (s0 :: t) =
      if (s0 :: t).length < 3 ∨ (t.getD 0 0).val < acceptLo s0.val ∨
          acceptHi s0.val < (t.getD 0 0).val ∨ (t.getD 1 0).val < 0x80 ∨
          0xBF < (t.getD 1 0).val then (RuneError, 1)
      else (4096 * (s0.val % 16) + 64 * ((t.getD 0 0).val % 64) + (t.getD 1 0).val % 64, 3)) ∨
    (firstSize s0.val = 4 ∧ DecodeRuneInString (s0 :: t) =
      if (s0 :: t).length < 4 ∨ (t.getD 0 0).val < acceptLo s0.val ∨
          acceptHi s0.val < (t.getD 0 0).val ∨ (t.getD 1 0).val < 0x80 ∨
          0xBF < (t.getD 1 0).val ∨ (t.getD 2 0).val < 0x80 ∨ 0xBF < (t.getD 2 0).val
        then (RuneError, 1)
      else (262144 * (s0.val % 8) + 4096 * ((t.getD 0 0).val % 64) +
        64 * ((t.getD 1 0).val % 64) + (t.getD 2 0).val % 64, 4)) := by
  rw [DecodeRuneInString_cons]
  rcases firstSize_cases s0.val with ⟨_, hs⟩ | ⟨_, _, hs⟩ | ⟨_, _, hs⟩ | ⟨_, _, hs⟩ | ⟨_, _, hs⟩
  · left; exact ⟨hs, by rw [if_pos hs]⟩
  · right; left; refine ⟨hs, ?_⟩; rw [hs]; rfl
  · right; right; left; refine ⟨hs, ?_⟩; rw [hs]
    rw [if_neg (by decide), if_neg (by decide), if_pos (by decide : 2 ≤ 2)]
    by_cases c1 : (s0 :: t).length < 2
    · rw [if_pos c1, if_pos (Or.inl c1)]
    rw [if_neg c1]
    by_cases c2 : (t.getD 0 0).val < acceptLo s0.val ∨ acceptHi s0.val < (t.getD 0 0).val
    · rw [if_pos c2, if_pos (Or.inr c2)]
    rw [if_neg c2, if_neg (by tauto)]
  · right; right; right; left; refine ⟨hs, ?_⟩; rw [hs]
    rw [if_neg (by decide), if_neg (by decide), if_neg (by decide : ¬ 3 ≤ 2),
      if_pos (by decide : 3 ≤ 3)]
    by_cases c1 : (s0 :: t).length < 3
    · rw [if_pos c1, if_pos (Or.inl c1)]
    rw [if_neg c1]
    by_cases c2 : (t.getD 0 0).val < acceptLo s0.val ∨ acceptHi s0.val < (t.getD 0 0).val
    · rw [if_pos c2, if_pos (by tauto)]
    rw [if_neg c2]
    by_cases c3 : (t.getD 1 0).val < 0x80 ∨ 0xBF < (t.getD 1 0).val
    · rw [if_pos c3, if_pos (by tauto)]
    rw [if_neg c3, if_neg (by tauto)]
  · right; right; right; right; refine ⟨hs, ?_⟩; rw [hs]
    rw [if_neg (by decide), if_neg (by decide), if_neg (by decide : ¬ 4 ≤ 2),
      if_neg (by decide : ¬ 4 ≤ 3)]
    by_cases c1 : (s0 :: t).length < 4
    · rw [if_pos c1, if_pos (Or.inl c1)]
    rw [if_neg c1]
    by_cases c2 : (t.getD 0 0).val < acceptLo s0.val ∨ acceptHi s0.val < (t.getD 0 0).val
    · rw [if_pos c2, if_pos (by tauto)]
    rw [if_neg c2]
    by_cases c3 : (t.getD 1 0).val < 0x80 ∨ 0xBF < (t.getD 1 0).val
    · rw [if_pos c3, if_pos (by tauto)]
    rw [if_neg c3]
    by_cases c4 : (t.getD 2 0).val < 0x80 ∨ 0xBF < (t.getD 2 0).val
    · rw [if_pos c4, if_pos (by tauto)]
    rw [if_neg c4, if_neg (by tauto)]

theorem accept_cases (a : Nat) :
    (a = 0xE0 ∧ acceptLo a = 0xA0 ∧ acceptHi a = 0xBF) ∨
    (a = 0xF0 ∧ acceptLo a = 0x90 ∧ acceptHi a = 0xBF) ∨
    (a = 0xED ∧ acceptLo a = 0x80 ∧ acceptHi a = 0x9F) ∨
    (a = 0xF4 ∧ acceptLo a = 0x80 ∧ acceptHi a = 0x8F) ∨
    (a ≠ 0xE0 ∧ a ≠ 0xF0 ∧ a ≠ 0xED ∧ a ≠ 0xF4 ∧ acceptLo a = 0x80 ∧ acceptHi a = 0xBF) := by
  unfold acceptLo acceptHi; split_ifs <;> omega

theorem DecodeRuneInString_valid (s : GoString) : ValidRune (DecodeRuneInString s).1 := by
  unfold ValidRune MaxRune
  cases s with
  | nil => simp [DecodeRuneInString, RuneError]
  | cons s0 t =>
    have h0 := s0.isLt
    have h1 := (t.getD 0 0).isLt
    have h2 := (t.getD 1 0).isLt
    have h3 := (t.getD 2 0).isLt
    rcases DecodeRuneInString_classes s0 t with ⟨hs, h⟩ | ⟨hs, h⟩ | ⟨hs, h⟩ | ⟨hs, h⟩ | ⟨hs, h⟩ <;>
      rw [h] <;>
      rcases firstSize_cases s0.val with ⟨hr, hs'⟩ | ⟨hr, hr', hs'⟩ | ⟨hr, hr', hs'⟩ |
        ⟨hr, hr', hs'⟩ | ⟨hr, hr', hs'⟩ <;>
      (try omega) <;> (try unfold RuneError) <;> (try split_ifs) <;> (try dsimp only) <;>
      rcases accept_cases s0.val with ⟨ha, hl, hh⟩ | ⟨ha, hl, hh⟩ | ⟨ha, hl, hh⟩ | ⟨ha, hl, hh⟩ |
        ⟨ha, ha', ha'', ha''', hl, hh⟩ <;> omega

theorem DecodeRuneInString_size (s0 : Byte) (t : GoString) :
    1 ≤ (DecodeRuneInString (s0 :: t)).2 ∧ (DecodeRuneInString (s0 :: t)).2 ≤ (s0 :: t).length := by
  rcases DecodeRuneInString_classes s0 t with ⟨hs, h⟩ | ⟨hs, h⟩ | ⟨hs, h⟩ | ⟨hs, h⟩ | ⟨hs, h⟩ <;>
    rw [h] <;> (try split_ifs) <;> simp only [List.length_cons] at * <;> omega


theorem runesFrom_skip (k : Nat) (s : GoString) : runesFrom k s = runesFrom 0 (s.drop k) := by
  induction k generalizing s with
  | zero => rfl
  | succ k ih =>
    cases s with
    | nil => rfl
    | cons c t => rw [runesFrom, ih, List.drop_succ_cons]

theorem stringToRunes_cons (s0 : Byte) (t : GoString) :
    stringToRunes (s0 :: t) = (DecodeRuneInString (s0 :: t)).1 ::
      stringToRunes ((s0 :: t).drop (DecodeRuneInString (s0 :: t)).2) := by
  have h := (DecodeRuneInString_size s0 t).1
  unfold stringToRunes
  rw [runesFrom, runesFrom_skip]
  obtain ⟨n, hn⟩ : ∃ n, (DecodeRuneInString (s0 :: t)).2 = n + 1 := ⟨_, (Nat.sub_add_cancel h).symm⟩
  rw [hn, List.drop_succ_cons, Nat.add_sub_cancel]

theorem stringToRunes_valid (s : GoString) : ∀ r ∈ stringToRunes s, ValidRune r := by
  generalize h : s.length = n
  induction n using Nat.strong_induction_on generalizing s with
  | _ n ih =>
    cases s with
    | nil => intro r hr; simp [stringToRunes, runesFrom] at hr
    | cons s0 t =>
      intro r hr
      rw [stringToRunes_cons, List.mem_cons] at hr
      rcases hr with rfl | hr
      · exact DecodeRuneInString_valid _
      · have hsz := DecodeRuneInString_size s0 t
        refine ih _ ?_ _ rfl r hr
        rw [List.length_drop, ← h]
        omega

theorem DecodeRuneInString_EncodeRune (r : Nat) (hr : ValidRune r) (rest : GoString) :
    DecodeRuneInString (EncodeRune r ++ rest) = (r, (EncodeRune r).length) := by
  unfold ValidRune MaxRune at hr
  unfold EncodeRune MaxRune
  split_ifs with h1 h2 h3 h4
  · have hsz : firstSize (byte r).val = 1 := by
      simp only [byte_val]; unfold firstSize; split_ifs <;> omega
    rcases DecodeRuneInString_classes (byte r) rest with ⟨hs, h⟩ | ⟨hs, h⟩ | ⟨hs, h⟩ |
      ⟨hs, h⟩ | ⟨hs, h⟩ <;> rw [hsz] at hs <;> (try exact absurd hs (by decide))
    rw [List.singleton_append, h, byte_val, List.length_singleton, Nat.mod_eq_of_lt (by omega)]
  · have hsz : firstSize (byte (0xC0 + r / 64)).val = 2 := by
      simp only [byte_val]; unfold firstSize; split_ifs <;> omega
    rcases DecodeRuneInString_classes (byte (0xC0 + r / 64)) (byte (0x80 + r % 64) :: rest)
      with ⟨hs, h⟩ | ⟨hs, h⟩ | ⟨hs, h⟩ | ⟨hs, h⟩ | ⟨hs, h⟩ <;> rw [hsz] at hs <;>
      (try exact absurd hs (by decide))
    rw [List.cons_append, List.cons_append, List.nil_append, h, if_neg]
    · simp only [List.getD_cons_zero, byte_val, List.length_cons, List.length_nil, Prod.mk.injEq, and_true]
      omega
    · rcases accept_cases (byte (0xC0 + r / 64)).val with ⟨ha, hl, hh⟩ | ⟨ha, hl, hh⟩ |
        ⟨ha, hl, hh⟩ | ⟨ha, hl, hh⟩ | ⟨ha, ha', ha'', ha''', hl, hh⟩ <;>
        rw [hl, hh] <;>
        simp only [List.getD_cons_zero, byte_val, List.length_cons] at ha ⊢ <;> omega
  · omega
  · have hsz : firstSize (byte (0xE0 + r / 4096)).val = 3 := by
      simp only [byte_val]; unfold firstSize; split_ifs <;> omega
    rcases DecodeRuneInString_classes (byte (0xE0 + r / 4096))
      (byte (0x80 + r / 64 % 64) :: byte (0x80 + r % 64) :: rest)
      with ⟨hs, h⟩ | ⟨hs, h⟩ | ⟨hs, h⟩ | ⟨hs, h⟩ | ⟨hs, h⟩ <;> rw [hsz] at hs <;>
      (try exact absurd hs (by decide))
    rw [List.cons_append, List.cons_append, List.cons_append, List.nil_append, h, if_neg]
    · simp only [List.getD_cons_zero, List.getD_cons_succ, byte_val, List.length_cons,
        List.length_nil, Prod.mk.injEq, and_true]
      omega
    · rcases accept_cases (byte (0xE0 + r / 4096)).val with ⟨ha, hl, hh⟩ | ⟨ha, hl, hh⟩ |
        ⟨ha, hl, hh⟩ | ⟨ha, hl, hh⟩ | ⟨ha, ha', ha'', ha''', hl, hh⟩ <;>
        rw [hl, hh] <;>
        simp only [List.getD_cons_zero, List.getD_cons_succ, byte_val, List.length_cons]
          at ha ⊢ <;> omega
  · have hsz : firstSize (byte (0xF0 + r / 262144)).val = 4 := by
      simp only [byte_val]; unfold firstSize; split_ifs <;> omega
    rcases DecodeRuneInString_classes (byte (0xF0 + r / 262144))
      (byte (0x80 + r / 4096 % 64) :: byte (0x80 + r / 64 % 64) :: byte (0x80 + r % 64) :: rest)
      with ⟨hs, h⟩ | ⟨hs, h⟩ | ⟨hs, h⟩ | ⟨hs, h⟩ | ⟨hs, h⟩ <;> rw [hsz] at hs <;>
      (try exact absurd hs (by decide))
    rw [List.cons_append, List.cons_append, List.cons_append, List.cons_append,
      List.nil_append, h, if_neg]
    · simp only [List.getD_cons_zero, List.getD_cons_succ, byte_val, List.length_cons,
        List.length_nil, Prod.mk.injEq, and_true]
      omega
    · rcases accept_cases (byte (0xF0 + r / 262144)).val with ⟨ha, hl, hh⟩ | ⟨ha, hl, hh⟩ |
        ⟨ha, hl, hh⟩ | ⟨ha, hl, hh⟩ | ⟨ha, ha', ha'', ha''', hl, hh⟩ <;>
        rw [hl, hh] <;>
        simp only [List.getD_cons_zero, List.getD_cons_succ, byte_val, List.length_cons]
          at ha ⊢ <;> omega

theorem stringToRunes_EncodeRune_append (r : Nat) (hr : ValidRune r) (rest : GoString) :
    stringToRunes (EncodeRune r ++ rest) = r :: stringToRunes rest := by
  have hd := DecodeRuneInString_EncodeRune r hr rest
  have hne : ∃ b t, EncodeRune r = b :: t := by
    unfold EncodeRune; split_ifs <;> exact ⟨_, _, rfl⟩
  obtain ⟨b, t, hbt⟩ := hne
  rw [hbt, List.cons_append] at hd ⊢
  rw [stringToRunes_cons, hd]
  simp

/-! ### The overstrike detectors -/

theorem consumeBold_cases (cfg : ManPageFormat) (runes : List Nat) (index : Nat) :
    consumeBold cfg runes index = some (index, none) ∨
    ∃ r, runes[index]? = some r ∧ runes[index + 1]? = some 0x08 ∧ runes[index + 2]? = some r ∧
      consumeBold cfg runes index = some (index + 3, some ⟨r, cfg.manPageBold⟩) := by
  unfold consumeBold
  by_cases h : index + 2 ≥ runes.length
  · left; rw [if_pos h]
  · rw [if_neg h]
    have h0 : index < runes.length := by omega
    have h1 : index + 1 < runes.length := by omega
    have h2 : index + 2 < runes.length := by omega
    rw [List.getElem?_eq_getElem h0, List.getElem?_eq_getElem h1, List.getElem?_eq_getElem h2]
    simp only [Option.bind_eq_bind, Option.some_bind]
    by_cases c1 : runes[index + 1] ≠ 0x08
    · left; rw [if_pos c1]
    · rw [if_neg c1]
      by_cases c2 : runes[index] ≠ runes[index + 2]
      · left; rw [if_pos c2]
      · right; rw [if_neg c2]
        push_neg at c1 c2
        exact ⟨runes[index], rfl, by rw [c1], by rw [c2], rfl⟩

theorem consumeUnderline_cases (cfg : ManPageFormat) (runes : List Nat) (index : Nat) :
    consumeUnderline cfg runes index = some (index, none) ∨
    ∃ r, runes[index]? = some 0x5F ∧ runes[index + 1]? = some 0x08 ∧ runes[index + 2]? = some r ∧
      consumeUnderline cfg runes index = some (index + 3, some ⟨r, cfg.manPageUnderline⟩) := by
  unfold consumeUnderline
  by_cases h : index + 2 ≥ runes.length
  · left; rw [if_pos h]
  · rw [if_neg h]
    have h0 : index < runes.length := by omega
    have h1 : index + 1 < runes.length := by omega
    have h2 : index + 2 < runes.length := by omega
    rw [List.getElem?_eq_getElem h0, List.getElem?_eq_getElem h1, List.getElem?_eq_getElem h2]
    simp only [Option.bind_eq_bind, Option.some_bind]
    by_cases c1 : runes[index + 1] ≠ 0x08
    · left; rw [if_pos c1]
    · rw [if_neg c1]
      by_cases c2 : runes[index] ≠ 0x5F
      · left; rw [if_pos c2]
      · right; rw [if_neg c2]
        push_neg at c1 c2
        exact ⟨runes[index + 2], by rw [c2], by rw [c1], rfl, rfl⟩

theorem rangeString_bullet3 :
    rangeString 0 0 [0x2B, 0x08, 0x6F] = [(0, 0x2B), (1, 0x08), (2, 0x6F)] := by decide

theorem rangeString_bullet7 :
    rangeString 0 0 [0x2B, 0x08, 0x2B, 0x08, 0x6F, 0x08, 0x6F] =
      [(0, 0x2B), (1, 0x08), (2, 0x2B), (3, 0x08), (4, 0x6F), (5, 0x08), (6, 0x6F)] := by decide

/-- The mismatch loop returns whether some rune differs from the pattern, when
every offset of the pattern is in range. -/
theorem bulletMismatch_eq (runes : List Nat) (index : Nat) (l : List (Nat × Nat)) (m : Bool)
    (h : ∀ p ∈ l, index + p.1 < runes.length) :
    bulletMismatch runes index l m =
      some (m || l.any (fun p => decide (runes[index + p.1]? ≠ some p.2))) := by
  induction l generalizing m with
  | nil => simp [bulletMismatch]
  | cons p l ih =>
    obtain ⟨delta, c⟩ := p
    have hp : index + delta < runes.length := h (delta, c) (List.mem_cons_self _ _)
    rw [bulletMismatch, List.getElem?_eq_getElem hp]
    simp only [Option.bind_eq_bind, Option.some_bind]
    rw [ih _ (fun p hp => h p (List.mem_cons_of_mem _ hp))]
    simp only [List.any_cons, Option.some.injEq, ne_eq]
    by_cases hc : c = runes[index + delta]
    · subst hc; simp [List.getElem?_eq_getElem hp]
    · have : ¬ runes[index + delta] = c := fun h => hc h.symm
      simp [hc, this, List.getElem?_eq_getElem hp]

theorem consumeBullet_cases (runes : List Nat) (index : Nat) :
    consumeBullet runes index = some (index, none) ∨
    (index + 3 ≤ runes.length ∧
      consumeBullet runes index = some (index + 3, some ⟨0x2022, StyleDefault⟩)) ∨
    (index + 7 ≤ runes.length ∧
      consumeBullet runes index = some (index + 7, some ⟨0x2022, StyleDefault⟩)) := by
  unfold consumeBullet bulletPatterns
  simp only [consumeBulletLoop, List.length_cons, List.length_nil, rangeString_bullet3,
    rangeString_bullet7]
  by_cases h3 : index + 3 > runes.length
  · have h7 : index + 7 > runes.length := by omega
    left; simp [h3, h7]
  · rw [if_neg h3, bulletMismatch_eq _ _ _ _ (by
      intro p hp; simp at hp; rcases hp with rfl | rfl | rfl <;> simp <;> omega)]
    simp only [Option.bind_eq_bind, Option.some_bind]
    split
    · by_cases h7 : index + 7 > runes.length
      · left; rw [if_pos h7]
      · rw [if_neg h7, bulletMismatch_eq _ _ _ _ (by
          intro p hp; simp at hp
          rcases hp with rfl | rfl | rfl | rfl | rfl | rfl | rfl <;> simp <;> omega)]
        simp only [Option.bind_eq_bind, Option.some_bind]
        split
        · left; rfl
        · right; right; exact ⟨by omega, rfl⟩
    · right; left; exact ⟨by omega, rfl⟩

/-! ### The loop of `tokensFromStyledString` -/

theorem tokensLoop_zero_index (cfg : ManPageFormat) (style : tcell.Style) (runes : List Nat)
    (fuel index : Nat) (tokens : List Token) (h : ¬ index < runes.length) :
    tokensLoop cfg style runes (fuel + 1) index tokens = some tokens := by
  rw [tokensLoop, if_neg h]

/-- One round of the loop: it appends one token and moves on by at least one
rune, staying inside the runes. -/
theorem tokensLoop_succ (cfg : ManPageFormat) (style : tcell.Style) (runes : List Nat)
    (index : Nat) (h : index < runes.length) :
    ∃ next tok, index < next ∧ next ≤ runes.length ∧ (tok.Rune = 0x2022 ∨ tok.Rune ∈ runes) ∧
      ∀ fuel tokens, tokensLoop cfg style runes (fuel + 1) index tokens =
        tokensLoop cfg style runes fuel next (tokens ++ [tok]) := by
  rcases consumeBullet_cases runes index with hb | ⟨hl, hb⟩ | ⟨hl, hb⟩
  · rcases consumeBold_cases cfg runes index with ho | ⟨r, hr0, _, _, ho⟩
    · rcases consumeUnderline_cases cfg runes index with hu | ⟨r, _, _, hr2, hu⟩
      · refine ⟨index + 1, ⟨runes[index], style⟩, by omega, by omega,
          Or.inr (List.getElem_mem _), ?_⟩
        intro fuel tokens
        rw [tokensLoop, if_pos h, hb, ho, hu, List.getElem?_eq_getElem h]
        simp
      · have hlen : index + 2 < runes.length := by
          rcases Nat.lt_or_ge (index + 2) runes.length with hlt | hge
          · exact hlt
          · rw [List.getElem?_eq_none hge] at hr2; cases hr2
        refine ⟨index + 3, ⟨r, cfg.manPageUnderline⟩, by omega, by omega,
          Or.inr (List.getElem?_mem hr2), ?_⟩
        intro fuel tokens
        rw [tokensLoop, if_pos h, hb, ho, hu]
        simp
    · have hlen : index + 2 < runes.length := by
        rename_i hr2
        rcases Nat.lt_or_ge (index + 2) runes.length with hlt | hge
        · exact hlt
        · rw [List.getElem?_eq_none hge] at hr2; cases hr2
      refine ⟨index + 3, ⟨r, cfg.manPageBold⟩, by omega, by omega,
        Or.inr (List.getElem?_mem hr0), ?_⟩
      intro fuel tokens
      rw [tokensLoop, if_pos h, hb, ho]
      simp
  · refine ⟨index + 3, ⟨0x2022, StyleDefault⟩, by omega, hl, Or.inl rfl, ?_⟩
    intro fuel tokens
    rw [tokensLoop, if_pos h, hb]
    simp
  · refine ⟨index + 7, ⟨0x2022, StyleDefault⟩, by omega, hl, Or.inl rfl, ?_⟩
    intro fuel tokens
    rw [tokensLoop, if_pos h, hb]
    simp

/-- With a unit of fuel for each remaining rune and one more, the loop returns:
the tokens it had, then at least one new token when a rune remains, each with
the bullet or with a rune of the input. -/
theorem tokensLoop_total (cfg : ManPageFormat) (style : tcell.Style) (runes : List Nat) :
    ∀ (fuel index : Nat) (tokens : List Token), index ≤ runes.length →
      runes.length - index < fuel →
      ∃ new, tokensLoop cfg style runes fuel index tokens = some (tokens ++ new) ∧
        (index < runes.length → new ≠ []) ∧
        ∀ t ∈ new, t.Rune = 0x2022 ∨ t.Rune ∈ runes := by
  intro fuel
  induction fuel with
  | zero => intro index tokens _ h; omega
  | succ fuel ih =>
    intro index tokens hle hfuel
    by_cases h : index < runes.length
    · obtain ⟨next, tok, hlt, hnext, htok, hstep⟩ := tokensLoop_succ cfg style runes index h
      obtain ⟨new, hnew, _, hall⟩ := ih next (tokens ++ [tok]) hnext (by omega)
      refine ⟨tok :: new, ?_, fun _ => List.cons_ne_nil _ _, ?_⟩
      · rw [hstep, hnew, List.append_assoc, List.singleton_append]
      · intro t ht
        rcases List.mem_cons.mp ht with rfl | ht
        · exact htok
        · exact hall t ht
    · exact ⟨[], by rw [tokensLoop_zero_index _ _ _ _ _ _ h, List.append_nil],
        fun h' => absurd h' h, fun t ht => by cases ht⟩

theorem tokensFromStyledString_total (cfg : ManPageFormat) (styledString : StyledString) :
    ∃ tokens, tokensFromStyledString cfg styledString = some tokens ∧
      (styledString.String ≠ [] → tokens ≠ []) ∧
      ∀ t ∈ tokens, t.Rune = 0x2022 ∨ t.Rune ∈ stringToRunes styledString.String := by
  obtain ⟨new, h, hne, hall⟩ := tokensLoop_total cfg styledString.Style
    (stringToRunes styledString.String) ((stringToRunes styledString.String).length + 1) 0 []
    (Nat.zero_le _) (by omega)
  refine ⟨new, by rw [tokensFromStyledString, h, List.nil_append], ?_, hall⟩
  intro hs
  apply hne
  cases hstr : styledString.String with
  | nil => exact absurd hstr hs
  | cons b t => rw [stringToRunes_cons]; simp

/-! ### The loops of `TokensFromString` -/

theorem tabLoop_eq (style : tcell.Style) : ∀ (fuel : Nat) (tokens : List Token),
    _TabSize - tokens.length % _TabSize ≤ fuel →
    tabLoop style fuel tokens =
      some (tokens ++ List.replicate (_TabSize - tokens.length % _TabSize) ⟨0x20, style⟩) := by
  unfold _TabSize
  intro fuel
  induction fuel with
  | zero => intro tokens h; omega
  | succ fuel ih =>
    intro tokens h
    rw [tabLoop]
    simp only [List.length_append, List.length_singleton, _TabSize]
    by_cases hc : (tokens.length + 1) % 4 = 0
    · rw [if_pos hc]
      have : 4 - tokens.length % 4 = 1 := by omega
      rw [this]; rfl
    · rw [if_neg hc, ih _ (by simp only [List.length_append, List.length_singleton]; omega)]
      have : 4 - tokens.length % 4 = (4 - (tokens ++ [Token.mk 0x20 style]).length % 4) + 1 := by
        simp only [List.length_append, List.length_singleton]; omega
      rw [this, List.replicate_succ, List.append_assoc, List.singleton_append]

/-- The inner loop returns: the tokens it had, then for every token of the
styled string at least one new token, each a space, a `?`, a `<` or a token of
the styled string that is no tab, no backspace and not U+FFFD. -/
theorem translateTokens_total (style : tcell.Style) :
    ∀ (toks tokens : List Token),
      ∃ new, translateTokens style toks tokens = some (tokens ++ new) ∧
        (toks ≠ [] → new ≠ []) ∧
        ∀ t ∈ new, t.Rune = 0x20 ∨ t.Rune = 0x3F ∨ t.Rune = 0x3C ∨
          (t ∈ toks ∧ t.Rune ≠ 0x09 ∧ t.Rune ≠ 0xFFFD ∧ t.Rune ≠ 0x08) := by
  intro toks
  induction toks with
  | nil => intro tokens; exact ⟨[], by simp [translateTokens], by simp, by simp⟩
  | cons token rest ih =>
    intro tokens
    rw [translateTokens]
    by_cases h1 : token.Rune = 0x09
    · rw [if_pos h1, tabLoop_eq style _ tokens (by unfold _TabSize; omega)]
      simp only [Option.bind_eq_bind, Option.some_bind]
      obtain ⟨new, hnew, _, hall⟩ := ih
        (tokens ++ List.replicate (_TabSize - tokens.length % _TabSize) ⟨0x20, style⟩)
      refine ⟨List.replicate (_TabSize - tokens.length % _TabSize) ⟨0x20, style⟩ ++ new,
        by rw [hnew, List.append_assoc], ?_, ?_⟩
      · intro _ hnil
        have := congrArg List.length hnil
        simp only [List.length_append, List.length_replicate, List.length_nil, _TabSize] at this
        omega
      · intro t ht
        rcases List.mem_append.mp ht with ht | ht
        · left; rw [(List.mem_replicate.mp ht).2]
        · rcases hall t ht with h | h | h | ⟨h, h'⟩
          · exact Or.inl h
          · exact Or.inr (Or.inl h)
          · exact Or.inr (Or.inr (Or.inl h))
          · exact Or.inr (Or.inr (Or.inr ⟨List.mem_cons_of_mem _ h, h'⟩))
    · rw [if_neg h1]
      have key : ∀ tok : Token,
          (tok.Rune = 0x20 ∨ tok.Rune = 0x3F ∨ tok.Rune = 0x3C ∨
            (tok ∈ token :: rest ∧ tok.Rune ≠ 0x09 ∧ tok.Rune ≠ 0xFFFD ∧ tok.Rune ≠ 0x08)) →
          ∃ new, translateTokens style rest (tokens ++ [tok]) = some (tokens ++ new) ∧
            (token :: rest ≠ [] → new ≠ []) ∧
            ∀ t ∈ new, t.Rune = 0x20 ∨ t.Rune = 0x3F ∨ t.Rune = 0x3C ∨
              (t ∈ token :: rest ∧ t.Rune ≠ 0x09 ∧ t.Rune ≠ 0xFFFD ∧ t.Rune ≠ 0x08) := by
        intro tok htok
        obtain ⟨new, hnew, _, hall⟩ := ih (tokens ++ [tok])
        refine ⟨tok :: new, by rw [hnew, List.append_assoc, List.singleton_append],
          fun _ => List.cons_ne_nil _ _, ?_⟩
        intro t ht
        rcases List.mem_cons.mp ht with rfl | ht
        · exact htok
        · rcases hall t ht with h | h | h | ⟨h, h'⟩
          · exact Or.inl h
          · exact Or.inr (Or.inl h)
          · exact Or.inr (Or.inr (Or.inl h))
          · exact Or.inr (Or.inr (Or.inr ⟨List.mem_cons_of_mem _ h, h'⟩))
      by_cases h2 : token.Rune = 0xFFFD
      · rw [if_pos h2]; exact key _ (Or.inr (Or.inl rfl))
      · rw [if_neg h2]
        by_cases h3 : token.Rune = 0x08
        · rw [if_pos h3]; exact key _ (Or.inr (Or.inr (Or.inl rfl)))
        · rw [if_neg h3]
          exact key _ (Or.inr (Or.inr (Or.inr ⟨List.mem_cons_self _ _, h1, h2, h3⟩)))

/-- The outer loop returns: the tokens it had, then new tokens, at least one
when a run is not empty, each with a rune that is a Unicode scalar value and is
no tab, no backspace and not U+FFFD. -/
theorem tokensFromRuns_total (cfg : ManPageFormat) :
    ∀ (runs : List StyledString) (tokens : List Token),
      ∃ new, tokensFromRuns cfg runs tokens = some (tokens ++ new) ∧
        ((∃ run ∈ runs, run.String ≠ []) → new ≠ []) ∧
        ∀ t ∈ new, ValidRune t.Rune ∧ t.Rune ≠ 0x09 ∧ t.Rune ≠ 0xFFFD ∧ t.Rune ≠ 0x08 := by
  intro runs
  induction runs with
  | nil => intro tokens; exact ⟨[], by simp [tokensFromRuns], by simp, by simp⟩
  | cons run rest ih =>
    intro tokens
    obtain ⟨toks, htoks, hne, hall⟩ := tokensFromStyledString_total cfg run
    obtain ⟨new1, hnew1, hne1, hall1⟩ := translateTokens_total run.Style toks tokens
    obtain ⟨new2, hnew2, hne2, hall2⟩ := ih (tokens ++ new1)
    refine ⟨new1 ++ new2, ?_, ?_, ?_⟩
    · rw [tokensFromRuns, htoks]
      simp only [Option.bind_eq_bind, Option.some_bind]
      rw [hnew1]
      simp only [Option.some_bind]
      rw [hnew2, List.append_assoc]
    · rintro ⟨r, hr, hrne⟩
      rcases List.mem_cons.mp hr with rfl | hr
      · intro hnil
        exact hne1 (hne hrne) (List.append_eq_nil.mp hnil).1
      · intro hnil
        exact hne2 ⟨r, hr, hrne⟩ (List.append_eq_nil.mp hnil).2
    · intro t ht
      rcases List.mem_append.mp ht with ht | ht
      · rcases hall1 t ht with h | h | h | ⟨h, h1, h2, h3⟩
        · rw [h]; decide
        · rw [h]; decide
        · rw [h]; decide
        · refine ⟨?_, h1, h2, h3⟩
          rcases hall t h with h | h
          · rw [h]; decide
          · exact stringToRunes_valid _ _ h
      · exact hall2 t ht

theorem stringToRunes_plainString (tokens : List Token)
    (h : ∀ t ∈ tokens, ValidRune t.Rune) :
    stringToRunes (plainString tokens) = tokens.map (fun t => t.Rune) := by
  induction tokens with
  | nil => rfl
  | cons t rest ih =>
    unfold plainString at ih ⊢
    rw [List.flatMap_cons, stringToRunes_EncodeRune_append _ (h t (List.mem_cons_self _ _)),
      ih (fun t ht => h t (List.mem_cons_of_mem _ ht)), List.map_cons]

/-! ### The SGR interpreter -/

theorem getElem?_add_drop {α : Type} (l : List α) (i k : Nat) : l[i + k]? = (l.drop i)[k]? := by
  rw [List.getElem?_drop]

theorem consumeCompositeColor_drop (numbers : List GoString) (index : Nat) :
    consumeCompositeColor numbers index =
      match numbers.drop index with
      | [] => none
      | rest => some ((compositeColor rest).map fun p => (index + p.1, p.2)) := by
  have hlen : numbers.length ≤ index ∨ numbers.length = index + (numbers.drop index).length := by
    rw [List.length_drop]; omega
  unfold consumeCompositeColor
  rw [getElem?_add_drop numbers index 1, getElem?_add_drop numbers index 2,
    getElem?_add_drop numbers index 3, getElem?_add_drop numbers index 4,
    show numbers[index]? = (numbers.drop index)[0]? from getElem?_add_drop numbers index 0]
  rcases hlen with hlen | hlen
  · rw [List.drop_eq_nil_of_le hlen]; rfl
  · rw [hlen]
    generalize numbers.drop index = d
    rcases d with _ | ⟨a, _ | ⟨b, _ | ⟨c, _ | ⟨d, _ | ⟨e, rest⟩⟩⟩⟩⟩
    · rfl
    · by_cases h1 : a ≠ [0x33, 0x38] ∧ a ≠ [0x34, 0x38] <;> simp [compositeColor, h1]
    · by_cases h1 : a ≠ [0x33, 0x38] ∧ a ≠ [0x34, 0x38] <;>
        by_cases h2 : b = [0x35] <;> by_cases h3 : b = [0x32] <;>
        simp [compositeColor, h1, h2, h3]
    · by_cases h1 : a ≠ [0x33, 0x38] ∧ a ≠ [0x34, 0x38] <;>
        by_cases h2 : b = [0x35] <;> by_cases h3 : b = [0x32] <;>
        simp [compositeColor, h1, h2, h3] <;> cases Atoi c <;> simp
    · by_cases h1 : a ≠ [0x33, 0x38] ∧ a ≠ [0x34, 0x38] <;>
        by_cases h2 : b = [0x35] <;> by_cases h3 : b = [0x32] <;>
        simp [compositeColor, h1, h2, h3] <;> cases Atoi c <;> simp
    · by_cases h1 : a ≠ [0x33, 0x38] ∧ a ≠ [0x34, 0x38] <;>
        by_cases h2 : b = [0x35] <;> by_cases h3 : b = [0x32] <;>
        simp [compositeColor, h1, h2, h3] <;>
        first
        | (cases ParseInt c 32 <;> cases Atoi d <;> cases Atoi e <;> simp)
        | (cases Atoi c <;> simp)

theorem compositeColor_taken (l : List GoString) (taken : Nat) (color : Color)
    (h : compositeColor l = some (taken, color)) : 1 ≤ taken ∧ taken ≤ l.length := by
  rcases l with _ | ⟨a, _ | ⟨b, rest⟩⟩
  · simp [compositeColor] at h
  · simp [compositeColor] at h
  · simp only [compositeColor] at h
    split_ifs at h with h1 h2 h3
    · rcases rest with _ | ⟨c, rest⟩
      · simp at h
      · cases hc : Atoi c with
        | none => simp [hc] at h
        | some n =>
          simp only [hc, Option.some.injEq, Prod.mk.injEq] at h
          simp only [List.length_cons]; omega
    · rcases rest with _ | ⟨c, _ | ⟨d, _ | ⟨e, rest⟩⟩⟩
      · simp at h
      · simp at h
      · simp at h
      · cases hc : ParseInt c 32 <;> cases hd : Atoi d <;> cases he : Atoi e <;>
          simp [hc, hd, he] at h
        simp only [List.length_cons]; omega

theorem styleFrom_skip (k : Nat) (l : List GoString) (style : tcell.Style) :
    styleFrom k l style = styleFrom 0 (l.drop k) style := by
  induction k generalizing l with
  | zero => rfl
  | succ k ih =>
    cases l with
    | nil => rfl
    | cons c t => rw [styleFrom, ih, List.drop_succ_cons]

/-- The loop of `updateStyle` returns, given a unit of fuel for each number
left and one more, the style read off the numbers left. -/
theorem updateStyleLoop_eq (numbers : List GoString) :
    ∀ (fuel index : Nat) (style : tcell.Style), index ≤ numbers.length →
      numbers.length - index < fuel →
      updateStyleLoop numbers fuel index style =
        some (styleFrom 0 (numbers.drop index) style) := by
  intro fuel
  induction fuel with
  | zero => intro index style _ h; omega
  | succ fuel ih =>
    intro index style hle hfuel
    rw [updateStyleLoop]
    by_cases h : index < numbers.length
    · have hdrop : numbers.drop index = numbers[index] :: numbers.drop (index + 1) :=
        List.drop_eq_getElem_cons h
      have hcomp : consumeCompositeColor numbers index =
          some ((compositeColor (numbers[index] :: numbers.drop (index + 1))).map
            fun p => (index + p.1, p.2)) := by
        rw [consumeCompositeColor_drop, hdrop]
      have hnext : ∀ taken color style',
          compositeColor (numbers[index] :: numbers.drop (index + 1)) = some (taken, color) →
          updateStyleLoop numbers fuel (index + taken) style' =
            some (styleFrom (taken - 1) (numbers.drop (index + 1)) style') := by
        intro taken color style' hc
        have ht := compositeColor_taken _ _ _ hc
        rw [← hdrop, List.length_drop] at ht
        rw [ih _ _ (by omega) (by omega), styleFrom_skip (taken - 1), List.drop_drop]
        congr 3; omega
      rw [if_pos h, List.getElem?_eq_getElem h, hdrop, styleFrom]
      simp only [Option.bind_eq_bind, Option.some_bind]
      by_cases c1 : TrimLeft numbers[index] = [0x33, 0x38]
      · rw [if_pos c1, if_pos c1, hcomp]
        simp only [Option.some_bind]
        cases hc : compositeColor (numbers[index] :: numbers.drop (index + 1)) with
        | none => rfl
        | some p =>
          obtain ⟨taken, color⟩ := p
          exact hnext taken color _ hc
      · rw [if_neg c1, if_neg c1]
        by_cases c2 : TrimLeft numbers[index] = [0x34, 0x38]
        · rw [if_pos c2, if_pos c2, hcomp]
          simp only [Option.some_bind]
          cases hc : compositeColor (numbers[index] :: numbers.drop (index + 1)) with
          | none => rfl
          | some p =>
            obtain ⟨taken, color⟩ := p
            exact hnext taken color _ hc
        · rw [if_neg c2, if_neg c2, ih _ _ (by omega) (by omega)]
    · rw [if_neg h, List.drop_eq_nil_of_le (by omega)]; rfl

theorem Split_ne_nil (s : GoString) : Split s ≠ [] := by
  cases s with
  | nil => simp [Split]
  | cons c cs =>
    rw [Split]
    split_ifs
    · simp
    · cases Split cs <;> simp

theorem Split_append (p q : GoString) (hp : ∀ c ∈ p, c.val ≠ 0x3B) :
    Split (p ++ 0x3B :: q) = p :: Split q := by
  induction p with
  | nil => rw [List.nil_append, Split, if_pos (by decide)]
  | cons c cs ih =>
    rw [List.cons_append, Split, if_neg (hp c (List.mem_cons_self _ _)),
      ih (fun c hc => hp c (List.mem_cons_of_mem _ hc))]

theorem Split_single (p : GoString) (hp : ∀ c ∈ p, c.val ≠ 0x3B) : Split p = [p] := by
  induction p with
  | nil => rfl
  | cons c cs ih =>
    rw [Split, if_neg (hp c (List.mem_cons_self _ _)),
      ih (fun c hc => hp c (List.mem_cons_of_mem _ hc))]

theorem Split_Join (numbers : List GoString) (hne : numbers ≠ [])
    (h : ∀ number ∈ numbers, ∀ c ∈ number, c.val ≠ 0x3B) : Split (Join numbers) = numbers := by
  induction numbers with
  | nil => exact absurd rfl hne
  | cons number rest ih =>
    cases rest with
    | nil => exact Split_single number (h number (List.mem_cons_self _ _))
    | cons next rest =>
      rw [Join, Split_append _ _ (h number (List.mem_cons_self _ _)),
        ih (List.cons_ne_nil _ _) (fun n hn => h n (List.mem_cons_of_mem _ hn))]
      exact List.cons_ne_nil _ _

theorem slice_inner (a b c : Byte) (inner : GoString) :
    slice (a :: b :: (inner ++ [c])) 2 ((a :: b :: (inner ++ [c])).length - 1) = some inner := by
  unfold slice
  simp only [List.length_cons, List.length_append, List.length_nil]
  rw [if_pos (by omega)]
  simp

/-- On a sequence of three bytes or more `updateStyle` returns, and what it
returns is read off the pieces between the first two bytes and the last. -/
theorem updateStyle_eq (style : tcell.Style) (a b c : Byte) (inner : GoString) :
    updateStyle style (a :: b :: (inner ++ [c])) = some (styleFrom 0 (Split inner) style) := by
  unfold updateStyle
  rw [slice_inner]
  simp only [Option.bind_eq_bind, Option.some_bind]
  rw [updateStyleLoop_eq _ _ _ _ (Nat.zero_le _) (by omega), List.drop_zero]

theorem updateStyle_sgr (style : tcell.Style) (numbers : List GoString) (hne : numbers ≠ [])
    (h : ∀ number ∈ numbers, ∀ c ∈ number, c.val ≠ 0x3B) :
    updateStyle style (sgr numbers) = some (styleFrom 0 numbers style) := by
  unfold sgr
  rw [updateStyle_eq, Split_Join numbers hne h]

/-! ### The pattern of the splitter -/

theorem matchParams_some (s : GoString) (n : Nat) (h : matchParams s = some n) :
    ∃ params rest, (∀ c ∈ params, isParamByte c = true) ∧ s = params ++ 0x6D :: rest ∧
      n = params.length + 1 := by
  induction s generalizing n with
  | nil => simp [matchParams] at h
  | cons c cs ih =>
    rw [matchParams] at h
    split_ifs at h with h1 h2
    · refine ⟨[], cs, by simp, ?_, by simpa using h.symm⟩
      have : c = 0x6D := Fin.ext h1
      rw [this]; rfl
    · cases hm : matchParams cs with
      | none => simp [hm] at h
      | some k =>
        obtain ⟨params, rest, hp, hs, hk⟩ := ih k hm
        refine ⟨c :: params, rest, ?_, by rw [hs]; rfl, ?_⟩
        · intro x hx
          rcases List.mem_cons.mp hx with rfl | hx
          · exact h2
          · exact hp x hx
        · simp [hm] at h; simp; omega

theorem matchParams_append (params rest : GoString) (hp : ∀ c ∈ params, isParamByte c = true) :
    matchParams (params ++ 0x6D :: rest) = some (params.length + 1) := by
  induction params with
  | nil => rw [List.nil_append, matchParams, if_pos (by decide)]; rfl
  | cons c cs ih =>
    have hc := hp c (List.mem_cons_self _ _)
    have hne : c.val ≠ 0x6D := by
      intro h
      simp only [isParamByte, h] at hc
      revert hc; decide
    rw [List.cons_append, matchParams, if_neg hne, if_pos hc,
      ih (fun c h => hp c (List.mem_cons_of_mem _ h))]
    simp

theorem matchSGR_some (s : GoString) (n : Nat) (h : matchSGR s = some n) :
    ∃ e t, IsSGR e ∧ s = e ++ t ∧ e.length = n ∧ 3 ≤ n := by
  rcases s with _ | ⟨a, _ | ⟨b, rest⟩⟩
  · simp [matchSGR] at h
  · simp [matchSGR] at h
  · simp only [matchSGR] at h
    split_ifs at h with h1
    cases hm : matchParams rest with
    | none => simp [hm] at h
    | some k =>
      obtain ⟨params, t, hp, hs, hk⟩ := matchParams_some rest k hm
      simp [hm] at h
      have ha : a = 0x1B := Fin.ext h1.1
      have hb : b = 0x5B := Fin.ext h1.2
      refine ⟨0x1B :: 0x5B :: (params ++ [0x6D]), t, ⟨params, hp, rfl⟩, ?_, ?_, by omega⟩
      · rw [ha, hb, hs]; simp
      · simp; omega

theorem matchSGR_none (s : GoString) (h : matchSGR s = none) :
    ∀ e t, IsSGR e → s ≠ e ++ t := by
  rintro e t ⟨params, hp, rfl⟩ hs
  rw [hs] at h
  simp only [List.cons_append, List.append_assoc, List.singleton_append, matchSGR] at h
  rw [if_pos (by decide), matchParams_append _ _ hp] at h
  simp at h

theorem findAllFrom_skip (k pos : Nat) (s : GoString) :
    findAllFrom k pos s = findAllFrom 0 (pos + k) (s.drop k) := by
  induction k generalizing pos s with
  | zero => rfl
  | succ k ih =>
    cases s with
    | nil => rfl
    | cons c t =>
      rw [findAllFrom, ih, List.drop_succ_cons]
      congr 1; omega

theorem SGRFree_nil (rest : GoString) : SGRFree [] rest := by
  intro a b hab hb
  have := List.append_eq_nil.mp hab.symm
  exact absurd this.2 hb

theorem SGRFree_cons (c : Byte) (gap rest : GoString)
    (hc : ∀ e t, IsSGR e → c :: (gap ++ rest) ≠ e ++ t) (h : SGRFree gap rest) :
    SGRFree (c :: gap) rest := by
  intro a b hab hb e t he
  cases a with
  | nil =>
    rw [List.nil_append] at hab
    rw [← hab]
    exact hc e t he
  | cons x a =>
    rw [List.cons_append, List.cons.injEq] at hab
    exact h a b hab.2 hb e t he

/-- The scan finds the escape sequences of the cut of the text. -/
theorem findAllFrom_segmented (s : GoString) : ∀ pos : Nat,
    ∃ segs tail, Segmented s segs tail ∧ findAllFrom 0 pos s = offsets pos segs := by
  generalize hn : s.length = n
  induction n using Nat.strong_induction_on generalizing s with
  | _ n ih =>
    intro pos
    cases s with
    | nil => exact ⟨[], [], Segmented.last [] (SGRFree_nil []), rfl⟩
    | cons c cs =>
      rw [findAllFrom]
      cases hm : matchSGR (c :: cs) with
      | some k =>
        obtain ⟨e, t, he, hs, hlen, hk⟩ := matchSGR_some _ _ hm
        have hdrop : cs.drop (k - 1) = t := by
          have : (c :: cs).drop k = t := by rw [hs, ← hlen, List.drop_left]
          obtain ⟨j, rfl⟩ : ∃ j, k = j + 1 := ⟨k - 1, by omega⟩
          rw [List.drop_succ_cons] at this
          rw [Nat.add_sub_cancel]; exact this
        have hlt : t.length < n := by
          rw [← hn, hs, List.length_append]; omega
        obtain ⟨segs, tail, hseg, hfind⟩ := ih _ hlt t rfl (pos + k)
        refine ⟨([], e) :: segs, tail, ?_, ?_⟩
        · rw [hs]
          exact Segmented.seg [] e t segs tail he (SGRFree_nil _) hseg
        · simp only
          rw [findAllFrom_skip, hdrop, offsets, List.length_nil, hlen,
            show pos + 1 + (k - 1) = pos + k by omega, hfind]
          rfl
      | none =>
        have hnone := matchSGR_none _ hm
        have hlt : cs.length < n := by rw [← hn, List.length_cons]; omega
        obtain ⟨segs, tail, hseg, hfind⟩ := ih _ hlt cs rfl (pos + 1)
        simp only
        rw [hfind]
        cases hseg with
        | last _ hfree =>
          refine ⟨[], c :: cs, Segmented.last _ (SGRFree_cons c cs [] ?_ hfree), rfl⟩
          rw [List.append_nil]; exact hnone
        | seg gap e rest segs' _ he hfree hrest =>
          refine ⟨(c :: gap, e) :: segs', tail,
            Segmented.seg (c :: gap) e rest segs' tail he (SGRFree_cons c gap _ hnone hfree) hrest,
            ?_⟩
          rw [offsets, offsets, List.length_cons]
          congr 2 <;> omega

theorem Segmented_unsplit (s : GoString) (segs : List (GoString × GoString)) (tail : GoString)
    (h : Segmented s segs tail) : s = unsplit segs tail := by
  induction h with
  | last _ _ => rfl
  | seg gap e rest segs tail _ _ _ ih => rw [unsplit, ← ih]

theorem Segmented_isSGR (s : GoString) (segs : List (GoString × GoString)) (tail : GoString)
    (h : Segmented s segs tail) : ∀ p ∈ segs, IsSGR p.2 := by
  induction h with
  | last _ _ => intro p hp; cases hp
  | seg gap e rest segs tail he _ _ ih =>
    intro p hp
    rcases List.mem_cons.mp hp with rfl | hp
    · exact he
    · exact ih p hp

/-! ### The loop of the splitter -/

theorem slice_mid (pre mid post : GoString) :
    slice (pre ++ (mid ++ post)) pre.length (pre.length + mid.length) = some mid := by
  unfold slice
  rw [if_pos (by simp only [List.length_append]; omega), List.drop_left, Nat.add_sub_cancel_left,
    List.take_left]

theorem updateStyle_isSGR (style : tcell.Style) (e : GoString) (he : IsSGR e) :
    ∃ params, e = 0x1B :: 0x5B :: (params ++ [0x6D]) ∧
      updateStyle style e = some (styleFrom 0 (Split params) style) := by
  obtain ⟨params, _, rfl⟩ := he
  exact ⟨params, rfl, updateStyle_eq _ _ _ _ _⟩

theorem unsplit_append (segs : List (GoString × GoString)) (tail : GoString) :
    unsplit segs tail = unsplit segs [] ++ tail := by
  induction segs with
  | nil => rfl
  | cons p segs ih =>
    obtain ⟨gap, e⟩ := p
    rw [unsplit, unsplit, ih, List.append_assoc, List.append_assoc]

/-- The loop of `styledStringsFromString` over the offsets of a cut text, the
part `pre` of the input being behind it: it returns, and it has appended the
gaps that are not empty with their styles. -/
theorem styledStringsLoop_offsets (tail : GoString) :
    ∀ (segs : List (GoString × GoString)) (pre : GoString) (acc : List StyledString)
      (style : tcell.Style) (end0 : Nat), (∀ p ∈ segs, IsSGR p.2) →
      ∃ all last end1, gapRuns style segs tail = some (all ++ [⟨tail, last⟩]) ∧
        styledStringsLoop (pre ++ unsplit segs tail) (offsets pre.length segs) acc style
            pre.length end0 =
          some (acc ++ all.filter (fun run => decide (run.String ≠ [])), last,
            pre.length + (unsplit segs []).length, end1) ∧
        (segs = [] → end1 = end0) ∧
        (segs ≠ [] → end1 < pre.length + (unsplit segs []).length) := by
  intro segs
  induction segs with
  | nil =>
    intro pre acc style end0 _
    exact ⟨[], style, end0, rfl, by simp [offsets, styledStringsLoop, unsplit], fun _ => rfl,
      fun h => absurd rfl h⟩
  | cons p segs ih =>
    obtain ⟨gap, e⟩ := p
    intro pre acc style end0 hsgr
    obtain ⟨params, he, hup⟩ := updateStyle_isSGR style e (hsgr (gap, e) (List.mem_cons_self _ _))
    have hlen : 3 ≤ e.length := by rw [he]; simp
    obtain ⟨all, last, end1, hgap, hloop, hend0, hend⟩ := ih (pre ++ (gap ++ e))
      (if pre.length + gap.length > pre.length then acc ++ [⟨gap, style⟩] else acc)
      (styleFrom 0 (Split params) style) (pre.length + gap.length)
      (fun p hp => hsgr p (List.mem_cons_of_mem _ hp))
    refine ⟨⟨gap, style⟩ :: all, last, end1, ?_, ?_, fun h => absurd h (List.cons_ne_nil _ _), ?_⟩
    · rw [gapRuns, hup]
      simp only [Option.bind_eq_bind, Option.some_bind]
      rw [hgap]; rfl
    · rw [offsets, styledStringsLoop, unsplit]
      have h1 : slice (pre ++ (gap ++ (e ++ unsplit segs tail))) pre.length
          (pre.length + gap.length) = some gap := slice_mid pre gap _
      have h2 : slice (pre ++ (gap ++ (e ++ unsplit segs tail))) (pre.length + gap.length)
          (pre.length + gap.length + e.length) = some e := by
        have := slice_mid (pre ++ gap) e (unsplit segs tail)
        rw [List.length_append, List.append_assoc] at this
        exact this
      rw [h1, h2]
      simp only [Option.bind_eq_bind, Option.some_bind]
      rw [hup]
      simp only [Option.some_bind]
      have hfull : pre ++ (gap ++ (e ++ unsplit segs tail)) =
          pre ++ (gap ++ e) ++ unsplit segs tail := by simp
      have hpl : (pre ++ (gap ++ e)).length = pre.length + gap.length + e.length := by
        simp only [List.length_append]; omega
      rw [hpl, ← hfull] at hloop
      by_cases hg : pre.length + gap.length > pre.length
      · rw [if_pos hg] at hloop ⊢
        have hne : gap ≠ [] := by
          intro h; rw [h] at hg; simp at hg
        rw [hloop, List.filter_cons_of_pos (by simpa using hne)]
        simp only [unsplit, List.length_append, List.append_assoc, List.singleton_append,
          Option.some.injEq, Prod.mk.injEq, true_and, and_true]
        omega
      · rw [if_neg hg] at hloop ⊢
        have hnil : gap = [] := by
          cases gap with
          | nil => rfl
          | cons c g => simp at hg
        rw [hloop, List.filter_cons_of_neg (by simp [hnil])]
        simp only [unsplit, List.length_append, Option.some.injEq, Prod.mk.injEq, true_and,
          and_true]
        omega
    · intro _
      simp only [unsplit, List.length_append]
      by_cases hs : segs = []
      · rw [hend0 hs]; omega
      · have := hend hs
        simp only [List.length_append] at this
        omega

theorem slice_tail (a b : GoString) : slice (a ++ b) a.length (a ++ b).length = some b := by
  have := slice_mid a b []
  rw [List.append_nil] at this
  rw [List.length_append]; exact this

/-- What `styledStringsFromString` returns: for the cut of the input, the gaps
that are not empty, each with its style, then the text behind the last escape
sequence, which is left out only when the input is empty. -/
theorem styledStringsFromString_eq (s : GoString) :
    ∃ segs tail all last, Segmented s segs tail ∧
      gapRuns StyleDefault segs tail = some (all ++ [⟨tail, last⟩]) ∧
      styledStringsFromString s =
        some (all.filter (fun run => decide (run.String ≠ [])) ++
          if segs = [] ∧ s = [] then [] else [⟨tail, last⟩]) := by
  obtain ⟨segs, tail, hseg, hfind⟩ := findAllFrom_segmented s 0
  obtain ⟨all, last, end1, hgap, hloop, hend0, hend⟩ :=
    styledStringsLoop_offsets tail segs [] [] StyleDefault 0 (Segmented_isSGR s segs tail hseg)
  have hs := Segmented_unsplit s segs tail hseg
  refine ⟨segs, tail, all, last, hseg, hgap, ?_⟩
  rw [List.nil_append, ← hs, List.length_nil, List.nil_append, Nat.zero_add] at hloop
  unfold styledStringsFromString FindAllStringIndex
  rw [hfind, hloop]
  simp only [Option.bind_eq_bind, Option.some_bind]
  have hsl : slice s (unsplit segs []).length s.length = some tail := by
    have := slice_tail (unsplit segs []) tail
    rw [← unsplit_append, ← hs] at this
    exact this
  have hlen : s.length = (unsplit segs []).length + tail.length := by
    rw [← List.length_append, ← unsplit_append, ← hs]
  by_cases hsegs : segs = []
  · have he := hend0 hsegs
    by_cases hnil : s = []
    · rw [if_neg (show ¬ end1 ≠ s.length by rw [he, hnil]; simp),
        if_pos (show segs = [] ∧ s = [] from ⟨hsegs, hnil⟩), List.append_nil]
    · rw [if_pos (show end1 ≠ s.length by
          rw [he]; intro h; exact hnil (List.length_eq_zero.mp h.symm)),
        if_neg (show ¬ (segs = [] ∧ s = []) from fun h => hnil h.2), hsl]
      rfl
  · have he := hend hsegs
    rw [if_pos (show end1 ≠ s.length by rw [List.length_nil, Nat.zero_add] at he; omega),
      if_neg (show ¬ (segs = [] ∧ s = []) from fun h => hsegs h.1), hsl]
    rfl

/-! ### The tokenizer as a whole -/

theorem unsplit_getLast (segs : List (GoString × GoString)) (hne : segs ≠ [])
    (h : ∀ p ∈ segs, IsSGR p.2) : (unsplit segs []).getLast? = some 0x6D := by
  induction segs with
  | nil => exact absurd rfl hne
  | cons p segs ih =>
    obtain ⟨gap, e⟩ := p
    obtain ⟨params, _, he⟩ := h (gap, e) (List.mem_cons_self _ _)
    simp only at he
    by_cases hs : segs = []
    · rw [hs, unsplit, unsplit, List.append_nil, he,
        show (0x1B : Byte) :: 0x5B :: (params ++ [0x6D]) = (0x1B :: 0x5B :: params) ++ [0x6D] from rfl,
        ← List.append_assoc, List.getLast?_append]
      rfl
    · have := ih hs (fun p hp => h p (List.mem_cons_of_mem _ hp))
      rw [unsplit, ← List.append_assoc, List.getLast?_append, this]
      rfl

/-- The splitter returns on every input, and a run that is not empty when the
input ends with a byte other than `m`. -/
theorem styledStringsFromString_total (s : GoString) :
    ∃ runs, styledStringsFromString s = some runs ∧
      (∀ c, s.getLast? = some c → c ≠ 0x6D → ∃ run ∈ runs, run.String ≠ []) := by
  obtain ⟨segs, tail, all, last, hseg, _, hruns⟩ := styledStringsFromString_eq s
  refine ⟨_, hruns, ?_⟩
  intro c hc hm
  have hs := Segmented_unsplit s segs tail hseg
  have hsne : s ≠ [] := by intro h; rw [h] at hc; simp at hc
  have htail : tail ≠ [] := by
    intro ht
    by_cases hsegs : segs = []
    · rw [hsegs, ht] at hs; exact hsne hs
    · have := unsplit_getLast segs hsegs (Segmented_isSGR s segs tail hseg)
      rw [ht] at hs
      rw [← hs, hc, Option.some.injEq] at this
      exact hm this
  refine ⟨⟨tail, last⟩, ?_, htail⟩
  rw [if_neg (fun h => hsne h.2)]
  simp

/-- The tokenizer returns on every input; no token it returns has a rune that
is not a Unicode scalar value, a tab, a backspace or U+FFFD; and it returns a
token when the input ends with a byte other than `m`. -/
theorem TokensFromString_total (cfg : ManPageFormat) (s : GoString) :
    ∃ tokens, TokensFromString cfg s = some (tokens, plainString tokens) ∧
      (∀ t ∈ tokens, ValidRune t.Rune ∧ t.Rune ≠ 0x09 ∧ t.Rune ≠ 0xFFFD ∧ t.Rune ≠ 0x08) ∧
      (∀ c, s.getLast? = some c → c ≠ 0x6D → tokens ≠ []) := by
  obtain ⟨runs, hruns, hne⟩ := styledStringsFromString_total s
  obtain ⟨tokens, htokens, hne', hall⟩ := tokensFromRuns_total cfg runs []
  rw [List.nil_append] at htokens
  refine ⟨tokens, ?_, hall, fun c hc hm => hne' (hne c hc hm)⟩
  unfold TokensFromString
  rw [hruns]
  simp only [Option.bind_eq_bind, Option.some_bind]
  rw [htokens]
  rfl

theorem termcapToStyle_total (cfg : ManPageFormat) (termcap : GoString) :
    ∃ tokens token, TokensFromString cfg (termcap ++ [0x78]) = some (tokens, plainString tokens) ∧
      tokens.length - 1 < tokens.length ∧ tokens[tokens.length - 1]? = some token ∧
      termcapToStyle cfg termcap = some token.Style := by
  obtain ⟨tokens, htokens, _, hne⟩ := TokensFromString_total cfg (termcap ++ [0x78])
  have hne' : tokens ≠ [] := hne 0x78 (by simp) (by decide)
  have hlen : tokens.length - 1 < tokens.length := by
    have := List.length_pos.mpr hne'
    omega
  refine ⟨tokens, tokens[tokens.length - 1], htokens, hlen, List.getElem?_eq_getElem hlen, ?_⟩
  unfold termcapToStyle
  rw [htokens]
  simp only [Option.bind_eq_bind, Option.some_bind]
  rw [if_neg (by omega), List.getElem?_eq_getElem hlen]
  rfl

/-! ## The claims -/

/-- C1: for every input string `TokensFromString` returns tokens and a plain
string such that the runes of the plain string are exactly the runes of the
tokens, in order; hence the plain string has as many characters as there are
tokens. -/
theorem TokensFromString_plain_runes (cfg : ManPageFormat) (s : GoString) :
    ∃ tokens plain, TokensFromString cfg s = some (tokens, plain) ∧
      stringToRunes plain = tokens.map (fun token => token.Rune) ∧
      RuneCountInString plain = tokens.length := by
  obtain ⟨tokens, h, hvalid, _⟩ := TokensFromString_total cfg s
  have hrunes := stringToRunes_plainString tokens (fun t ht => (hvalid t ht).1)
  exact ⟨tokens, plainString tokens, h, hrunes, by
    rw [RuneCountInString, hrunes, List.length_map]⟩

/-- C2: the tokenizer is total. For every input string `TokensFromString`
returns a result, so that no index or slice in the functions it calls is out of
range and every loop ends; and for every termcap string the tokens of the
string with an `x` appended are not empty, the index `len(tokens)-1` is in
range and `termcapToStyle` returns a style. -/
theorem tokenizer_total (cfg : ManPageFormat) (s termcap : GoString) :
    (∃ tokens plain, TokensFromString cfg s = some (tokens, plain)) ∧
    (∃ tokens plain token, TokensFromString cfg (termcap ++ [0x78]) = some (tokens, plain) ∧
      tokens ≠ [] ∧ tokens[tokens.length - 1]? = some token ∧
      termcapToStyle cfg termcap = some token.Style) := by
  obtain ⟨tokens, h, _, _⟩ := TokensFromString_total cfg s
  obtain ⟨tokens', token, h', hlen, hget, hstyle⟩ := termcapToStyle_total cfg termcap
  refine ⟨⟨tokens, _, h⟩, tokens', _, token, h', ?_, hget, hstyle⟩
  intro hnil
  rw [hnil] at hlen
  simp at hlen

theorem gapRuns_strings : ∀ (segs : List (GoString × GoString)) (style : tcell.Style)
    (tail : GoString) (all : List StyledString), gapRuns style segs tail = some all →
    all.map (fun run => run.String) = segs.map (fun p => p.1) ++ [tail] := by
  intro segs
  induction segs with
  | nil =>
    intro style tail all h
    simp only [gapRuns, Option.some.injEq] at h
    rw [← h]; rfl
  | cons p segs ih =>
    obtain ⟨gap, e⟩ := p
    intro style tail all h
    rw [gapRuns] at h
    cases hu : updateStyle style e with
    | none => simp [hu] at h
    | some next =>
      cases hg : gapRuns next segs tail with
      | none => simp [hu, hg] at h
      | some runs =>
        simp only [hu, hg, Option.bind_eq_bind, Option.some_bind, Option.some.injEq] at h
        rw [← h, List.map_cons, ih next tail runs hg]
        rfl

theorem flatten_filter_strings (runs : List StyledString) :
    ((runs.filter (fun run => decide (run.String ≠ []))).map (fun run => run.String)).flatten =
      (runs.map (fun run => run.String)).flatten := by
  induction runs with
  | nil => rfl
  | cons run runs ih =>
    by_cases h : run.String = []
    · rw [List.filter_cons_of_neg (by simp [h]), ih, List.map_cons, List.flatten_cons, h,
        List.nil_append]
    · rw [List.filter_cons_of_pos (by simp [h]), List.map_cons, List.flatten_cons, ih,
        List.map_cons, List.flatten_cons]

/-- C3: for every input string `styledStringsFromString` returns runs, in input
order, such that, for the cut of the input at its escape sequences (leftmost
first, without overlap): the strings of the runs, concatenated, are the input
without the escape sequences; and the runs are gaps of the cut, all the gaps
that are not empty among them, each with the style that folding `updateStyle`
over the escape sequences before the gap gives, from the default style on. -/
theorem styledStringsFromString_runs (s : GoString) :
    ∃ segs tail all runs, Segmented s segs tail ∧
      gapRuns StyleDefault segs tail = some all ∧
      styledStringsFromString s = some runs ∧
      (runs.map (fun run => run.String)).flatten = (segs.map (fun p => p.1)).flatten ++ tail ∧
      List.Sublist runs all ∧
      List.Sublist (all.filter (fun run => decide (run.String ≠ []))) runs := by
  obtain ⟨segs, tail, all, last, hseg, hgap, hruns⟩ := styledStringsFromString_eq s
  have hstr := gapRuns_strings segs StyleDefault tail _ hgap
  rw [List.map_append, List.map_singleton] at hstr
  have hall : all.map (fun run => run.String) = segs.map (fun p => p.1) :=
    List.append_inj_left' hstr rfl
  have hs := Segmented_unsplit s segs tail hseg
  refine ⟨segs, tail, all ++ [⟨tail, last⟩], _, hseg, hgap, hruns, ?_, ?_, ?_⟩
  · rw [List.map_append, List.flatten_append, flatten_filter_strings, hall]
    congr 1
    by_cases h : segs = [] ∧ s = []
    · rw [if_pos h]
      rw [h.1, h.2] at hs
      have ht : tail = [] := hs.symm
      rw [ht]; rfl
    · rw [if_neg h]; simp
  · apply List.Sublist.append (List.filter_sublist _)
    by_cases h : segs = [] ∧ s = []
    · rw [if_pos h]; exact List.nil_sublist _
    · rw [if_neg h]
  · rw [List.filter_append]
    apply List.Sublist.append (List.Sublist.refl _)
    by_cases h : segs = [] ∧ s = []
    · rw [if_pos h]
      rw [h.1, h.2] at hs
      have ht : tail = [] := hs.symm
      rw [ht]
      exact List.Sublist.refl _
    · rw [if_neg h]; exact List.filter_sublist _

/-! ### Decimal numerals -/

theorem parseDigits_digit (d : Nat) (hd : d < 10) (cs : GoString) (acc : Nat) :
    parseDigits (byte (0x30 + d) :: cs) acc = parseDigits cs (10 * acc + d) := by
  have hv : (byte (0x30 + d)).val = 0x30 + d := by rw [byte_val]; omega
  rw [parseDigits, hv, if_pos (by omega), Nat.add_sub_cancel_left]

theorem ParseInt_digit (d : Nat) (hd : d < 10) (cs : GoString) (bits : Nat) :
    ParseInt (byte (0x30 + d) :: cs) bits =
      match parseDigits cs d with
      | none => none
      | some n => if n < 2 ^ (bits - 1) then some (n : Int) else none := by
  have hv : (byte (0x30 + d)).val = 0x30 + d := by rw [byte_val]; omega
  have h1 : ¬ (0x30 + d = 0x2D) := by omega
  have h2 : ¬ (0x30 + d = 0x2B) := by omega
  simp only [ParseInt, hv, h1, h2, if_false]
  rw [parseDigits_digit d hd, Nat.mul_zero, Nat.zero_add]

theorem parseDigits_decimal (n : Nat) (h : n < 1000) :
    ∃ d cs, d < 10 ∧ decimal n = byte (0x30 + d) :: cs ∧ parseDigits cs d = some n ∧
      NoSemicolon (decimal n) := by
  unfold decimal
  split_ifs with h1 h2
  · refine ⟨n, [], h1, rfl, rfl, ?_⟩
    intro c hc
    rw [List.mem_singleton] at hc
    rw [hc, byte_val]; omega
  · refine ⟨n / 10, [byte (0x30 + n % 10)], by omega, rfl, ?_, ?_⟩
    · rw [parseDigits_digit _ (by omega), parseDigits]
      congr 1; omega
    · intro c hc
      simp only [List.mem_cons, List.mem_singleton, List.not_mem_nil, or_false] at hc
      rcases hc with rfl | rfl <;> rw [byte_val] <;> omega
  · refine ⟨n / 100, [byte (0x30 + n / 10 % 10), byte (0x30 + n % 10)], by omega, rfl, ?_, ?_⟩
    · rw [parseDigits_digit _ (by omega), parseDigits_digit _ (by omega), parseDigits]
      congr 1; omega
    · intro c hc
      simp only [List.mem_cons, List.mem_singleton, List.not_mem_nil, or_false] at hc
      rcases hc with rfl | rfl | rfl <;> rw [byte_val] <;> omega

theorem Atoi_decimal (n : Nat) (h : n < 1000) : Atoi (decimal n) = some (n : Int) := by
  obtain ⟨d, cs, hd, hdec, hp, _⟩ := parseDigits_decimal n h
  rw [Atoi, hdec, ParseInt_digit d hd, hp]
  simp only
  rw [if_pos (by norm_num; omega)]

theorem ParseInt32_decimal (n : Nat) (h : n < 1000) : ParseInt (decimal n) 32 = some (n : Int) := by
  obtain ⟨d, cs, hd, hdec, hp, _⟩ := parseDigits_decimal n h
  rw [hdec, ParseInt_digit d hd, hp]
  simp only
  rw [if_pos (by norm_num; omega)]

theorem NoSemicolon_decimal (n : Nat) (h : n < 1000) : NoSemicolon (decimal n) :=
  (parseDigits_decimal n h).choose_spec.choose_spec.2.2.2

/-- C4: for every style, an escape sequence with a single code of the table
that is not composite gives the style with the attribute of the code set and
nothing else changed: 1, 2, 3, 4, 7 turn on bold, dim, italic, underline,
reverse; 22 turns off bold and dim; 23, 24, 27 turn off italic, underline,
reverse; 30 to 37 set the foreground to black, maroon, green, olive, navy,
purple, teal, silver, which are the palette colours 0 to 7; 39 sets it to the
default; 40 to 47 and 49 do the same to the background; 90 to 97 set the
foreground to the bright colours, the palette colours 8 to 15. -/
theorem updateStyle_single_code (s : tcell.Style) :
    updateStyle s (sgr [ascii "1"]) = some { s with bold := true } ∧
    updateStyle s (sgr [ascii "2"]) = some { s with dim := true } ∧
    updateStyle s (sgr [ascii "3"]) = some { s with italic := true } ∧
    updateStyle s (sgr [ascii "4"]) = some { s with underline := true } ∧
    updateStyle s (sgr [ascii "7"]) = some { s with reverse := true } ∧
    updateStyle s (sgr [ascii "22"]) = some { s with bold := false, dim := false } ∧
    updateStyle s (sgr [ascii "23"]) = some { s with italic := false } ∧
    updateStyle s (sgr [ascii "24"]) = some { s with underline := false } ∧
    updateStyle s (sgr [ascii "27"]) = some { s with reverse := false } ∧
    updateStyle s (sgr [ascii "30"]) = some { s with fg := ColorBlack } ∧
    updateStyle s (sgr [ascii "31"]) = some { s with fg := ColorMaroon } ∧
    updateStyle s (sgr [ascii "32"]) = some { s with fg := ColorGreen } ∧
    updateStyle s (sgr [ascii "33"]) = some { s with fg := ColorOlive } ∧
    updateStyle s (sgr [ascii "34"]) = some { s with fg := ColorNavy } ∧
    updateStyle s (sgr [ascii "35"]) = some { s with fg := ColorPurple } ∧
    updateStyle s (sgr [ascii "36"]) = some { s with fg := ColorTeal } ∧
    updateStyle s (sgr [ascii "37"]) = some { s with fg := ColorSilver } ∧
    updateStyle s (sgr [ascii "39"]) = some { s with fg := ColorDefault } ∧
    updateStyle s (sgr [ascii "40"]) = some { s with bg := ColorBlack } ∧
    updateStyle s (sgr [ascii "41"]) = some { s with bg := ColorMaroon } ∧
    updateStyle s (sgr [ascii "42"]) = some { s with bg := ColorGreen } ∧
    updateStyle s (sgr [ascii "43"]) = some { s with bg := ColorOlive } ∧
    updateStyle s (sgr [ascii "44"]) = some { s with bg := ColorNavy } ∧
    updateStyle s (sgr [ascii "45"]) = some { s with bg := ColorPurple } ∧
    updateStyle s (sgr [ascii "46"]) = some { s with bg := ColorTeal } ∧
    updateStyle s (sgr [ascii "47"]) = some { s with bg := ColorSilver } ∧
    updateStyle s (sgr [ascii "49"]) = some { s with bg := ColorDefault } ∧
    updateStyle s (sgr [ascii "90"]) = some { s with fg := ColorGray } ∧
    updateStyle s (sgr [ascii "91"]) = some { s with fg := ColorRed } ∧
    updateStyle s (sgr [ascii "92"]) = some { s with fg := ColorLime } ∧
    updateStyle s (sgr [ascii "93"]) = some { s with fg := ColorYellow } ∧
    updateStyle s (sgr [ascii "94"]) = some { s with fg := ColorBlue } ∧
    updateStyle s (sgr [ascii "95"]) = some { s with fg := ColorFuchsia } ∧
    updateStyle s (sgr [ascii "96"]) = some { s with fg := ColorAqua } ∧
    updateStyle s (sgr [ascii "97"]) = some { s with fg := ColorWhite } ∧
    [ColorBlack, ColorMaroon, ColorGreen, ColorOlive, ColorNavy, ColorPurple, ColorTeal,
      ColorSilver, ColorGray, ColorRed, ColorLime, ColorYellow, ColorBlue, ColorFuchsia,
      ColorAqua, ColorWhite] = (List.range 16).map PaletteColor := by
  refine ⟨rfl, rfl, rfl, rfl, rfl, rfl, rfl, rfl, rfl, rfl, rfl, rfl, rfl, rfl, rfl, rfl, rfl, rfl,
    rfl, rfl, rfl, rfl, rfl, rfl, rfl, rfl, rfl, rfl, rfl, rfl, rfl, rfl, rfl, rfl, rfl, ?_⟩
  decide

theorem TrimLeft_replicate (k : Nat) : TrimLeft (List.replicate k 0x30) = [] := by
  induction k with
  | zero => rfl
  | succ k ih => rw [List.replicate_succ, TrimLeft, if_pos (by decide), ih]

theorem NoSemicolon_replicate (k : Nat) : NoSemicolon (List.replicate k 0x30) := by
  intro c hc
  rw [(List.mem_replicate.mp hc).2]
  decide

/-- C5: for every style, the escape sequence with no parameter, ESC `[` `m`,
and every escape sequence whose single parameter is made of zeros only give
the default style: the five flags off and both colours default. -/
theorem updateStyle_reset (s : tcell.Style) (k : Nat) :
    updateStyle s (sgr [List.replicate k 0x30]) = some StyleDefault ∧
    sgr [List.replicate 0 0x30] = [0x1B, 0x5B, 0x6D] ∧
    sgr [List.replicate 1 0x30] = ascii "\x1b[0m" ∧
    sgr [List.replicate 2 0x30] = ascii "\x1b[00m" ∧
    StyleDefault = ⟨ColorDefault, ColorDefault, false, false, false, false, false⟩ := by
  refine ⟨?_, rfl, rfl, rfl, rfl⟩
  rw [updateStyle_sgr _ _ (List.cons_ne_nil _ _) (by
    intro number h
    rw [List.mem_singleton] at h
    rw [h]
    exact NoSemicolon_replicate k)]
  rw [styleFrom, TrimLeft_replicate]
  rfl

/-! ### Composite colours -/

theorem palette_eq (n : Nat) (h : n < 256) :
    (((Color16 : Int) - 16 + (n : Int)) % 2 ^ 64).toNat = PaletteColor n := by
  unfold Color16 PaletteColor ColorValid
  norm_num
  have h1 : ((4294967296 : Int) + (n : Int)) % 18446744073709551616 =
      ((4294967296 + n : Nat) : Int) := by
    omega
  rw [h1, Int.toNat_ofNat]

theorem compositeColor_palette (start : GoString)
    (hstart : start = ascii "38" ∨ start = ascii "48") (n : Nat) (h : n < 256)
    (rest : List GoString) :
    compositeColor (start :: ascii "5" :: decimal n :: rest) = some (3, PaletteColor n) := by
  have hs : ¬ (start ≠ [0x33, 0x38] ∧ start ≠ [0x34, 0x38]) := by
    rcases hstart with rfl | rfl <;> decide
  rw [compositeColor, if_neg hs, if_pos (by rfl)]
  simp only [Atoi_decimal n (by omega), palette_eq n h]

theorem compositeColor_rgb (start : GoString)
    (hstart : start = ascii "38" ∨ start = ascii "48") (r g b : Nat) (hr : r < 256)
    (hg : g < 256) (hb : b < 256) (rest : List GoString) :
    compositeColor (start :: ascii "2" :: decimal r :: decimal g :: decimal b :: rest) =
      some (5, NewRGBColor r g b) := by
  have hs : ¬ (start ≠ [0x33, 0x38] ∧ start ≠ [0x34, 0x38]) := by
    rcases hstart with rfl | rfl <;> decide
  rw [compositeColor, if_neg hs, if_neg (by decide), if_pos (by rfl)]
  simp only [Atoi_decimal g (by omega), Atoi_decimal b (by omega), ParseInt32_decimal r (by omega)]

theorem styleFrom_palette_fg (s : tcell.Style) (n : Nat) (h : n < 256) (rest : List GoString) :
    styleFrom 0 (ascii "38" :: ascii "5" :: decimal n :: rest) s =
      styleFrom 0 rest (s.Foreground (PaletteColor n)) := by
  rw [styleFrom, if_pos (by rfl), compositeColor_palette _ (Or.inl rfl) n h]
  rfl

theorem styleFrom_palette_bg (s : tcell.Style) (n : Nat) (h : n < 256) (rest : List GoString) :
    styleFrom 0 (ascii "48" :: ascii "5" :: decimal n :: rest) s =
      styleFrom 0 rest (s.Background (PaletteColor n)) := by
  rw [styleFrom, if_neg (by decide), if_pos (by rfl), compositeColor_palette _ (Or.inr rfl) n h]
  rfl

theorem styleFrom_rgb_fg (s : tcell.Style) (r g b : Nat) (hr : r < 256) (hg : g < 256)
    (hb : b < 256) (rest : List GoString) :
    styleFrom 0 (ascii "38" :: ascii "2" :: decimal r :: decimal g :: decimal b :: rest) s =
      styleFrom 0 rest (s.Foreground (NewRGBColor r g b)) := by
  rw [styleFrom, if_pos (by rfl), compositeColor_rgb _ (Or.inl rfl) r g b hr hg hb]
  rfl

theorem styleFrom_rgb_bg (s : tcell.Style) (r g b : Nat) (hr : r < 256) (hg : g < 256)
    (hb : b < 256) (rest : List GoString) :
    styleFrom 0 (ascii "48" :: ascii "2" :: decimal r :: decimal g :: decimal b :: rest) s =
      styleFrom 0 rest (s.Background (NewRGBColor r g b)) := by
  rw [styleFrom, if_neg (by decide), if_pos (by rfl),
    compositeColor_rgb _ (Or.inr rfl) r g b hr hg hb]
  rfl

theorem NoSemicolon_cons (number : GoString) (rest : List GoString) (h : NoSemicolon number)
    (hrest : ∀ x ∈ rest, NoSemicolon x) : ∀ x ∈ number :: rest, ∀ c ∈ x, c.val ≠ 0x3B := by
  intro x hx
  rcases List.mem_cons.mp hx with rfl | hx
  · exact h
  · exact hrest x hx

set_option maxRecDepth 10000 in
theorem NoSemicolon_ascii_codes :
    NoSemicolon (ascii "38") ∧ NoSemicolon (ascii "48") ∧ NoSemicolon (ascii "5") ∧
      NoSemicolon (ascii "2") ∧ NoSemicolon (ascii "1") := by
  decide

/-- C6: for every style and every `n`, `r`, `g`, `b` from 0 to 255, the sequence
ESC`[38;5;n m` sets only the foreground, to the palette colour `n`, and
ESC`[48;5;n m` only the background; ESC`[38;2;r;g;b m` sets only the foreground,
to the RGB colour, and ESC`[48;2;r;g;b m` only the background; and when more
parameters follow, `updateStyle` goes on with the first one behind the colour,
as if they were a sequence of their own applied to the style with the colour
set, so that ESC`[38;5;n;1m` also turns bold on. -/
theorem updateStyle_composite (s : tcell.Style) (n r g b : Nat) (hn : n < 256) (hr : r < 256)
    (hg : g < 256) (hb : b < 256) (rest : List GoString) (hne : rest ≠ [])
    (hrest : ∀ number ∈ rest, NoSemicolon number) :
    updateStyle s (sgr [ascii "38", ascii "5", decimal n]) =
      some { s with fg := PaletteColor n } ∧
    updateStyle s (sgr [ascii "48", ascii "5", decimal n]) =
      some { s with bg := PaletteColor n } ∧
    updateStyle s (sgr [ascii "38", ascii "2", decimal r, decimal g, decimal b]) =
      some { s with fg := NewRGBColor r g b } ∧
    updateStyle s (sgr [ascii "48", ascii "2", decimal r, decimal g, decimal b]) =
      some { s with bg := NewRGBColor r g b } ∧
    updateStyle s (sgr (ascii "38" :: ascii "5" :: decimal n :: rest)) =
      updateStyle { s with fg := PaletteColor n } (sgr rest) ∧
    updateStyle s (sgr (ascii "48" :: ascii "5" :: decimal n :: rest)) =
      updateStyle { s with bg := PaletteColor n } (sgr rest) ∧
    updateStyle s (sgr (ascii "38" :: ascii "2" :: decimal r :: decimal g :: decimal b :: rest)) =
      updateStyle { s with fg := NewRGBColor r g b } (sgr rest) ∧
    updateStyle s (sgr (ascii "48" :: ascii "2" :: decimal r :: decimal g :: decimal b :: rest)) =
      updateStyle { s with bg := NewRGBColor r g b } (sgr rest) ∧
    updateStyle s (sgr [ascii "38", ascii "5", decimal n, ascii "1"]) =
      some { s with fg := PaletteColor n, bold := true } := by
  have hdn := NoSemicolon_decimal n (by omega)
  have hdr := NoSemicolon_decimal r (by omega)
  have hdg := NoSemicolon_decimal g (by omega)
  have hdb := NoSemicolon_decimal b (by omega)
  have h38 : NoSemicolon (ascii "38") := NoSemicolon_ascii_codes.1
  have h48 : NoSemicolon (ascii "48") := NoSemicolon_ascii_codes.2.1
  have h5 : NoSemicolon (ascii "5") := NoSemicolon_ascii_codes.2.2.1
  have h2 : NoSemicolon (ascii "2") := NoSemicolon_ascii_codes.2.2.2.1
  have h1 : NoSemicolon (ascii "1") := NoSemicolon_ascii_codes.2.2.2.2
  have hnil : ∀ x ∈ ([] : List GoString), NoSemicolon x := fun x hx => by cases hx
  have hrestU := fun (style : tcell.Style) => updateStyle_sgr style rest hne hrest
  have pal := fun (start : GoString) (hs : NoSemicolon start) (tail : List GoString)
      (ht : ∀ x ∈ tail, NoSemicolon x) =>
    updateStyle_sgr s (start :: ascii "5" :: decimal n :: tail) (List.cons_ne_nil _ _)
      (NoSemicolon_cons _ _ hs (NoSemicolon_cons _ _ h5 (NoSemicolon_cons _ _ hdn ht)))
  have rgb := fun (start : GoString) (hs : NoSemicolon start) (tail : List GoString)
      (ht : ∀ x ∈ tail, NoSemicolon x) =>
    updateStyle_sgr s (start :: ascii "2" :: decimal r :: decimal g :: decimal b :: tail)
      (List.cons_ne_nil _ _)
      (NoSemicolon_cons _ _ hs (NoSemicolon_cons _ _ h2 (NoSemicolon_cons _ _ hdr
        (NoSemicolon_cons _ _ hdg (NoSemicolon_cons _ _ hdb ht)))))
  refine ⟨?_, ?_, ?_, ?_, ?_, ?_, ?_, ?_, ?_⟩
  · rw [pal _ h38 [] hnil, styleFrom_palette_fg s n hn]; rfl
  · rw [pal _ h48 [] hnil, styleFrom_palette_bg s n hn]; rfl
  · rw [rgb _ h38 [] hnil, styleFrom_rgb_fg s r g b hr hg hb]; rfl
  · rw [rgb _ h48 [] hnil, styleFrom_rgb_bg s r g b hr hg hb]; rfl
  · rw [pal _ h38 rest hrest, styleFrom_palette_fg s n hn, hrestU]; rfl
  · rw [pal _ h48 rest hrest, styleFrom_palette_bg s n hn, hrestU]; rfl
  · rw [rgb _ h38 rest hrest, styleFrom_rgb_fg s r g b hr hg hb, hrestU]; rfl
  · rw [rgb _ h48 rest hrest, styleFrom_rgb_bg s r g b hr hg hb, hrestU]; rfl
  · rw [pal _ h38 [ascii "1"] (by intro x hx; rw [List.mem_singleton] at hx; rw [hx]; exact h1),
      styleFrom_palette_fg s n hn]
    rfl

set_option maxRecDepth 10000 in
theorem updateStyle_composite_witness :
    (196 < 256 ∧ 255 < 256 ∧ 128 < 256 ∧ 0 < 256 ∧ [ascii "4"] ≠ [] ∧
      ∀ number ∈ [ascii "4"], NoSemicolon number) ∧
    updateStyle StyleDefault (sgr [ascii "38", ascii "5", decimal 196, ascii "1"]) =
      some { StyleDefault with fg := PaletteColor 196, bold := true } :=
  ⟨by decide,
    (updateStyle_composite StyleDefault 196 255 128 0 (by decide) (by decide) (by decide)
      (by decide) [ascii "4"] (by decide) (by decide)).2.2.2.2.2.2.2.2⟩

/-! ### Parameters that are not composite, and composite colours cut short -/

theorem styleFrom_plain (number : GoString) (rest : List GoString) (s : tcell.Style)
    (h38 : TrimLeft number ≠ ascii "38") (h48 : TrimLeft number ≠ ascii "48") :
    styleFrom 0 (number :: rest) s = styleFrom 0 rest (sgrStyle (TrimLeft number) s) := by
  rw [styleFrom, if_neg (show ¬ TrimLeft number = [0x33, 0x38] from h38),
    if_neg (show ¬ TrimLeft number = [0x34, 0x38] from h48)]

theorem styleFrom_plain_append (pre rest : List GoString)
    (hpre : ∀ p ∈ pre, TrimLeft p ≠ ascii "38" ∧ TrimLeft p ≠ ascii "48") (s : tcell.Style) :
    styleFrom 0 (pre ++ rest) s =
      styleFrom 0 rest (pre.foldl (fun style p => sgrStyle (TrimLeft p) style) s) := by
  induction pre generalizing s with
  | nil => rfl
  | cons p pre ih =>
    have hp := hpre p (List.mem_cons_self _ _)
    rw [List.cons_append, styleFrom_plain p _ s hp.1 hp.2,
      ih (fun q hq => hpre q (List.mem_cons_of_mem _ hq)), List.foldl_cons]

theorem compositeColor_incomplete (c : GoString) (tail : List GoString)
    (htail : tail = [] ∨ tail = [ascii "5"] ∨ ∃ more, tail = ascii "2" :: more ∧ more.length < 3) :
    compositeColor (c :: tail) = none := by
  rcases htail with rfl | rfl | ⟨more, rfl, hlen⟩
  · rfl
  · simp only [compositeColor]
    split_ifs <;> rfl
  · rcases more with _ | ⟨r, _ | ⟨g, _ | ⟨b, more⟩⟩⟩
    · simp only [compositeColor]; split_ifs <;> rfl
    · simp only [compositeColor]
      split_ifs with h1 h2 <;> first | rfl | exact absurd h2 (by decide)
    · simp only [compositeColor]
      split_ifs with h1 h2 <;> first | rfl | exact absurd h2 (by decide)
    · simp only [List.length_cons] at hlen; omega

theorem styleFrom_incomplete (c : GoString) (tail : List GoString) (s : tcell.Style)
    (hc : c = ascii "38" ∨ c = ascii "48")
    (htail : tail = [] ∨ tail = [ascii "5"] ∨ ∃ more, tail = ascii "2" :: more ∧ more.length < 3) :
    styleFrom 0 (c :: tail) s = s := by
  have hnone := compositeColor_incomplete c tail htail
  rcases hc with rfl | rfl
  · rw [styleFrom, if_pos (by rfl), hnone]
  · rw [styleFrom, if_neg (by decide), if_pos (by rfl), hnone]

/-- C7, as amended: for every style and every escape sequence whose parameters
are codes that are not composite, then 38 or 48 without the parameters it needs
(nothing, only the selector 5, or the selector 2 with fewer than three values),
`updateStyle` returns the style reached so far: the given style with the codes
before the 38 or 48 applied, which is what the sequence of those codes alone
gives, and the given style itself when nothing stands before the 38 or 48. -/
theorem updateStyle_incomplete_composite (s : tcell.Style) (pre tail : List GoString)
    (c : GoString) (hc : c = ascii "38" ∨ c = ascii "48")
    (hpre : ∀ p ∈ pre, NoSemicolon p ∧ TrimLeft p ≠ ascii "38" ∧ TrimLeft p ≠ ascii "48")
    (htail : tail = [] ∨ tail = [ascii "5"] ∨ ∃ more, tail = ascii "2" :: more ∧ more.length < 3)
    (hsemi : ∀ x ∈ tail, NoSemicolon x) :
    updateStyle s (sgr (pre ++ c :: tail)) =
      some (pre.foldl (fun style p => sgrStyle (TrimLeft p) style) s) ∧
    (pre ≠ [] → updateStyle s (sgr (pre ++ c :: tail)) = updateStyle s (sgr pre)) ∧
    (pre = [] → updateStyle s (sgr (pre ++ c :: tail)) = some s) := by
  have hcs : NoSemicolon c := by
    rcases hc with rfl | rfl
    · exact NoSemicolon_ascii_codes.1
    · exact NoSemicolon_ascii_codes.2.1
  have hall : ∀ x ∈ pre ++ c :: tail, ∀ b ∈ x, b.val ≠ 0x3B := by
    intro x hx
    rcases List.mem_append.mp hx with hx | hx
    · exact (hpre x hx).1
    · exact NoSemicolon_cons c tail hcs hsemi x hx
  have hmain : updateStyle s (sgr (pre ++ c :: tail)) =
      some (pre.foldl (fun style p => sgrStyle (TrimLeft p) style) s) := by
    rw [updateStyle_sgr _ _ (by simp) hall,
      styleFrom_plain_append pre _ (fun p hp => (hpre p hp).2), styleFrom_incomplete c tail _ hc htail]
  refine ⟨hmain, ?_, ?_⟩
  · intro hne
    rw [hmain, updateStyle_sgr _ _ hne (fun x hx => (hpre x hx).1)]
    have := styleFrom_plain_append pre [] (fun p hp => (hpre p hp).2) s
    rw [List.append_nil] at this
    rw [this]; rfl
  · intro hnil
    rw [hmain, hnil]; rfl

set_option maxRecDepth 10000 in
theorem updateStyle_incomplete_composite_witness :
    ((ascii "38" = ascii "38" ∨ ascii "38" = ascii "48") ∧
      (∀ p ∈ [ascii "1", ascii "31"],
        NoSemicolon p ∧ TrimLeft p ≠ ascii "38" ∧ TrimLeft p ≠ ascii "48") ∧
      ([ascii "5"] = [] ∨ [ascii "5"] = [ascii "5"] ∨
        ∃ more, [ascii "5"] = ascii "2" :: more ∧ more.length < 3) ∧
      ∀ x ∈ [ascii "5"], NoSemicolon x) ∧
    updateStyle StyleDefault (sgr ([ascii "1", ascii "31"] ++ ascii "38" :: [ascii "5"])) =
      some ([ascii "1", ascii "31"].foldl (fun style p => sgrStyle (TrimLeft p) style)
        StyleDefault) :=
  ⟨⟨Or.inl rfl, by decide, Or.inr (Or.inl rfl), by decide⟩,
    (updateStyle_incomplete_composite StyleDefault [ascii "1", ascii "31"] [ascii "5"]
      (ascii "38") (Or.inl rfl) (by decide) (Or.inr (Or.inl rfl)) (by decide)).1⟩

set_option maxRecDepth 10000 in
/-- C7 as stated fails: in ESC`[1;38m` the 38 lacks its parameters, and
`updateStyle` on the default style returns the default style with bold on, not
the default style it was given. -/
theorem updateStyle_incomplete_composite_counterexample :
    updateStyle StyleDefault (ascii "\x1b[1;38m") = some { StyleDefault with bold := true } ∧
    updateStyle StyleDefault (ascii "\x1b[1;38m") ≠ some StyleDefault := by
  decide

theorem sgrCodes_eq : sgrCodes =
    [[], [0x31], [0x32], [0x33], [0x34], [0x37], [0x32, 0x32], [0x32, 0x33], [0x32, 0x34],
      [0x32, 0x37], [0x33, 0x30], [0x33, 0x31], [0x33, 0x32], [0x33, 0x33], [0x33, 0x34],
      [0x33, 0x35], [0x33, 0x36], [0x33, 0x37], [0x33, 0x38], [0x33, 0x39], [0x34, 0x30],
      [0x34, 0x31], [0x34, 0x32], [0x34, 0x33], [0x34, 0x34], [0x34, 0x35], [0x34, 0x36],
      [0x34, 0x37], [0x34, 0x38], [0x34, 0x39], [0x39, 0x30], [0x39, 0x31], [0x39, 0x32],
      [0x39, 0x33], [0x39, 0x34], [0x39, 0x35], [0x39, 0x36], [0x39, 0x37]] := rfl

theorem sgrStyle_unknown (code : GoString) (s : tcell.Style) (h : code ∉ sgrCodes) :
    sgrStyle code s = s := by
  rw [sgrCodes_eq] at h
  simp only [List.mem_cons, List.mem_singleton, List.not_mem_nil, or_false, not_or] at h
  unfold sgrStyle
  simp only [h, if_false]

/-- C8: for every style, every parameter whose number, leading zeros stripped,
is not in the table of `updateStyle` (so not empty and not 38 or 48 either), and
every list of further parameters, the parameter is skipped: the sequence with
it in front gives what the sequence of the further parameters gives, and the
sequence of the parameter alone gives the style unchanged. -/
theorem updateStyle_unknown_code (s : tcell.Style) (u : GoString) (rest : List GoString)
    (hu : NoSemicolon u) (hunknown : TrimLeft u ∉ sgrCodes) (hne : rest ≠ [])
    (hrest : ∀ number ∈ rest, NoSemicolon number) :
    updateStyle s (sgr (u :: rest)) = updateStyle s (sgr rest) ∧
    updateStyle s (sgr [u]) = some s := by
  have h38 : TrimLeft u ≠ ascii "38" := by
    intro h; apply hunknown; rw [h, sgrCodes_eq]; decide
  have h48 : TrimLeft u ≠ ascii "48" := by
    intro h; apply hunknown; rw [h, sgrCodes_eq]; decide
  constructor
  · rw [updateStyle_sgr _ _ (List.cons_ne_nil _ _) (NoSemicolon_cons u rest hu hrest),
      styleFrom_plain u rest s h38 h48, sgrStyle_unknown _ _ hunknown,
      updateStyle_sgr _ _ hne hrest]
  · rw [updateStyle_sgr _ _ (List.cons_ne_nil _ _)
        (NoSemicolon_cons u [] hu (fun x hx => by cases hx)),
      styleFrom_plain u [] s h38 h48, sgrStyle_unknown _ _ hunknown]
    rfl

set_option maxRecDepth 10000 in
theorem updateStyle_unknown_code_witness :
    (NoSemicolon (ascii "05") ∧ TrimLeft (ascii "05") ∉ sgrCodes ∧ [ascii "1"] ≠ [] ∧
      ∀ number ∈ [ascii "1"], NoSemicolon number) ∧
    updateStyle StyleDefault (sgr (ascii "05" :: [ascii "1"])) =
      updateStyle StyleDefault (sgr [ascii "1"]) ∧
    updateStyle StyleDefault (sgr [ascii "05"]) = some StyleDefault :=
  ⟨by decide,
    updateStyle_unknown_code StyleDefault (ascii "05") [ascii "1"] (by decide) (by decide)
      (by decide) (by decide)⟩

/-! ### Leading zeros -/

theorem TrimLeft_zeros_append (k : Nat) (c : GoString) :
    TrimLeft (List.replicate k 0x30 ++ c) = TrimLeft c := by
  induction k with
  | zero => rfl
  | succ k ih => rw [List.replicate_succ, List.cons_append, TrimLeft, if_pos (by decide), ih]

/-- Leading zeros before a number that is not a composite code change
nothing in what the loop of `updateStyle` does with it. -/
theorem styleFrom_leading_zeros (k : Nat) (c : GoString) (rest : List GoString)
    (s : tcell.Style) (h38 : TrimLeft c ≠ ascii "38") (h48 : TrimLeft c ≠ ascii "48") :
    styleFrom 0 ((List.replicate k 0x30 ++ c) :: rest) s = styleFrom 0 (c :: rest) s := by
  rw [styleFrom_plain _ rest s (by rw [TrimLeft_zeros_append]; exact h38)
    (by rw [TrimLeft_zeros_append]; exact h48), TrimLeft_zeros_append,
    styleFrom_plain c rest s h38 h48]

set_option maxRecDepth 10000 in
/-- C9: the code at the failing input. The number 038 reaches the case of 38,
but `consumeCompositeColor` compares the number as written with `"38"` and
reports an error, so ESC`[038;5;1m` leaves the default style as it is, where
ESC`[38;5;1m` sets the foreground to the palette colour 1; the same for 048.
A code that is not composite, as 031 for 31, does give the same style. -/
theorem updateStyle_leading_zero_composite :
    updateStyle StyleDefault (ascii "\x1b[038;5;1m") = some StyleDefault ∧
    updateStyle StyleDefault (ascii "\x1b[38;5;1m") =
      some { StyleDefault with fg := PaletteColor 1 } ∧
    updateStyle StyleDefault (ascii "\x1b[048;5;1m") = some StyleDefault ∧
    updateStyle StyleDefault (ascii "\x1b[48;5;1m") =
      some { StyleDefault with bg := PaletteColor 1 } ∧
    consumeCompositeColor [ascii "038", ascii "5", ascii "1"] 0 = some none ∧
    updateStyle StyleDefault (ascii "\x1b[031m") = updateStyle StyleDefault (ascii "\x1b[31m") := by
  decide

/-! ### Input without an escape sequence -/

/-- No byte ESC of the string has the byte `[` right behind it. -/
theorem findAllFrom_nil_of_chain (s : GoString)
    (h : List.Chain' (fun a b : Byte => ¬ (a.val = 0x1B ∧ b.val = 0x5B)) s) (pos : Nat) :
    findAllFrom 0 pos s = [] := by
  induction s generalizing pos with
  | nil => rfl
  | cons c cs ih =>
    have hm : matchSGR (c :: cs) = none := by
      cases cs with
      | nil => rfl
      | cons d ds =>
        rw [matchSGR, if_neg (List.chain'_cons.mp h).1]
    rw [findAllFrom, hm]
    exact ih (List.Chain'.tail h) (pos + 1)

theorem styledStringsFromString_of_no_match (s : GoString) (hne : s ≠ [])
    (h : FindAllStringIndex s = []) :
    styledStringsFromString s = some [⟨s, StyleDefault⟩] := by
  unfold styledStringsFromString
  rw [h, styledStringsLoop]
  simp only [Option.bind_eq_bind, Option.some_bind]
  have hlen : 0 ≠ s.length := fun h0 => hne (List.length_eq_zero.mp h0.symm)
  rw [if_pos hlen]
  have := slice_tail [] s
  rw [List.nil_append, List.length_nil] at this
  rw [this]
  rfl

theorem EncodeRune_bytes (X : Nat) :
    (∃ b, EncodeRune X = [b]) ∨ (EncodeRune X ≠ [] ∧ ∀ b ∈ EncodeRune X, 0x80 ≤ b.val) := by
  unfold EncodeRune
  split_ifs
  · exact Or.inl ⟨_, rfl⟩
  all_goals
    right
    refine ⟨List.cons_ne_nil _ _, ?_⟩
    intro b hb
    simp only [List.mem_cons, List.mem_singleton, List.not_mem_nil, or_false] at hb
    unfold MaxRune at *
  · rcases hb with rfl | rfl <;> rw [byte_val] <;> omega
  · rcases hb with rfl | rfl | rfl <;> decide
  · rcases hb with rfl | rfl | rfl <;> rw [byte_val] <;> omega
  · rcases hb with rfl | rfl | rfl | rfl <;> rw [byte_val] <;> omega

theorem chain_of_no_esc (l : GoString) (h : ∀ b ∈ l, b.val ≠ 0x1B) :
    List.Chain' (fun a b : Byte => ¬ (a.val = 0x1B ∧ b.val = 0x5B)) l := by
  induction l with
  | nil => exact List.chain'_nil
  | cons c cs ih =>
    cases cs with
    | nil => exact List.chain'_singleton c
    | cons d ds =>
      refine List.chain'_cons.mpr ⟨fun hh => h c (List.mem_cons_self _ _) hh.1, ?_⟩
      exact ih (fun b hb => h b (List.mem_cons_of_mem _ hb))

theorem overstrike_no_match (X : Nat) (first : Byte) (hfirst : first.val ≠ 0x1B) :
    FindAllStringIndex (EncodeRune X ++ [0x08] ++ EncodeRune X) = [] ∧
    FindAllStringIndex (first :: 0x08 :: EncodeRune X) = [] := by
  unfold FindAllStringIndex
  rcases EncodeRune_bytes X with ⟨b, hb⟩ | ⟨_, hall⟩
  · rw [hb]
    constructor
    · apply findAllFrom_nil_of_chain
      refine List.chain'_cons.mpr ⟨fun hh => absurd hh.2 (by decide), ?_⟩
      refine List.chain'_cons.mpr ⟨fun hh => absurd hh.1 (by decide), List.chain'_singleton _⟩
    · apply findAllFrom_nil_of_chain
      refine List.chain'_cons.mpr ⟨fun hh => absurd hh.2 (by decide), ?_⟩
      refine List.chain'_cons.mpr ⟨fun hh => absurd hh.1 (by decide), List.chain'_singleton _⟩
  · constructor
    · apply findAllFrom_nil_of_chain
      apply chain_of_no_esc
      intro b hb
      simp only [List.mem_append, List.mem_singleton] at hb
      rcases hb with (hb | rfl) | hb
      · have := hall b hb; omega
      · decide
      · have := hall b hb; omega
    · apply findAllFrom_nil_of_chain
      apply chain_of_no_esc
      intro b hb
      simp only [List.mem_cons] at hb
      rcases hb with rfl | rfl | hb
      · exact hfirst
      · decide
      · have := hall b hb; omega

theorem stringToRunes_overstrike (first X : Nat) (hfirst : ValidRune first) (hX : ValidRune X) :
    stringToRunes (EncodeRune first ++ [0x08] ++ EncodeRune X) = [first, 0x08, X] := by
  have h8 : ([0x08] : GoString) = EncodeRune 0x08 := rfl
  have hnil := stringToRunes_EncodeRune_append X hX []
  rw [List.append_nil] at hnil
  rw [List.append_assoc, stringToRunes_EncodeRune_append first hfirst, h8,
    stringToRunes_EncodeRune_append 0x08 (by decide), hnil]
  rfl

theorem consumeBullet_three (a b : Nat) (hab : a ≠ 0x2B ∨ b ≠ 0x6F) :
    consumeBullet [a, 0x08, b] 0 = some (0, none) := by
  unfold consumeBullet bulletPatterns
  simp only [consumeBulletLoop, List.length_cons, List.length_nil, rangeString_bullet3]
  rw [if_neg (by omega), bulletMismatch_eq _ _ _ _ (by
    intro p hp; simp at hp; rcases hp with rfl | rfl | rfl <;> simp)]
  simp only [Option.bind_eq_bind, Option.some_bind]
  have hany : (false || [(0, 0x2B), (1, 0x08), (2, 0x6F)].any
      (fun p : Nat × Nat => decide ([a, 0x08, b][0 + p.1]? ≠ some p.2))) = true := by
    rcases hab with h | h <;> simp [h]
  rw [hany]
  simp

theorem consumeBold_three (cfg : ManPageFormat) (X : Nat) :
    consumeBold cfg [X, 0x08, X] 0 = some (3, some ⟨X, cfg.manPageBold⟩) := by
  unfold consumeBold
  simp

theorem tokensLoop_bold (cfg : ManPageFormat) (style : tcell.Style) (X : Nat) :
    tokensLoop cfg style [X, 0x08, X] 4 0 [] = some [⟨X, cfg.manPageBold⟩] := by
  have hb : consumeBullet [X, 0x08, X] 0 = some (0, none) := by
    apply consumeBullet_three
    by_cases h : X = 0x2B
    · right; rw [h]; decide
    · left; exact h
  rw [tokensLoop, if_pos (by simp), hb, consumeBold_three]
  simp only [Option.bind_eq_bind, Option.some_bind, ne_eq, not_true_eq_false, if_false]
  rw [if_pos (by decide), tokensLoop, if_neg (by simp)]
  rfl

theorem translateTokens_single (style : tcell.Style) (token : Token) (h9 : token.Rune ≠ 0x09)
    (hfffd : token.Rune ≠ 0xFFFD) (h8 : token.Rune ≠ 0x08) :
    translateTokens style [token] [] = some [token] := by
  rw [translateTokens, if_neg h9, if_neg hfffd, if_neg h8, translateTokens]
  rfl

/-- C10: bold overstrike. For every rune `X` a string can hold, `_` too, every
run style and every man-page format: the run `X`, backspace, `X` is the three
runes; `consumeBold` matches at its start and consumes all three;
`tokensFromStyledString` returns exactly one token, the rune `X` with the
man-page bold style, which at the start is the default style with bold on, and
not the style of the run; and when `X` is none of tab, backspace and U+FFFD,
`TokensFromString` returns that single token and the plain text `X`. -/
theorem bold_overstrike (cfg : ManPageFormat) (style : tcell.Style) (X : Nat)
    (hX : ValidRune X) :
    stringToRunes (EncodeRune X ++ [0x08] ++ EncodeRune X) = [X, 0x08, X] ∧
    consumeBold cfg [X, 0x08, X] 0 = some (3, some ⟨X, cfg.manPageBold⟩) ∧
    tokensFromStyledString cfg ⟨EncodeRune X ++ [0x08] ++ EncodeRune X, style⟩ =
      some [⟨X, cfg.manPageBold⟩] ∧
    resetManPageFormatForTesting.manPageBold = { StyleDefault with bold := true } ∧
    (X ≠ 0x09 → X ≠ 0x08 → X ≠ 0xFFFD →
      TokensFromString cfg (EncodeRune X ++ [0x08] ++ EncodeRune X) =
        some ([⟨X, cfg.manPageBold⟩], EncodeRune X)) := by
  have hrunes := stringToRunes_overstrike X X hX hX
  have htok : ∀ st : tcell.Style,
      tokensFromStyledString cfg ⟨EncodeRune X ++ [0x08] ++ EncodeRune X, st⟩ =
        some [⟨X, cfg.manPageBold⟩] := by
    intro st
    unfold tokensFromStyledString
    simp only [hrunes]
    exact tokensLoop_bold cfg st X
  refine ⟨hrunes, consumeBold_three cfg X, htok style, rfl, ?_⟩
  intro h9 h8 hfffd
  have hne : EncodeRune X ++ [0x08] ++ EncodeRune X ≠ [] := by simp
  unfold TokensFromString
  rw [styledStringsFromString_of_no_match _ hne (overstrike_no_match X 0 (by decide)).1]
  simp only [Option.bind_eq_bind, Option.some_bind]
  rw [tokensFromRuns, htok]
  simp only [Option.bind_eq_bind, Option.some_bind]
  rw [translateTokens_single _ _ h9 hfffd h8]
  simp only [Option.some_bind]
  rw [tokensFromRuns]
  simp [plainString]

set_option maxRecDepth 10000 in
theorem bold_overstrike_witness :
    ValidRune 0x4E ∧
    TokensFromString resetManPageFormatForTesting (ascii "N\x08N") =
      some ([⟨0x4E, { StyleDefault with bold := true }⟩], ascii "N") :=
  ⟨by decide,
    (bold_overstrike resetManPageFormatForTesting StyleDefault 0x4E (by decide)).2.2.2.2
      (by decide) (by decide) (by decide)⟩

/-! ### Underline and bullet overstrike -/

theorem consumeUnderline_three (cfg : ManPageFormat) (X : Nat) :
    consumeUnderline cfg [0x5F, 0x08, X] 0 = some (3, some ⟨X, cfg.manPageUnderline⟩) := by
  unfold consumeUnderline
  simp

theorem consumeBold_three_ne (cfg : ManPageFormat) (a b : Nat) (h : a ≠ b) :
    consumeBold cfg [a, 0x08, b] 0 = some (0, none) := by
  unfold consumeBold
  simp [h]

theorem tokensLoop_underline (cfg : ManPageFormat) (style : tcell.Style) (X : Nat)
    (hne : X ≠ 0x5F) :
    tokensLoop cfg style [0x5F, 0x08, X] 4 0 [] = some [⟨X, cfg.manPageUnderline⟩] := by
  have hb : consumeBullet [0x5F, 0x08, X] 0 = some (0, none) :=
    consumeBullet_three _ _ (Or.inl (by decide))
  rw [tokensLoop, if_pos (by simp), hb, consumeBold_three_ne cfg _ _ (fun h => hne h.symm),
    consumeUnderline_three]
  simp only [Option.bind_eq_bind, Option.some_bind, ne_eq, not_true_eq_false, if_false]
  rw [if_pos (by decide), tokensLoop, if_neg (by simp)]
  rfl

/-- C11: underline overstrike. For every rune `X` a string can hold other than
`_`, every run style and every man-page format: the run `_`, backspace, `X` is
the three runes; `consumeUnderline` matches at its start and consumes all
three; `tokensFromStyledString` returns exactly one token, the rune `X` with
the man-page underline style, which at the start is the default style with
underline on, and not the style of the run; and when `X` is none of tab,
backspace and U+FFFD, `TokensFromString` returns that single token and the
plain text `X`. -/
theorem underline_overstrike (cfg : ManPageFormat) (style : tcell.Style) (X : Nat)
    (hX : ValidRune X) (hne : X ≠ 0x5F) :
    stringToRunes (0x5F :: 0x08 :: EncodeRune X) = [0x5F, 0x08, X] ∧
    consumeUnderline cfg [0x5F, 0x08, X] 0 = some (3, some ⟨X, cfg.manPageUnderline⟩) ∧
    tokensFromStyledString cfg ⟨0x5F :: 0x08 :: EncodeRune X, style⟩ =
      some [⟨X, cfg.manPageUnderline⟩] ∧
    resetManPageFormatForTesting.manPageUnderline = { StyleDefault with underline := true } ∧
    (X ≠ 0x09 → X ≠ 0x08 → X ≠ 0xFFFD →
      TokensFromString cfg (0x5F :: 0x08 :: EncodeRune X) =
        some ([⟨X, cfg.manPageUnderline⟩], EncodeRune X)) := by
  have hrunes : stringToRunes (0x5F :: 0x08 :: EncodeRune X) = [0x5F, 0x08, X] :=
    stringToRunes_overstrike 0x5F X (by decide) hX
  have htok : ∀ st : tcell.Style,
      tokensFromStyledString cfg ⟨0x5F :: 0x08 :: EncodeRune X, st⟩ =
        some [⟨X, cfg.manPageUnderline⟩] := by
    intro st
    unfold tokensFromStyledString
    simp only [hrunes]
    exact tokensLoop_underline cfg st X hne
  refine ⟨hrunes, consumeUnderline_three cfg X, htok style, rfl, ?_⟩
  intro h9 h8 hfffd
  unfold TokensFromString
  rw [styledStringsFromString_of_no_match _ (List.cons_ne_nil _ _)
    (overstrike_no_match X 0x5F (by decide)).2]
  simp only [Option.bind_eq_bind, Option.some_bind]
  rw [tokensFromRuns, htok]
  simp only [Option.bind_eq_bind, Option.some_bind]
  rw [translateTokens_single _ _ h9 hfffd h8]
  simp only [Option.some_bind]
  rw [tokensFromRuns]
  simp [plainString]

set_option maxRecDepth 10000 in
theorem underline_overstrike_witness :
    (ValidRune 0x78 ∧ 0x78 ≠ 0x5F) ∧
    TokensFromString resetManPageFormatForTesting (ascii "_\x08x") =
      some ([⟨0x78, { StyleDefault with underline := true }⟩], ascii "x") :=
  ⟨by decide,
    (underline_overstrike resetManPageFormatForTesting StyleDefault 0x78 (by decide)
      (by decide)).2.2.2.2 (by decide) (by decide) (by decide)⟩

/-- C12: bullet overstrike. For every run style and every man-page format,
`tokensFromStyledString` on the run `+`, backspace, `o` and on the run `+`,
backspace, `+`, backspace, `o`, backspace, `o` returns exactly one token, the
bullet U+2022 with the default style; `consumeBullet` consumes the whole run,
3 and 7 runes; and the bullet detector goes first: the first three runes of the
long run match the bold pattern, as `consumeBold` on them shows, and still the
long run is one bullet. -/
theorem bullet_overstrike (cfg : ManPageFormat) (style : tcell.Style) :
    tokensFromStyledString cfg ⟨ascii "+\x08o", style⟩ = some [⟨0x2022, StyleDefault⟩] ∧
    tokensFromStyledString cfg ⟨ascii "+\x08+\x08o\x08o", style⟩ =
      some [⟨0x2022, StyleDefault⟩] ∧
    consumeBullet (stringToRunes (ascii "+\x08o")) 0 = some (3, some ⟨0x2022, StyleDefault⟩) ∧
    consumeBullet (stringToRunes (ascii "+\x08+\x08o\x08o")) 0 =
      some (7, some ⟨0x2022, StyleDefault⟩) ∧
    (stringToRunes (ascii "+\x08o")).length = 3 ∧
    (stringToRunes (ascii "+\x08+\x08o\x08o")).length = 7 ∧
    consumeBold cfg (stringToRunes (ascii "+\x08+\x08o\x08o")) 0 =
      some (3, some ⟨0x2B, cfg.manPageBold⟩) ∧
    TokensFromString cfg (ascii "+\x08+\x08o\x08o") =
      some ([⟨0x2022, StyleDefault⟩], EncodeRune 0x2022) := by
  refine ⟨rfl, rfl, ?_, ?_, ?_, ?_, rfl, rfl⟩ <;> decide

/-! ### Runs without an overstrike -/

/-- A match of the bullet detector ends two runes behind a backspace. -/
theorem consumeBullet_info (runes : List Nat) (index next : Nat) (tok : Option Token)
    (h : consumeBullet runes index = some (next, tok)) (hne : next ≠ index) :
    index + 3 ≤ next ∧ next ≤ runes.length ∧ runes[next - 2]? = some 0x08 ∧
      tok = some ⟨0x2022, StyleDefault⟩ := by
  unfold consumeBullet bulletPatterns at h
  simp only [consumeBulletLoop, List.length_cons, List.length_nil, rangeString_bullet3,
    rangeString_bullet7] at h
  by_cases h3 : index + 3 > runes.length
  · have h7 : index + 7 > runes.length := by omega
    rw [if_pos h3, if_pos h7] at h
    simp only [Option.some.injEq, Prod.mk.injEq] at h
    exact absurd h.1.symm hne
  · rw [if_neg h3, bulletMismatch_eq _ _ _ _ (by
      intro p hp; simp at hp; rcases hp with rfl | rfl | rfl <;> simp <;> omega)] at h
    simp only [Option.bind_eq_bind, Option.some_bind] at h
    by_cases hm3 : (false || [(0, 0x2B), (1, 0x08), (2, 0x6F)].any
        (fun p : Nat × Nat => decide (runes[index + p.1]? ≠ some p.2))) = true
    · rw [if_pos hm3] at h
      by_cases h7 : index + 7 > runes.length
      · rw [if_pos h7] at h
        simp only [Option.some.injEq, Prod.mk.injEq] at h
        exact absurd h.1.symm hne
      · rw [if_neg h7, bulletMismatch_eq _ _ _ _ (by
          intro p hp; simp at hp
          rcases hp with rfl | rfl | rfl | rfl | rfl | rfl | rfl <;> simp <;> omega)] at h
        simp only [Option.bind_eq_bind, Option.some_bind] at h
        by_cases hm7 : (false || [(0, 0x2B), (1, 0x08), (2, 0x2B), (3, 0x08), (4, 0x6F),
            (5, 0x08), (6, 0x6F)].any
            (fun p : Nat × Nat => decide (runes[index + p.1]? ≠ some p.2))) = true
        · rw [if_pos hm7] at h
          simp only [Option.some.injEq, Prod.mk.injEq] at h
          exact absurd h.1.symm hne
        · rw [if_neg hm7] at h
          simp only [Option.some.injEq, Prod.mk.injEq] at h
          obtain ⟨rfl, rfl⟩ := h
          simp at hm7
          refine ⟨by omega, by omega, ?_, rfl⟩
          rw [show index + 7 - 2 = index + 5 by omega]
          exact hm7.2.2.2.2.2.1
    · rw [if_neg hm3] at h
      simp only [Option.some.injEq, Prod.mk.injEq] at h
      obtain ⟨rfl, rfl⟩ := h
      simp at hm3
      refine ⟨by omega, by omega, ?_, rfl⟩
      rw [show index + 3 - 2 = index + 1 by omega]
      exact hm3.2.1

theorem getElem?_some_lt {α : Type} (l : List α) (i : Nat) (a : α) (h : l[i]? = some a) :
    i < l.length := by
  rcases Nat.lt_or_ge i l.length with hlt | hge
  · exact hlt
  · rw [List.getElem?_eq_none hge] at h; cases h

/-- One round of the loop, in full: either no detector matches and the rune at
the index becomes a token with the style of the run, or a detector matches, and
then its match ends two runes behind a backspace. -/
theorem tokensLoop_step (cfg : ManPageFormat) (style : tcell.Style) (runes : List Nat)
    (index : Nat) (h : index < runes.length) :
    ∃ next tok,
      ((next = index + 1 ∧ tok = ⟨runes[index], style⟩) ∨
        (index + 3 ≤ next ∧ next ≤ runes.length ∧ runes[next - 2]? = some 0x08)) ∧
      ∀ fuel tokens, tokensLoop cfg style runes (fuel + 1) index tokens =
        tokensLoop cfg style runes fuel next (tokens ++ [tok]) := by
  rcases consumeBullet_cases runes index with hb | ⟨_, hb⟩ | ⟨_, hb⟩
  · rcases consumeBold_cases cfg runes index with ho | ⟨r, _, hr1, hr2, ho⟩
    · rcases consumeUnderline_cases cfg runes index with hu | ⟨r, _, hr1, hr2, hu⟩
      · refine ⟨index + 1, ⟨runes[index], style⟩, Or.inl ⟨rfl, rfl⟩, ?_⟩
        intro fuel tokens
        rw [tokensLoop, if_pos h, hb, ho, hu, List.getElem?_eq_getElem h]
        simp
      · have hlen := getElem?_some_lt _ _ _ hr2
        refine ⟨index + 3, ⟨r, cfg.manPageUnderline⟩,
          Or.inr ⟨le_refl _, by omega, by rw [show index + 3 - 2 = index + 1 by omega]; exact hr1⟩,
          ?_⟩
        intro fuel tokens
        rw [tokensLoop, if_pos h, hb, ho, hu]
        simp
    · have hlen := getElem?_some_lt _ _ _ hr2
      refine ⟨index + 3, ⟨r, cfg.manPageBold⟩,
        Or.inr ⟨le_refl _, by omega, by rw [show index + 3 - 2 = index + 1 by omega]; exact hr1⟩,
        ?_⟩
      intro fuel tokens
      rw [tokensLoop, if_pos h, hb, ho]
      simp
  · have hinfo := consumeBullet_info _ _ _ _ hb (by omega)
    refine ⟨index + 3, ⟨0x2022, StyleDefault⟩, Or.inr ⟨hinfo.1, hinfo.2.1, hinfo.2.2.1⟩, ?_⟩
    intro fuel tokens
    rw [tokensLoop, if_pos h, hb]
    simp
  · have hinfo := consumeBullet_info _ _ _ _ hb (by omega)
    refine ⟨index + 7, ⟨0x2022, StyleDefault⟩, Or.inr ⟨hinfo.1, hinfo.2.1, hinfo.2.2.1⟩, ?_⟩
    intro fuel tokens
    rw [tokensLoop, if_pos h, hb]
    simp

/-- On runes without a backspace the loop returns one token for each rune, the
rune with the style of the run. -/
theorem tokensLoop_plain (cfg : ManPageFormat) (style : tcell.Style) (runes : List Nat)
    (hno : ∀ r ∈ runes, r ≠ 0x08) :
    ∀ (fuel index : Nat) (tokens : List Token), index ≤ runes.length →
      runes.length - index < fuel →
      tokensLoop cfg style runes fuel index tokens =
        some (tokens ++ (runes.drop index).map (fun r => Token.mk r style)) := by
  intro fuel
  induction fuel with
  | zero => intro index tokens _ h; omega
  | succ fuel ih =>
    intro index tokens hle hfuel
    by_cases h : index < runes.length
    · obtain ⟨next, tok, hcase, hstep⟩ := tokensLoop_step cfg style runes index h
      rcases hcase with ⟨rfl, rfl⟩ | ⟨_, _, h8⟩
      · rw [hstep, ih _ _ (by omega) (by omega), List.drop_eq_getElem_cons h, List.map_cons,
          List.append_assoc, List.singleton_append]
      · exact absurd rfl (hno _ (List.getElem?_mem h8))
    · rw [tokensLoop_zero_index _ _ _ _ _ _ h, List.drop_eq_nil_of_le (by omega)]
      simp

theorem tokensFromStyledString_plain (cfg : ManPageFormat) (styledString : StyledString)
    (hno : ∀ r ∈ stringToRunes styledString.String, r ≠ 0x08) :
    tokensFromStyledString cfg styledString =
      some ((stringToRunes styledString.String).map (fun r => Token.mk r styledString.Style)) := by
  unfold tokensFromStyledString
  rw [tokensLoop_plain cfg _ _ hno _ _ _ (Nat.zero_le _) (by omega)]
  simp

/-- The tokens that `TokensFromString` takes over as they are go to the end of
the tokens so far. -/
theorem translateTokens_plain (style : tcell.Style) (toks rest tokens : List Token)
    (h : ∀ t ∈ toks, t.Rune ≠ 0x09 ∧ t.Rune ≠ 0xFFFD ∧ t.Rune ≠ 0x08) :
    translateTokens style (toks ++ rest) tokens = translateTokens style rest (tokens ++ toks) := by
  induction toks generalizing tokens with
  | nil => simp
  | cons t toks ih =>
    have ht := h t (List.mem_cons_self _ _)
    rw [List.cons_append, translateTokens, if_neg ht.1, if_neg ht.2.1, if_neg ht.2.2,
      ih _ (fun x hx => h x (List.mem_cons_of_mem _ hx)), List.append_assoc,
      List.singleton_append]

/-- A tab among the tokens of a styled string becomes spaces with the style
of the styled string, as many as lead to the next multiple of four tokens. -/
theorem translateTokens_tab (style : tcell.Style) (token : Token) (rest tokens : List Token)
    (h : token.Rune = 0x09) :
    translateTokens style (token :: rest) tokens =
      translateTokens style rest
        (tokens ++ List.replicate (_TabSize - tokens.length % _TabSize) ⟨0x20, style⟩) := by
  rw [translateTokens, if_pos h, tabLoop_eq style _ tokens (by unfold _TabSize; omega)]
  rfl

theorem translateTokens_nil (style : tcell.Style) (tokens : List Token) :
    translateTokens style [] tokens = some tokens := rfl

/-! ### Plain text -/

theorem EncodeRune_ascii_byte (r : Nat) (b : Byte) (hb : b ∈ EncodeRune r) (hlt : b.val < 0x80) :
    r = b.val := by
  unfold EncodeRune at hb
  split_ifs at hb with h1 h2 h3 h4
  · rw [List.mem_singleton] at hb
    rw [hb, byte_val]; omega
  all_goals
    simp only [List.mem_cons, List.mem_singleton, List.not_mem_nil, or_false] at hb
    unfold MaxRune at *
  · rcases hb with rfl | rfl <;> rw [byte_val] at hlt <;> omega
  · rcases hb with rfl | rfl | rfl <;> exact absurd hlt (by decide)
  · rcases hb with rfl | rfl | rfl <;> rw [byte_val] at hlt <;> omega
  · rcases hb with rfl | rfl | rfl | rfl <;> rw [byte_val] at hlt <;> omega

theorem stringToRunes_runesToString_append (runes : List Nat) (h : ∀ r ∈ runes, ValidRune r)
    (rest : GoString) :
    stringToRunes (runesToString runes ++ rest) = runes ++ stringToRunes rest := by
  induction runes with
  | nil => rfl
  | cons r runes ih =>
    unfold runesToString at ih ⊢
    rw [List.flatMap_cons, List.append_assoc,
      stringToRunes_EncodeRune_append r (h r (List.mem_cons_self _ _)),
      ih (fun x hx => h x (List.mem_cons_of_mem _ hx)), List.cons_append]

theorem runesToString_no_esc (runes : List Nat) (h : ∀ r ∈ runes, r ≠ 0x1B) :
    ∀ b ∈ runesToString runes, b.val ≠ 0x1B := by
  intro b hb heq
  unfold runesToString at hb
  obtain ⟨r, hr, hbr⟩ := List.mem_flatMap.mp hb
  have := EncodeRune_ascii_byte r b hbr (by omega)
  exact h r hr (by omega)

theorem FindAllStringIndex_no_esc (s : GoString) (h : ∀ b ∈ s, b.val ≠ 0x1B) :
    FindAllStringIndex s = [] :=
  findAllFrom_nil_of_chain s (chain_of_no_esc s h) 0

theorem PlainRune_ne (r : Nat) (h : PlainRune r) :
    r ≠ 0x09 ∧ r ≠ 0xFFFD ∧ r ≠ 0x08 ∧ r ≠ 0x1B := by
  unfold PlainRune IsControl at h
  omega

/-- Without an escape sequence and without a backspace, the tokens are those
of the inner loop of `TokensFromString` on the runes of the input, each with
the default style. -/
theorem TokensFromString_of_no_match (cfg : ManPageFormat) (s : GoString)
    (hmatch : FindAllStringIndex s = []) (hno : ∀ r ∈ stringToRunes s, r ≠ 0x08)
    (tokens : List Token)
    (htr : translateTokens StyleDefault
      ((stringToRunes s).map (fun r => Token.mk r StyleDefault)) [] = some tokens) :
    TokensFromString cfg s = some (tokens, plainString tokens) := by
  unfold TokensFromString
  cases s with
  | nil =>
    have : tokens = [] := by
      simp only [stringToRunes, runesFrom, List.map_nil, translateTokens, Option.some.injEq] at htr
      exact htr.symm
    rw [this]
    rfl
  | cons c cs =>
    rw [styledStringsFromString_of_no_match _ (List.cons_ne_nil _ _) hmatch]
    simp only [Option.bind_eq_bind, Option.some_bind]
    rw [tokensFromRuns, tokensFromStyledString_plain cfg _ hno]
    simp only [Option.bind_eq_bind, Option.some_bind]
    rw [htr]
    simp only [Option.some_bind]
    rw [tokensFromRuns]
    rfl

/-- C13: tab expansion. When the inner loop of `TokensFromString` meets a tab
with `n` tokens emitted so far, over the whole input, it goes on with those
tokens and `4 - n mod 4` spaces more, each with the style of the current run:
at least 1 and at most 4, so that the number of tokens is the next multiple of
4 above `n`. In particular, for `k` plain runes `p`, the tokens of `p`, tab, `x`
are the `k` runes, the spaces and the `x`, which is at index `4 * (k / 4 + 1)`:
8 for `Joha`; and 8 for two tabs and `x`; and a tab in a second run counts the
tokens of the first run. -/
theorem tab_expansion (cfg : ManPageFormat) (style : tcell.Style) (token : Token)
    (rest tokens : List Token) (p : List Nat) (htab : token.Rune = 0x09)
    (hp : ∀ r ∈ p, PlainRune r) :
    translateTokens style (token :: rest) tokens =
      translateTokens style rest
        (tokens ++ List.replicate (4 - tokens.length % 4) ⟨0x20, style⟩) ∧
    1 ≤ 4 - tokens.length % 4 ∧ 4 - tokens.length % 4 ≤ 4 ∧
    tokens.length + (4 - tokens.length % 4) = 4 * (tokens.length / 4 + 1) ∧
    TokensFromString cfg (runesToString p ++ [0x09, 0x78]) =
      some (p.map (fun r => Token.mk r StyleDefault) ++
          List.replicate (4 - p.length % 4) ⟨0x20, StyleDefault⟩ ++ [⟨0x78, StyleDefault⟩],
        plainString (p.map (fun r => Token.mk r StyleDefault) ++
          List.replicate (4 - p.length % 4) ⟨0x20, StyleDefault⟩ ++ [⟨0x78, StyleDefault⟩])) ∧
    (p.map (fun r => Token.mk r StyleDefault) ++
      List.replicate (4 - p.length % 4) ⟨0x20, StyleDefault⟩ ++
        [⟨0x78, StyleDefault⟩])[4 * (p.length / 4 + 1)]? = some ⟨0x78, StyleDefault⟩ ∧
    (TokensFromString cfg (ascii "Joha\tx")).map (fun r => r.1[8]?) =
      some (some ⟨0x78, StyleDefault⟩) ∧
    (TokensFromString cfg (ascii "\t\tx")).map (fun r => r.1[8]?) =
      some (some ⟨0x78, StyleDefault⟩) ∧
    (TokensFromString cfg (ascii "ab\x1b[31m\tx")).map (fun r => r.1.drop 2) =
      some [⟨0x20, { StyleDefault with fg := ColorMaroon }⟩,
        ⟨0x20, { StyleDefault with fg := ColorMaroon }⟩,
        ⟨0x78, { StyleDefault with fg := ColorMaroon }⟩] := by
  refine ⟨translateTokens_tab style token rest tokens htab, by omega, by omega, by omega, ?_, ?_,
    rfl, rfl, rfl⟩
  · have hvalid : ∀ r ∈ p, ValidRune r := fun r hr => (hp r hr).1
    have hrunes : stringToRunes (runesToString p ++ [0x09, 0x78]) = p ++ [0x09, 0x78] := by
      rw [stringToRunes_runesToString_append p hvalid]
      rfl
    apply TokensFromString_of_no_match
    · apply FindAllStringIndex_no_esc
      intro b hb
      rcases List.mem_append.mp hb with hb | hb
      · exact runesToString_no_esc p (fun r hr => (PlainRune_ne r (hp r hr)).2.2.2) b hb
      · simp only [List.mem_cons, List.mem_singleton, List.not_mem_nil, or_false] at hb
        rcases hb with rfl | rfl <;> decide
    · rw [hrunes]
      intro r hr
      rcases List.mem_append.mp hr with hr | hr
      · exact (PlainRune_ne r (hp r hr)).2.2.1
      · simp only [List.mem_cons, List.mem_singleton, List.not_mem_nil, or_false] at hr
        rcases hr with rfl | rfl <;> decide
    · rw [hrunes, List.map_append, translateTokens_plain _ _ _ _ (by
        intro t ht
        obtain ⟨r, hr, rfl⟩ := List.mem_map.mp ht
        have := PlainRune_ne r (hp r hr)
        exact ⟨this.1, this.2.1, this.2.2.1⟩)]
      rw [List.map_cons, translateTokens_tab _ _ _ _ rfl, List.map_cons, List.map_nil,
        translateTokens, if_neg (by decide), if_neg (by decide), if_neg (by decide),
        translateTokens]
      simp [_TabSize]
  · rw [List.getElem?_append_right (by
      simp only [List.length_append, List.length_map, List.length_replicate]; omega)]
    simp only [List.length_append, List.length_map, List.length_replicate]
    rw [show 4 * (p.length / 4 + 1) - (p.length + (4 - p.length % 4)) = 0 by omega]
    rfl

set_option maxRecDepth 10000 in
theorem tab_expansion_witness :
    ((Token.mk 0x09 StyleDefault).Rune = 0x09 ∧ ∀ r ∈ [0x4A, 0x6F, 0x68, 0x61, 0x6E], PlainRune r) ∧
    TokensFromString resetManPageFormatForTesting
        (runesToString [0x4A, 0x6F, 0x68, 0x61, 0x6E] ++ [0x09, 0x78]) =
      some ([0x4A, 0x6F, 0x68, 0x61, 0x6E].map (fun r => Token.mk r StyleDefault) ++
          List.replicate (4 - [0x4A, 0x6F, 0x68, 0x61, 0x6E].length % 4) ⟨0x20, StyleDefault⟩ ++
            [⟨0x78, StyleDefault⟩],
        plainString ([0x4A, 0x6F, 0x68, 0x61, 0x6E].map (fun r => Token.mk r StyleDefault) ++
          List.replicate (4 - [0x4A, 0x6F, 0x68, 0x61, 0x6E].length % 4) ⟨0x20, StyleDefault⟩ ++
            [⟨0x78, StyleDefault⟩])) :=
  ⟨by decide,
    (tab_expansion resetManPageFormatForTesting StyleDefault ⟨0x09, StyleDefault⟩ [] []
      [0x4A, 0x6F, 0x68, 0x61, 0x6E] rfl (by decide)).2.2.2.2.1⟩

/-! ### Broken encoding and lone backspaces -/

/-- C14: for every run style, a token with the rune U+FFFD becomes exactly one
token `?` and a token with the rune backspace exactly one token `<`, both with
the broken-encoding style, the default style with foreground maroon and
background silver, and not with the style of the run or of the token; a byte
that cannot be decoded gives one rune U+FFFD, and decoding goes on with the
next byte; so `abc\xc2def` gives `a`, `b`, `c`, `?`, `d`, `e`, `f` and a lone
backspace gives `<`. -/
theorem broken_encoding_tokens (cfg : ManPageFormat) (style tokenStyle : tcell.Style)
    (rest tokens : List Token) (b : Byte) (t : GoString)
    (hb : DecodeRuneInString (b :: t) = (RuneError, 1)) :
    translateTokens style (⟨0xFFFD, tokenStyle⟩ :: rest) tokens =
      translateTokens style rest (tokens ++ [⟨0x3F, styleBrokenUtf8⟩]) ∧
    translateTokens style (⟨0x08, tokenStyle⟩ :: rest) tokens =
      translateTokens style rest (tokens ++ [⟨0x3C, styleBrokenUtf8⟩]) ∧
    styleBrokenUtf8 = { StyleDefault with fg := ColorMaroon, bg := ColorSilver } ∧
    stringToRunes (b :: t) = 0xFFFD :: stringToRunes t ∧
    tokensFromStyledString cfg ⟨[0x08], style⟩ = some [⟨0x08, style⟩] ∧
    TokensFromString cfg (ascii "abc" ++ [0xC2] ++ ascii "def") =
      some ([⟨0x61, StyleDefault⟩, ⟨0x62, StyleDefault⟩, ⟨0x63, StyleDefault⟩,
          ⟨0x3F, styleBrokenUtf8⟩, ⟨0x64, StyleDefault⟩, ⟨0x65, StyleDefault⟩,
          ⟨0x66, StyleDefault⟩], ascii "abc?def") ∧
    TokensFromString cfg (ascii "\x08") = some ([⟨0x3C, styleBrokenUtf8⟩], ascii "<") := by
  refine ⟨?_, ?_, rfl, ?_, rfl, rfl, rfl⟩
  · rw [translateTokens, if_neg (show ¬ (0xFFFD : Nat) = 0x09 by decide), if_pos rfl]
  · rw [translateTokens, if_neg (show ¬ (0x08 : Nat) = 0x09 by decide),
      if_neg (show ¬ (0x08 : Nat) = 0xFFFD by decide), if_pos rfl]
  · rw [stringToRunes_cons, hb]
    rfl

set_option maxRecDepth 10000 in
theorem broken_encoding_tokens_witness :
    DecodeRuneInString (0xC2 :: ascii "def") = (RuneError, 1) ∧
    stringToRunes (0xC2 :: ascii "def") = 0xFFFD :: stringToRunes (ascii "def") :=
  ⟨by decide,
    (broken_encoding_tokens resetManPageFormatForTesting StyleDefault StyleDefault [] [] 0xC2
      (ascii "def") (by decide)).2.2.2.1⟩

theorem FindAllStringIndex_of_NoEscapeSequence (s : GoString) (h : NoEscapeSequence s) :
    FindAllStringIndex s = [] := by
  obtain ⟨segs, tail, hseg, hfind⟩ := findAllFrom_segmented s 0
  unfold FindAllStringIndex
  rw [hfind]
  cases segs with
  | nil => rfl
  | cons p segs =>
    obtain ⟨gap, e⟩ := p
    exfalso
    have hs := Segmented_unsplit s _ tail hseg
    have he := Segmented_isSGR s _ tail hseg (gap, e) (List.mem_cons_self _ _)
    apply h e he
    refine ⟨gap, unsplit segs tail, ?_⟩
    rw [hs, unsplit, List.append_assoc]

theorem IsSGR_infix_esc (s e : GoString) (he : IsSGR e) (h : List.IsInfix e s) :
    ∃ b ∈ s, b.val = 0x1B := by
  obtain ⟨params, _, rfl⟩ := he
  obtain ⟨a, c, rfl⟩ := h
  exact ⟨0x1B, by simp, rfl⟩

theorem NoEscapeSequence_of_no_esc (s : GoString) (h : ∀ b ∈ s, b.val ≠ 0x1B) :
    NoEscapeSequence s := by
  intro e he hin
  obtain ⟨b, hb, hv⟩ := IsSGR_infix_esc s e he hin
  exact h b hb hv

theorem translateTokens_all_plain (style : tcell.Style) (toks : List Token)
    (h : ∀ t ∈ toks, t.Rune ≠ 0x09 ∧ t.Rune ≠ 0xFFFD ∧ t.Rune ≠ 0x08) :
    translateTokens style toks [] = some toks := by
  have := translateTokens_plain style toks [] [] h
  rw [List.append_nil, List.nil_append] at this
  rw [this]
  rfl

/-- On an input without an escape sequence whose runes are none of tab,
backspace and U+FFFD the tokenizer returns one token for each rune, the rune
with the default style. -/
theorem TokensFromString_literal (cfg : ManPageFormat) (s : GoString)
    (hmatch : FindAllStringIndex s = [])
    (hrunes : ∀ r ∈ stringToRunes s, r ≠ 0x09 ∧ r ≠ 0xFFFD ∧ r ≠ 0x08) :
    TokensFromString cfg s =
      some ((stringToRunes s).map (fun r => Token.mk r StyleDefault),
        plainString ((stringToRunes s).map (fun r => Token.mk r StyleDefault))) := by
  apply TokensFromString_of_no_match cfg s hmatch (fun r hr => (hrunes r hr).2.2)
  apply translateTokens_all_plain
  intro t ht
  obtain ⟨r, hr, rfl⟩ := List.mem_map.mp ht
  exact hrunes r hr

theorem not_control_ne (r : Nat) (h : ¬ IsControl r) : r ≠ 0x09 ∧ r ≠ 0x08 ∧ r ≠ 0x1B := by
  unfold IsControl at h
  omega

/-- C15, as amended: for every input string that contains no escape sequence,
no control character and no U+FFFD, neither written in the input nor standing
for a byte that cannot be decoded, `TokensFromString` returns exactly one token
for each rune of the input, in order, the rune with the default style. -/
theorem plain_text_tokens (cfg : ManPageFormat) (s : GoString) (hesc : NoEscapeSequence s)
    (hctl : ∀ r ∈ stringToRunes s, ¬ IsControl r) (hfffd : ∀ r ∈ stringToRunes s, r ≠ 0xFFFD) :
    ∃ plain, TokensFromString cfg s =
      some ((stringToRunes s).map (fun r => Token.mk r StyleDefault), plain) := by
  refine ⟨_, TokensFromString_literal cfg s (FindAllStringIndex_of_NoEscapeSequence s hesc) ?_⟩
  intro r hr
  have := not_control_ne r (hctl r hr)
  exact ⟨this.1, hfffd r hr, this.2.1⟩

set_option maxRecDepth 10000 in
theorem plain_text_tokens_witness :
    (NoEscapeSequence (ascii "abc") ∧ (∀ r ∈ stringToRunes (ascii "abc"), ¬ IsControl r) ∧
      ∀ r ∈ stringToRunes (ascii "abc"), r ≠ 0xFFFD) ∧
    ∃ plain, TokensFromString resetManPageFormatForTesting (ascii "abc") =
      some ((stringToRunes (ascii "abc")).map (fun r => Token.mk r StyleDefault), plain) :=
  ⟨⟨NoEscapeSequence_of_no_esc _ (by decide), by decide, by decide⟩,
    plain_text_tokens resetManPageFormatForTesting (ascii "abc")
      (NoEscapeSequence_of_no_esc _ (by decide)) (by decide) (by decide)⟩

set_option maxRecDepth 10000 in
/-- C15 as stated fails: the three bytes of U+FFFD, and the string `abc\xc2def`
of the test `TestBrokenUtf8`, contain no escape sequence and no control
character, but the token of the rune U+FFFD is a `?` with the broken-encoding
style, not that rune with the default style. -/
theorem plain_text_tokens_counterexample :
    NoEscapeSequence [0xEF, 0xBF, 0xBD] ∧
    (∀ r ∈ stringToRunes [0xEF, 0xBF, 0xBD], ¬ IsControl r) ∧
    stringToRunes [0xEF, 0xBF, 0xBD] = [0xFFFD] ∧
    TokensFromString resetManPageFormatForTesting [0xEF, 0xBF, 0xBD] =
      some ([⟨0x3F, styleBrokenUtf8⟩], ascii "?") ∧
    (¬ ∃ plain, TokensFromString resetManPageFormatForTesting [0xEF, 0xBF, 0xBD] =
      some ((stringToRunes [0xEF, 0xBF, 0xBD]).map (fun r => Token.mk r StyleDefault), plain)) ∧
    NoEscapeSequence (ascii "abc" ++ [0xC2] ++ ascii "def") ∧
    (∀ r ∈ stringToRunes (ascii "abc" ++ [0xC2] ++ ascii "def"), ¬ IsControl r) ∧
    (¬ ∃ plain, TokensFromString resetManPageFormatForTesting
        (ascii "abc" ++ [0xC2] ++ ascii "def") =
      some ((stringToRunes (ascii "abc" ++ [0xC2] ++ ascii "def")).map
        (fun r => Token.mk r StyleDefault), plain)) := by
  refine ⟨NoEscapeSequence_of_no_esc _ (by decide), by decide, by decide, by decide, ?_,
    NoEscapeSequence_of_no_esc _ (by decide), by decide, ?_⟩
  · rintro ⟨plain, h⟩
    have h2 : TokensFromString resetManPageFormatForTesting [0xEF, 0xBF, 0xBD] =
        some ([⟨0x3F, styleBrokenUtf8⟩], ascii "?") := by decide
    rw [h2] at h
    revert h
    simp only [Option.some.injEq, Prod.mk.injEq, imp_false, not_and]
    intro h
    exact absurd h (by decide)
  · rintro ⟨plain, h⟩
    have h2 : TokensFromString resetManPageFormatForTesting
        (ascii "abc" ++ [0xC2] ++ ascii "def") =
        some ([⟨0x61, StyleDefault⟩, ⟨0x62, StyleDefault⟩, ⟨0x63, StyleDefault⟩,
          ⟨0x3F, styleBrokenUtf8⟩, ⟨0x64, StyleDefault⟩, ⟨0x65, StyleDefault⟩,
          ⟨0x66, StyleDefault⟩], ascii "abc?def") := by decide
    rw [h2] at h
    revert h
    simp only [Option.some.injEq, Prod.mk.injEq, imp_false, not_and]
    intro h
    exact absurd h (by decide)

theorem plainString_literal (runes : List Nat) (style : tcell.Style) :
    plainString (runes.map (fun r => Token.mk r style)) = runesToString runes := by
  unfold plainString runesToString
  induction runes with
  | nil => rfl
  | cons r runes ih => rw [List.map_cons, List.flatMap_cons, List.flatMap_cons, ih]

/-- C16, as amended: for every input string that contains no escape sequence,
no control character and no U+FFFD, `TokensFromString` returns tokens and a
plain string, and on that plain string it returns the same tokens, runes and
styles, and the same plain string. -/
theorem plain_text_idempotent (cfg : ManPageFormat) (s : GoString) (hesc : NoEscapeSequence s)
    (hctl : ∀ r ∈ stringToRunes s, ¬ IsControl r) (hfffd : ∀ r ∈ stringToRunes s, r ≠ 0xFFFD) :
    ∃ tokens plain, TokensFromString cfg s = some (tokens, plain) ∧
      TokensFromString cfg plain = some (tokens, plain) := by
  have hrunes : ∀ r ∈ stringToRunes s, r ≠ 0x09 ∧ r ≠ 0xFFFD ∧ r ≠ 0x08 := by
    intro r hr
    have := not_control_ne r (hctl r hr)
    exact ⟨this.1, hfffd r hr, this.2.1⟩
  have hfirst := TokensFromString_literal cfg s (FindAllStringIndex_of_NoEscapeSequence s hesc)
    hrunes
  refine ⟨_, _, hfirst, ?_⟩
  have hplain : stringToRunes
      (plainString ((stringToRunes s).map (fun r => Token.mk r StyleDefault))) =
      stringToRunes s := by
    rw [stringToRunes_plainString _ (by
      intro t ht
      obtain ⟨r, hr, rfl⟩ := List.mem_map.mp ht
      exact stringToRunes_valid s r hr), List.map_map]
    exact List.map_id _
  have hsecond := TokensFromString_literal cfg
    (plainString ((stringToRunes s).map (fun r => Token.mk r StyleDefault)))
    (by
      rw [plainString_literal]
      exact FindAllStringIndex_no_esc _
        (runesToString_no_esc _ (fun r hr => (not_control_ne r (hctl r hr)).2.2)))
    (by rw [hplain]; exact hrunes)
  rw [hplain] at hsecond
  exact hsecond

set_option maxRecDepth 10000 in
theorem plain_text_idempotent_witness :
    (NoEscapeSequence (ascii "abc") ∧ (∀ r ∈ stringToRunes (ascii "abc"), ¬ IsControl r) ∧
      ∀ r ∈ stringToRunes (ascii "abc"), r ≠ 0xFFFD) ∧
    ∃ tokens plain, TokensFromString resetManPageFormatForTesting (ascii "abc") =
        some (tokens, plain) ∧
      TokensFromString resetManPageFormatForTesting plain = some (tokens, plain) :=
  ⟨⟨NoEscapeSequence_of_no_esc _ (by decide), by decide, by decide⟩,
    plain_text_idempotent resetManPageFormatForTesting (ascii "abc")
      (NoEscapeSequence_of_no_esc _ (by decide)) (by decide) (by decide)⟩

set_option maxRecDepth 10000 in
/-- C16 as stated fails: the string of the one byte `\xc2` contains no escape
sequence and no control character; its token is a `?` with the broken-encoding
style and its plain string is `?`, whose token is a `?` with the default
style. -/
theorem plain_text_idempotent_counterexample :
    NoEscapeSequence [0xC2] ∧ (∀ r ∈ stringToRunes [0xC2], ¬ IsControl r) ∧
    TokensFromString resetManPageFormatForTesting [0xC2] =
      some ([⟨0x3F, styleBrokenUtf8⟩], ascii "?") ∧
    TokensFromString resetManPageFormatForTesting (ascii "?") =
      some ([⟨0x3F, StyleDefault⟩], ascii "?") ∧
    [Token.mk 0x3F styleBrokenUtf8] ≠ [Token.mk 0x3F StyleDefault] :=
  ⟨NoEscapeSequence_of_no_esc _ (by decide), by decide, by decide, by decide, by decide⟩

/-! ### The man-page format from the environment -/

theorem FindAllStringIndex_termcap (t : GoString) (ht : IsSGR t) :
    FindAllStringIndex (t ++ [0x78]) = [(0, t.length)] := by
  obtain ⟨params, hp, rfl⟩ := ht
  have hm : matchSGR (0x1B :: 0x5B :: (params ++ [0x6D]) ++ [0x78]) =
      some ((0x1B :: 0x5B :: (params ++ [0x6D]) : GoString).length) := by
    simp only [List.cons_append, List.append_assoc, List.singleton_append, matchSGR]
    rw [if_pos (by decide), matchParams_append _ _ hp]
    simp
  unfold FindAllStringIndex
  rw [List.cons_append, findAllFrom, ← List.cons_append, hm]
  simp only [Nat.zero_add]
  rw [findAllFrom_skip]
  have hdrop : ((0x5B : Byte) :: (params ++ [0x6D]) ++ [0x78]).drop
      ((0x1B :: 0x5B :: (params ++ [0x6D]) : GoString).length - 1) = [0x78] := by
    have : ((0x1B :: 0x5B :: (params ++ [0x6D]) : GoString).length - 1) =
        ((0x5B : Byte) :: (params ++ [0x6D])).length := by simp
    rw [this, List.drop_left]
  rw [hdrop]
  rfl

/-- For a termcap string that is one escape sequence, the string with the
marker `x` appended is one run, the marker with the style of the sequence. -/
theorem styledStringsFromString_termcap (t : GoString) (ht : IsSGR t) :
    ∃ style, updateStyle StyleDefault t = some style ∧
      styledStringsFromString (t ++ [0x78]) = some [⟨[0x78], style⟩] := by
  obtain ⟨params, he, hup⟩ := updateStyle_isSGR StyleDefault t ht
  refine ⟨_, hup, ?_⟩
  have hlen : 3 ≤ t.length := by rw [he]; simp
  unfold styledStringsFromString
  rw [FindAllStringIndex_termcap t ht, styledStringsLoop]
  have h1 : slice (t ++ [0x78]) 0 t.length = some t := by
    have := slice_mid [] t [0x78]
    simpa using this
  have h2 : slice (t ++ [0x78]) t.length (t ++ [0x78]).length = some [0x78] := slice_tail t [0x78]
  rw [if_neg (by omega), h1]
  simp only [Option.bind_eq_bind, Option.some_bind]
  rw [hup]
  simp only [Option.some_bind]
  rw [styledStringsLoop]
  simp only [Option.some_bind]
  rw [if_pos (by simp only [List.length_append, List.length_singleton]; omega), h2]
  rfl

theorem TokensFromString_termcap (cfg : ManPageFormat) (t : GoString) (ht : IsSGR t) :
    ∃ style, updateStyle StyleDefault t = some style ∧
      TokensFromString cfg (t ++ [0x78]) = some ([⟨0x78, style⟩], [0x78]) ∧
      termcapToStyle cfg t = some style := by
  obtain ⟨style, hup, hruns⟩ := styledStringsFromString_termcap t ht
  have htok : TokensFromString cfg (t ++ [0x78]) = some ([⟨0x78, style⟩], [0x78]) := by
    unfold TokensFromString
    rw [hruns]
    rfl
  refine ⟨style, hup, htok, ?_⟩
  unfold termcapToStyle
  rw [htok]
  rfl

theorem TokensFromString_bold (cfg : ManPageFormat) (X : Nat) (hX : ValidRune X)
    (h9 : X ≠ 0x09) (h8 : X ≠ 0x08) (hfffd : X ≠ 0xFFFD) :
    TokensFromString cfg (EncodeRune X ++ [0x08] ++ EncodeRune X) =
      some ([⟨X, cfg.manPageBold⟩], EncodeRune X) := by
  have hrunes := stringToRunes_overstrike X X hX hX
  have hne : EncodeRune X ++ [0x08] ++ EncodeRune X ≠ [] := by simp
  unfold TokensFromString
  rw [styledStringsFromString_of_no_match _ hne (overstrike_no_match X 0 (by decide)).1]
  simp only [Option.bind_eq_bind, Option.some_bind]
  rw [tokensFromRuns, tokensFromStyledString]
  simp only [hrunes]
  rw [show [X, 0x08, X].length + 1 = 4 from rfl, tokensLoop_bold]
  simp only [Option.bind_eq_bind, Option.some_bind]
  rw [translateTokens_single _ _ h9 hfffd h8]
  simp only [Option.some_bind]
  rw [tokensFromRuns]
  simp [plainString]

theorem TokensFromString_underline (cfg : ManPageFormat) (X : Nat) (hX : ValidRune X)
    (hne : X ≠ 0x5F) (h9 : X ≠ 0x09) (h8 : X ≠ 0x08) (hfffd : X ≠ 0xFFFD) :
    TokensFromString cfg (0x5F :: 0x08 :: EncodeRune X) =
      some ([⟨X, cfg.manPageUnderline⟩], EncodeRune X) := by
  have hrunes : stringToRunes (0x5F :: 0x08 :: EncodeRune X) = [0x5F, 0x08, X] :=
    stringToRunes_overstrike 0x5F X (by decide) hX
  unfold TokensFromString
  rw [styledStringsFromString_of_no_match _ (List.cons_ne_nil _ _)
    (overstrike_no_match X 0x5F (by decide)).2]
  simp only [Option.bind_eq_bind, Option.some_bind]
  rw [tokensFromRuns, tokensFromStyledString]
  simp only [hrunes]
  rw [show [0x5F, 0x08, X].length + 1 = 4 from rfl, tokensLoop_underline _ _ _ hne]
  simp only [Option.bind_eq_bind, Option.some_bind]
  rw [translateTokens_single _ _ h9 hfffd h8]
  simp only [Option.some_bind]
  rw [tokensFromRuns]
  simp [plainString]

theorem tokensFromStyledString_bold (cfg : ManPageFormat) (style : tcell.Style) (X : Nat)
    (hX : ValidRune X) :
    tokensFromStyledString cfg ⟨EncodeRune X ++ [0x08] ++ EncodeRune X, style⟩ =
      some [⟨X, cfg.manPageBold⟩] := by
  unfold tokensFromStyledString
  simp only [stringToRunes_overstrike X X hX hX]
  exact tokensLoop_bold cfg style X

theorem tokensFromStyledString_underline (cfg : ManPageFormat) (style : tcell.Style) (X : Nat)
    (hX : ValidRune X) (hne : X ≠ 0x5F) :
    tokensFromStyledString cfg ⟨0x5F :: 0x08 :: EncodeRune X, style⟩ =
      some [⟨X, cfg.manPageUnderline⟩] := by
  have hrunes : stringToRunes (0x5F :: 0x08 :: EncodeRune X) = [0x5F, 0x08, X] :=
    stringToRunes_overstrike 0x5F X (by decide) hX
  unfold tokensFromStyledString
  simp only [hrunes]
  exact tokensLoop_underline cfg style X hne

/-- C17: the man-page format round trip. For every termcap string that is one
escape sequence `termcapToStyle` returns what `updateStyle` makes of the default
style; with the string in `LESS_TERMCAP_md` and nothing in `LESS_TERMCAP_us`,
`SetManPageFormatFromEnv` changes the bold style to it and leaves the underline
style, and the bold overstrike `X`, backspace, `X` is then one token `X` with
that style, whatever the style of the run, also in the result of
`TokensFromString` when `X` is none of tab, backspace and U+FFFD; likewise with
the string in `LESS_TERMCAP_us` for the underline style and `_`, backspace, `X`;
two empty strings leave both styles; and for ESC`[1;31m` the style is bold with
foreground maroon, not the plain bold. -/
theorem manpage_format_roundtrip (cfg : ManPageFormat) (t : GoString) (X : Nat)
    (runStyle : tcell.Style) (ht : IsSGR t) (hX : ValidRune X) :
    ∃ style, updateStyle StyleDefault t = some style ∧
      termcapToStyle cfg t = some style ∧
      SetManPageFormatFromEnv cfg t [] = some { cfg with manPageBold := style } ∧
      tokensFromStyledString { cfg with manPageBold := style }
          ⟨EncodeRune X ++ [0x08] ++ EncodeRune X, runStyle⟩ = some [⟨X, style⟩] ∧
      (X ≠ 0x09 → X ≠ 0x08 → X ≠ 0xFFFD →
        TokensFromString { cfg with manPageBold := style }
            (EncodeRune X ++ [0x08] ++ EncodeRune X) =
          some ([⟨X, style⟩], EncodeRune X)) ∧
      SetManPageFormatFromEnv cfg [] t = some { cfg with manPageUnderline := style } ∧
      (X ≠ 0x5F →
        tokensFromStyledString { cfg with manPageUnderline := style }
            ⟨0x5F :: 0x08 :: EncodeRune X, runStyle⟩ = some [⟨X, style⟩] ∧
        (X ≠ 0x09 → X ≠ 0x08 → X ≠ 0xFFFD →
          TokensFromString { cfg with manPageUnderline := style }
              (0x5F :: 0x08 :: EncodeRune X) =
            some ([⟨X, style⟩], EncodeRune X))) ∧
      SetManPageFormatFromEnv cfg [] [] = some cfg ∧
      updateStyle StyleDefault (ascii "\x1b[1;31m") =
        some { StyleDefault with bold := true, fg := ColorMaroon } ∧
      ({ StyleDefault with bold := true, fg := ColorMaroon } : tcell.Style) ≠
        resetManPageFormatForTesting.manPageBold := by
  obtain ⟨style, hup, _, hterm⟩ := TokensFromString_termcap cfg t ht
  have hne : t ≠ [] := by
    obtain ⟨params, _, rfl⟩ := ht
    exact List.cons_ne_nil _ _
  refine ⟨style, hup, hterm, ?_, tokensFromStyledString_bold _ runStyle X hX,
    fun h9 h8 hfffd => TokensFromString_bold _ X hX h9 h8 hfffd, ?_,
    fun hu => ⟨tokensFromStyledString_underline _ runStyle X hX hu,
      fun h9 h8 hfffd => TokensFromString_underline _ X hX hu h9 h8 hfffd⟩,
    rfl, rfl, by decide⟩
  · unfold SetManPageFormatFromEnv
    rw [if_pos hne, hterm]
    rfl
  · unfold SetManPageFormatFromEnv
    rw [if_neg (by simp)]
    simp only [Option.bind_eq_bind, Option.some_bind]
    rw [if_pos hne, hterm]
    rfl

set_option maxRecDepth 10000 in
theorem manpage_format_roundtrip_witness :
    (IsSGR (ascii "\x1b[1;31m") ∧ ValidRune 0x4E) ∧
    ∃ style, updateStyle StyleDefault (ascii "\x1b[1;31m") = some style ∧
      termcapToStyle resetManPageFormatForTesting (ascii "\x1b[1;31m") = some style ∧
      SetManPageFormatFromEnv resetManPageFormatForTesting (ascii "\x1b[1;31m") [] =
        some { resetManPageFormatForTesting with manPageBold := style } ∧
      TokensFromString { resetManPageFormatForTesting with manPageBold := style }
          (EncodeRune 0x4E ++ [0x08] ++ EncodeRune 0x4E) =
        some ([⟨0x4E, style⟩], EncodeRune 0x4E) :=
  have hsgr : IsSGR (ascii "\x1b[1;31m") := ⟨ascii "1;31", by decide, by decide⟩
  ⟨⟨hsgr, by decide⟩,
    (manpage_format_roundtrip resetManPageFormatForTesting (ascii "\x1b[1;31m") 0x4E
      StyleDefault hsgr (by decide)).imp
      (fun _ h => ⟨h.1, h.2.1, h.2.2.1,
        h.2.2.2.2.1 (by decide) (by decide) (by decide)⟩)⟩

/-! ### The style that `termcapToStyle` reads off -/

/-- The marker `x` is never part of the rune decoded before it. -/
theorem DecodeRuneInString_marker_size (s0 : Byte) (rest : GoString) :
    (DecodeRuneInString (s0 :: (rest ++ [0x78]))).2 ≤ rest.length + 1 := by
  have hlo : 0x80 ≤ acceptLo s0.val := by unfold acceptLo; split_ifs <;> omega
  rcases DecodeRuneInString_classes s0 (rest ++ [0x78]) with ⟨hs, h⟩ | ⟨hs, h⟩ | ⟨hs, h⟩ |
    ⟨hs, h⟩ | ⟨hs, h⟩ <;> rw [h]
  · simp
  · simp
  · split_ifs with hc
    · simp
    · rcases rest with _ | ⟨a, rest⟩
      · exfalso; apply hc; right; left
        show (0x78 : Nat) < acceptLo s0.val
        omega
      · simp
  · split_ifs with hc
    · simp
    · rcases rest with _ | ⟨a, _ | ⟨b, rest⟩⟩
      · exfalso; apply hc; right; left
        show (0x78 : Nat) < acceptLo s0.val
        omega
      · exfalso; apply hc; right; right; right; left
        show (0x78 : Nat) < 0x80
        decide
      · simp
  · split_ifs with hc
    · simp
    · rcases rest with _ | ⟨a, _ | ⟨b, _ | ⟨c, rest⟩⟩⟩
      · exfalso; apply hc; right; left
        show (0x78 : Nat) < acceptLo s0.val
        omega
      · exfalso; apply hc; right; right; right; left
        show (0x78 : Nat) < 0x80
        decide
      · exfalso; apply hc; right; right; right; right; right; left
        show (0x78 : Nat) < 0x80
        decide
      · simp

/-- Only the byte `0x08` decodes to the rune backspace. -/
theorem DecodeRuneInString_backspace (s0 : Byte) (t : GoString)
    (h : (DecodeRuneInString (s0 :: t)).1 = 0x08) :
    s0 = 0x08 ∧ (DecodeRuneInString (s0 :: t)).2 = 1 := by
  have h0 := s0.isLt
  rcases DecodeRuneInString_classes s0 t with ⟨hs, hd⟩ | ⟨hs, hd⟩ | ⟨hs, hd⟩ | ⟨hs, hd⟩ | ⟨hs, hd⟩
  · rw [hd] at h ⊢
    exact ⟨Fin.ext h, rfl⟩
  · rw [hd] at h; exact absurd h (by decide)
  · exfalso
    rw [hd] at h
    rcases firstSize_cases s0.val with ⟨hr, hs'⟩ | ⟨hr, hr', hs'⟩ | ⟨hr, hr', hs'⟩ |
      ⟨hr, hr', hs'⟩ | ⟨hr, hr', hs'⟩ <;> (try omega)
    split_ifs at h
    · exact absurd h (by decide)
    · dsimp only at h; omega
  · exfalso
    rw [hd] at h
    rcases firstSize_cases s0.val with ⟨hr, hs'⟩ | ⟨hr, hr', hs'⟩ | ⟨hr, hr', hs'⟩ |
      ⟨hr, hr', hs'⟩ | ⟨hr, hr', hs'⟩ <;> (try omega)
    split_ifs at h with hc
    · exact absurd h (by decide)
    · dsimp only at h
      rcases accept_cases s0.val with ⟨ha, hl, hh⟩ | ⟨ha, hl, hh⟩ | ⟨ha, hl, hh⟩ | ⟨ha, hl, hh⟩ |
        ⟨ha, ha', ha'', ha''', hl, hh⟩ <;> rw [hl, hh] at hc <;> omega
  · exfalso
    rw [hd] at h
    rcases firstSize_cases s0.val with ⟨hr, hs'⟩ | ⟨hr, hr', hs'⟩ | ⟨hr, hr', hs'⟩ |
      ⟨hr, hr', hs'⟩ | ⟨hr, hr', hs'⟩ <;> (try omega)
    split_ifs at h with hc
    · exact absurd h (by decide)
    · dsimp only at h
      rcases accept_cases s0.val with ⟨ha, hl, hh⟩ | ⟨ha, hl, hh⟩ | ⟨ha, hl, hh⟩ | ⟨ha, hl, hh⟩ |
        ⟨ha, ha', ha'', ha''', hl, hh⟩ <;> rw [hl, hh] at hc <;> omega

theorem getLast?_drop {α : Type} (l : List α) (n : Nat) (a : α)
    (h : (l.drop n).getLast? = some a) : l.getLast? = some a := by
  have := List.take_append_drop n l
  rw [← this, List.getLast?_append, h]
  rfl

/-- The runes of a string that ends with the marker `x`: the marker is the last
rune, and the rune before it is a backspace only when the byte before the
marker is one. -/
theorem stringToRunes_marker (u : GoString) :
    ∃ runes, stringToRunes (u ++ [0x78]) = runes ++ [0x78] ∧ (runes = [] → u = []) ∧
      (runes.getLast? = some 0x08 → u.getLast? = some 0x08) := by
  generalize h : u.length = n
  induction n using Nat.strong_induction_on generalizing u with
  | _ n ih =>
    cases u with
    | nil => exact ⟨[], rfl, fun _ => rfl, fun h => by cases h⟩
    | cons s0 rest =>
      have hsz := DecodeRuneInString_size s0 (rest ++ [0x78])
      have hm := DecodeRuneInString_marker_size s0 rest
      have hdrop : (s0 :: (rest ++ [0x78])).drop (DecodeRuneInString (s0 :: (rest ++ [0x78]))).2 =
          (s0 :: rest).drop (DecodeRuneInString (s0 :: (rest ++ [0x78]))).2 ++ [0x78] := by
        rw [← List.cons_append, List.drop_append_of_le_length (by simpa using hm)]
      obtain ⟨runes, hrunes, hnil, hlast⟩ :=
        ih ((s0 :: rest).drop (DecodeRuneInString (s0 :: (rest ++ [0x78]))).2).length
          (by rw [List.length_drop, ← h, List.length_cons]; omega) _ rfl
      refine ⟨(DecodeRuneInString (s0 :: (rest ++ [0x78]))).1 :: runes, ?_,
        fun h => absurd h (List.cons_ne_nil _ _), ?_⟩
      · rw [List.cons_append, stringToRunes_cons, hdrop, hrunes, List.cons_append]
      · intro h8
        by_cases hr : runes = []
        · subst hr
          have hu := hnil rfl
          rw [List.getLast?_singleton, Option.some.injEq] at h8
          obtain ⟨h0, h1⟩ := DecodeRuneInString_backspace s0 (rest ++ [0x78]) h8
          rw [h1, List.drop_succ_cons, List.drop_zero] at hu
          rw [hu, h0]
          rfl
        · obtain ⟨r, runes, rfl⟩ := List.exists_cons_of_ne_nil hr
          rw [List.getLast?_cons_cons] at h8
          exact getLast?_drop _ _ _ (hlast h8)

/-- The loop of `tokensFromStyledString` on runes that end with the marker `x`
after a rune that is not a backspace: the last token is the marker with the
style of the run. -/
theorem tokensLoop_marker (cfg : ManPageFormat) (style : tcell.Style) (runes : List Nat)
    (h8 : runes.getLast? ≠ some 0x08) :
    ∀ (fuel index : Nat) (tokens : List Token), index ≤ runes.length →
      (runes ++ [0x78]).length - index < fuel →
      ∃ out, tokensLoop cfg style (runes ++ [0x78]) fuel index tokens =
        some (out ++ [⟨0x78, style⟩]) := by
  intro fuel
  induction fuel with
  | zero => intro index tokens _ h; omega
  | succ fuel ih =>
    intro index tokens hle hfuel
    have hlen : (runes ++ [0x78]).length = runes.length + 1 := by simp
    have h : index < (runes ++ [0x78]).length := by omega
    obtain ⟨next, tok, hcase, hstep⟩ := tokensLoop_step cfg style (runes ++ [0x78]) index h
    rw [hstep]
    rcases hcase with ⟨hnext, htok⟩ | ⟨h3, hnle, hback⟩
    · by_cases hi : index < runes.length
      · exact ih next _ (by omega) (by omega)
      · have hidx : index = runes.length := by omega
        subst hidx
        obtain ⟨fuel, rfl⟩ : ∃ k, fuel = k + 1 := ⟨fuel - 1, by omega⟩
        refine ⟨tokens, ?_⟩
        rw [tokensLoop_zero_index _ _ _ _ _ _ (by omega), htok]
        simp
    · have hn : next ≤ runes.length := by
        by_contra hgt
        have hnext : next = runes.length + 1 := by omega
        rw [hnext, List.getElem?_append_left (by omega)] at hback
        apply h8
        rw [List.getLast?_eq_getElem?]
        rw [← hback]
        congr 1
      exact ih next _ hn (by omega)

theorem tokensFromStyledString_marker (cfg : ManPageFormat) (style : tcell.Style) (u : GoString)
    (h8 : u.getLast? ≠ some 0x08) :
    ∃ out, tokensFromStyledString cfg ⟨u ++ [0x78], style⟩ = some (out ++ [⟨0x78, style⟩]) := by
  obtain ⟨runes, hrunes, _, hlast⟩ := stringToRunes_marker u
  unfold tokensFromStyledString
  simp only [hrunes]
  exact tokensLoop_marker cfg style runes (fun h => h8 (hlast h)) _ 0 [] (Nat.zero_le _)
    (by omega)

theorem translateTokens_append (style : tcell.Style) (a b : List Token) :
    ∀ tokens : List Token, translateTokens style (a ++ b) tokens =
      (translateTokens style a tokens).bind (translateTokens style b) := by
  induction a with
  | nil => intro tokens; rfl
  | cons t a ih =>
    intro tokens
    rw [List.cons_append, translateTokens, translateTokens]
    by_cases h9 : t.Rune = 0x09
    · rw [if_pos h9, if_pos h9]
      cases tabLoop style _TabSize tokens with
      | none => rfl
      | some toks => exact ih toks
    · rw [if_neg h9, if_neg h9]
      by_cases hf : t.Rune = 0xFFFD
      · rw [if_pos hf, if_pos hf]; exact ih _
      · rw [if_neg hf, if_neg hf]
        by_cases hb : t.Rune = 0x08
        · rw [if_pos hb, if_pos hb]; exact ih _
        · rw [if_neg hb, if_neg hb]; exact ih _

theorem tokensFromRuns_append (cfg : ManPageFormat) (a b : List StyledString) :
    ∀ tokens : List Token, tokensFromRuns cfg (a ++ b) tokens =
      (tokensFromRuns cfg a tokens).bind (tokensFromRuns cfg b) := by
  induction a with
  | nil => intro tokens; rfl
  | cons r a ih =>
    intro tokens
    rw [List.cons_append, tokensFromRuns, tokensFromRuns]
    cases tokensFromStyledString cfg r with
    | none => rfl
    | some toks =>
      simp only [Option.bind_eq_bind, Option.some_bind]
      cases translateTokens r.Style toks tokens with
      | none => rfl
      | some toks2 => exact ih toks2

/-- C18, amended: for every termcap string that does not end in a backspace,
the empty one too, `styledStringsFromString` returns runs for the string
followed by the marker `x`, there is a last run, and `termcapToStyle` returns
the style of that last run, whatever the man-page format. -/
theorem termcapToStyle_last_run (cfg : ManPageFormat) (t : GoString)
    (h8 : t.getLast? ≠ some 0x08) :
    ∃ runs last, styledStringsFromString (t ++ [0x78]) = some runs ∧
      runs.getLast? = some last ∧ termcapToStyle cfg t = some last.Style := by
  obtain ⟨segs, tail, all, last, hseg, _, hruns⟩ := styledStringsFromString_eq (t ++ [0x78])
  have hs := Segmented_unsplit _ segs tail hseg
  rw [unsplit_append] at hs
  have hsne : t ++ [0x78] ≠ [] := by simp
  have htail : tail ≠ [] := by
    intro ht
    by_cases hsegs : segs = []
    · rw [hsegs, ht] at hs; exact hsne hs
    · have := unsplit_getLast segs hsegs (Segmented_isSGR _ segs tail hseg)
      rw [ht, List.append_nil] at hs
      rw [← hs, List.getLast?_append] at this
      simp at this
  rw [if_neg (fun h => hsne h.2)] at hruns
  obtain ⟨u, c, rfl⟩ : ∃ u c, tail = u ++ [c] :=
    ⟨tail.dropLast, tail.getLast htail, (List.dropLast_append_getLast htail).symm⟩
  rw [← List.append_assoc] at hs
  obtain ⟨ht, hc⟩ := List.append_inj' hs rfl
  rw [List.cons.injEq] at hc
  have hc' := hc.1
  subst hc'
  have hu : u.getLast? ≠ some 0x08 := by
    intro h
    apply h8
    rw [ht, List.getLast?_append, h]
    rfl
  obtain ⟨out, hout⟩ := tokensFromStyledString_marker cfg last u hu
  obtain ⟨new, hnew, _, _⟩ := tokensFromRuns_total cfg
    (all.filter (fun run => decide (run.String ≠ []))) []
  obtain ⟨new2, hnew2, _, _⟩ := translateTokens_total last out ([] ++ new)
  have htokens : TokensFromString cfg (t ++ [0x78]) =
      some (([] ++ new ++ new2) ++ [⟨0x78, last⟩],
        plainString (([] ++ new ++ new2) ++ [⟨0x78, last⟩])) := by
    unfold TokensFromString
    rw [hruns]
    simp only [Option.bind_eq_bind, Option.some_bind]
    rw [tokensFromRuns_append, hnew, Option.some_bind, tokensFromRuns, hout]
    simp only [Option.bind_eq_bind, Option.some_bind]
    rw [translateTokens_append, hnew2, Option.some_bind, translateTokens,
      if_neg (show ¬ (0x78 : Nat) = 0x09 by decide),
      if_neg (show ¬ (0x78 : Nat) = 0xFFFD by decide),
      if_neg (show ¬ (0x78 : Nat) = 0x08 by decide), translateTokens, Option.some_bind,
      tokensFromRuns]
    rfl
  refine ⟨_, ⟨u ++ [0x78], last⟩, hruns, by simp, ?_⟩
  generalize [] ++ new ++ new2 = toks at htokens
  unfold termcapToStyle
  rw [htokens]
  simp only [Option.bind_eq_bind, Option.some_bind, List.length_append, List.length_singleton,
    Nat.add_sub_cancel]
  rw [if_neg (by omega), List.getElem?_concat_length]
  rfl

set_option maxRecDepth 10000 in
theorem termcapToStyle_last_run_witness :
    (ascii "\x1b[1;31m").getLast? ≠ some 0x08 ∧
    ∃ runs last, styledStringsFromString (ascii "\x1b[1;31m" ++ [0x78]) = some runs ∧
      runs.getLast? = some last ∧
      termcapToStyle resetManPageFormatForTesting (ascii "\x1b[1;31m") = some last.Style :=
  ⟨by decide, termcapToStyle_last_run resetManPageFormatForTesting (ascii "\x1b[1;31m")
    (by decide)⟩

/-- C18 as stated fails for the termcap string `x`, backspace: with the marker
it is the single run `x`, backspace, `x` with the default style, and
`termcapToStyle` returns the man-page bold style of the overstrike token. -/
theorem termcapToStyle_last_run_counterexample :
    ([0x78, 0x08] : GoString) ≠ [] ∧
    styledStringsFromString ([0x78, 0x08] ++ [0x78]) =
      some [⟨[0x78, 0x08, 0x78], StyleDefault⟩] ∧
    termcapToStyle resetManPageFormatForTesting [0x78, 0x08] = some (StyleDefault.Bold true) ∧
    StyleDefault.Bold true ≠ (StyledString.mk [0x78, 0x08, 0x78] StyleDefault).Style := by
  refine ⟨by decide, by decide, by decide, by decide⟩

/-! ### Runs with an empty string -/

set_option maxRecDepth 10000 in
/-- C19: what the code does where the claim fails. A zero-length gap before
the first escape sequence and one between two adjacent escape sequences give no
run, but for the input `a` ESC`[31m`, which ends with an escape sequence,
`styledStringsFromString` returns a second run, whose string is empty; and for
ESC`[31m` alone it returns that empty run only. -/
theorem styledStringsFromString_trailing_empty_run :
    styledStringsFromString (ascii "\x1b[1m\x1b[31ma") =
      some [⟨ascii "a", { StyleDefault with bold := true, fg := ColorMaroon }⟩] ∧
    styledStringsFromString (ascii "a\x1b[31m") =
      some [⟨ascii "a", StyleDefault⟩, ⟨[], StyleDefault.Foreground ColorMaroon⟩] ∧
    styledStringsFromString (ascii "\x1b[31m") =
      some [⟨[], StyleDefault.Foreground ColorMaroon⟩] ∧
    ¬ ∀ runs, styledStringsFromString (ascii "a\x1b[31m") = some runs →
      ∀ run ∈ runs, run.String ≠ [] := by
  have hrun : styledStringsFromString (ascii "a\x1b[31m") =
      some [⟨ascii "a", StyleDefault⟩, ⟨[], StyleDefault.Foreground ColorMaroon⟩] := by decide
  refine ⟨by decide, hrun, by decide, ?_⟩
  intro h
  exact h _ hrun ⟨[], StyleDefault.Foreground ColorMaroon⟩
    (List.mem_cons_of_mem _ (List.mem_singleton.mpr rfl)) rfl

/-! ### The screen line without a search pattern -/

theorem highlight_nil (index : Nat) (tokens : List Token) : highlight [] index tokens = tokens := by
  induction tokens generalizing index with
  | nil => rfl
  | cons token rest ih =>
    rw [highlight, ih]
    rfl

/-- The screen line without a search pattern, by cases. -/
theorem createScreenLine_none (cfg : ManPageFormat) (start width : Nat) (line : GoString)
    (tokens : List Token) (plain : GoString) (hne : line ≠ [])
    (h : TokensFromString cfg line = some (tokens, plain)) :
    createScreenLine cfg start width line none =
      if ((if start > 0 then [leftOverflow] else []) ++ tokens.drop start).length > width then
        if width = 0 then some []
        else some (((if start > 0 then [leftOverflow] else []) ++ tokens.drop start).take
          (width - 1) ++ [rightOverflow])
      else some ((if start > 0 then [leftOverflow] else []) ++ tokens.drop start) := by
  unfold createScreenLine
  rw [if_neg hne, h]
  simp only [Option.bind_eq_bind, Option.some_bind, getMatchRanges, highlight_nil]

/-- C20, amended: `createScreenLine` without a search pattern returns cells for
every line and window: none for an empty line, and never more than `width`;
when the line has more than `start + width` characters and `width` is at least
one, the last cell is `>` in reverse video and the cells before it are the
first `width - 1` of the cell `<` (when `start > 0`) followed by the tokens of
the line from the character offset `start` on; when `start > 0`, the line is
not empty and `width` is at least two, the first cell is `<` in reverse video.
Offsets count characters: `012345` at 0, width 3 gives `0`, `1`, `>`; `012` at
1, width 3 gives `<`, `1`, `2`; and the eight bytes of four two-byte letters at
1, width 3 give `<`, the second letter, `>`. -/
theorem createScreenLine_window (cfg : ManPageFormat) (start width : Nat) (line : GoString) :
    ∃ tokens out, TokensFromString cfg line = some (tokens, plainString tokens) ∧
      createScreenLine cfg start width line none = some out ∧
      (line = [] → out = []) ∧
      out.length ≤ width ∧
      (start + width < tokens.length → 1 ≤ width →
        out = ((if 0 < start then [leftOverflow] else []) ++ tokens.drop start).take (width - 1) ++
          [rightOverflow]) ∧
      (0 < start → line ≠ [] → 2 ≤ width → out.head? = some leftOverflow) ∧
      createScreenLine cfg 0 3 (ascii "012345") none =
        some [⟨0x30, StyleDefault⟩, ⟨0x31, StyleDefault⟩, ⟨0x3E, StyleDefault.Reverse true⟩] ∧
      createScreenLine cfg 1 3 (ascii "012") none =
        some [⟨0x3C, StyleDefault.Reverse true⟩, ⟨0x31, StyleDefault⟩, ⟨0x32, StyleDefault⟩] ∧
      createScreenLine cfg 1 3 [0xC3, 0xA5, 0xC3, 0xA4, 0xC3, 0xB6, 0xC3, 0xA5] none =
        some [⟨0x3C, StyleDefault.Reverse true⟩, ⟨0xE4, StyleDefault⟩,
          ⟨0x3E, StyleDefault.Reverse true⟩] := by
  obtain ⟨tokens, htokens, _, _⟩ := TokensFromString_total cfg line
  by_cases hline : line = []
  · subst hline
    have hnil : tokens = [] := by
      have h : TokensFromString cfg [] = some ([], []) := rfl
      rw [h, Option.some.injEq, Prod.mk.injEq] at htokens
      exact htokens.1.symm
    subst hnil
    refine ⟨[], [], htokens, rfl, fun _ => rfl, Nat.zero_le _, ?_, fun _ h => absurd rfl h,
      rfl, rfl, rfl⟩
    intro h
    simp at h
  · have hout := createScreenLine_none cfg start width line tokens _ hline htokens
    generalize hcells : (if start > 0 then [leftOverflow] else []) ++ tokens.drop start = cells
      at hout
    have hlen : tokens.length - start ≤ cells.length := by
      rw [← hcells, List.length_append, List.length_drop]
      omega
    have hhead : 0 < start → cells.head? = some leftOverflow := by
      intro h
      rw [← hcells, if_pos h]
      rfl
    by_cases hover : cells.length > width
    · rw [if_pos hover] at hout
      by_cases hw : width = 0
      · rw [if_pos hw] at hout
        exact ⟨tokens, [], htokens, hout, fun _ => rfl, Nat.zero_le _, fun _ h => by omega,
          fun _ _ h => by omega, rfl, rfl, rfl⟩
      · rw [if_neg hw] at hout
        refine ⟨tokens, _, htokens, hout, fun h => absurd h hline, ?_, fun _ _ => hcells ▸ rfl, ?_,
          rfl, rfl, rfl⟩
        · rw [List.length_append, List.length_take, List.length_singleton]
          omega
        · intro hs _ h2
          obtain ⟨c, rest, rfl⟩ : ∃ c rest, cells = c :: rest := by
            cases cells with
            | nil => simp at hover
            | cons c rest => exact ⟨c, rest, rfl⟩
          obtain ⟨k, hk⟩ : ∃ k, width - 1 = k + 1 := ⟨width - 2, by omega⟩
          rw [hk, List.take_succ_cons, List.cons_append, List.head?_cons]
          exact hhead hs
    · rw [if_neg hover] at hout
      exact ⟨tokens, cells, htokens, hout, fun h => absurd h hline, by omega,
        fun h _ => by omega, fun hs _ _ => hhead hs, rfl, rfl, rfl⟩

set_option maxRecDepth 10000 in
theorem createScreenLine_window_witness :
    (1 + 3 < 6 ∧ 1 ≤ 3 ∧ 0 < 1 ∧ ascii "012345" ≠ [] ∧ 2 ≤ 3) ∧
    ∃ tokens out,
      TokensFromString resetManPageFormatForTesting (ascii "012345") =
        some (tokens, plainString tokens) ∧
      createScreenLine resetManPageFormatForTesting 1 3 (ascii "012345") none = some out ∧
      out.length ≤ 3 ∧
      (1 + 3 < tokens.length → 1 ≤ 3 →
        out = ((if 0 < 1 then [leftOverflow] else []) ++ tokens.drop 1).take (3 - 1) ++
          [rightOverflow]) ∧
      (0 < 1 → ascii "012345" ≠ [] → 2 ≤ 3 → out.head? = some leftOverflow) :=
  ⟨by decide,
    (createScreenLine_window resetManPageFormatForTesting 1 3 (ascii "012345")).imp
      (fun _ h => h.imp (fun _ h => ⟨h.1, h.2.1, h.2.2.2.1, h.2.2.2.2.1, h.2.2.2.2.2.1⟩))⟩

set_option maxRecDepth 10000 in
/-- C20 as stated fails where its parts meet: an empty line scrolled to the
right has no first cell to be `<`; with `width` zero there is no last cell to be
`>`; with `width` one the only cell of a line that goes on is `>`, not `<`; and
the cell before `>` is the indicator `<`, not a character of the line, when the
line is scrolled and goes on beyond the window. -/
theorem createScreenLine_window_counterexample :
    (createScreenLine resetManPageFormatForTesting 1 3 [] none = some [] ∧
      (0 : Nat) < 1 ∧ ([] : List Token).head? ≠ some leftOverflow) ∧
    (createScreenLine resetManPageFormatForTesting 0 0 (ascii "012") none = some [] ∧
      0 + 0 < (ascii "012").length ∧ ([] : List Token).getLast? ≠ some rightOverflow) ∧
    (createScreenLine resetManPageFormatForTesting 1 1 (ascii "012") none =
        some [rightOverflow] ∧
      (0 : Nat) < 1 ∧ [rightOverflow].head? ≠ some leftOverflow) ∧
    (createScreenLine resetManPageFormatForTesting 1 2 (ascii "0123") none =
        some [leftOverflow, rightOverflow] ∧
      1 + 2 < (ascii "0123").length ∧
      [leftOverflow] ≠ [Token.mk 0x31 StyleDefault]) := by
  refine ⟨⟨by decide, by decide, by decide⟩, ⟨by decide, by decide, by decide⟩,
    ⟨by decide, by decide, by decide⟩, ⟨by decide, by decide, by decide⟩⟩

/-! ### No tab, backspace or U+FFFD among the tokens -/

/-- A byte below `0x80` of the plain string is the rune of a token. -/
theorem plainString_ascii_byte (tokens : List Token) (b : Byte) (hb : b ∈ plainString tokens)
    (hlt : b.val < 0x80) : ∃ t ∈ tokens, t.Rune = b.val := by
  unfold plainString at hb
  obtain ⟨t, ht, hbt⟩ := List.mem_flatMap.mp hb
  exact ⟨t, ht, EncodeRune_ascii_byte t.Rune b hbt hlt⟩

/-- C22: for every input string `TokensFromString` returns tokens and a plain
string; no token has the rune tab, backspace or U+FFFD; so no rune of the plain
string is one of the three, and no byte of it is a tab or a backspace. That
holds also where an overstrike match emits such a rune: the bold and the
underline match on a tab give a token with the rune tab, which
`TokensFromString` turns into four spaces; those on a backspace give `<` and
those on an undecodable byte give `?`. -/
theorem tokens_without_tab_backspace_fffd (cfg : ManPageFormat) (s : GoString) :
    ∃ tokens plain, TokensFromString cfg s = some (tokens, plain) ∧
      (∀ t ∈ tokens, t.Rune ≠ 0x09 ∧ t.Rune ≠ 0x08 ∧ t.Rune ≠ 0xFFFD) ∧
      (∀ r ∈ stringToRunes plain, r ≠ 0x09 ∧ r ≠ 0x08 ∧ r ≠ 0xFFFD) ∧
      (∀ b ∈ plain, b.val ≠ 0x09 ∧ b.val ≠ 0x08) ∧
      tokensFromStyledString cfg ⟨[0x09, 0x08, 0x09], StyleDefault⟩ =
        some [⟨0x09, cfg.manPageBold⟩] ∧
      TokensFromString cfg [0x09, 0x08, 0x09] =
        some (List.replicate 4 ⟨0x20, StyleDefault⟩, ascii "    ") ∧
      tokensFromStyledString cfg ⟨[0x5F, 0x08, 0x09], StyleDefault⟩ =
        some [⟨0x09, cfg.manPageUnderline⟩] ∧
      TokensFromString cfg [0x5F, 0x08, 0x09] =
        some (List.replicate 4 ⟨0x20, StyleDefault⟩, ascii "    ") ∧
      tokensFromStyledString cfg ⟨[0x08, 0x08, 0x08], StyleDefault⟩ =
        some [⟨0x08, cfg.manPageBold⟩] ∧
      TokensFromString cfg [0x08, 0x08, 0x08] = some ([⟨0x3C, styleBrokenUtf8⟩], ascii "<") ∧
      tokensFromStyledString cfg ⟨[0x5F, 0x08, 0x08], StyleDefault⟩ =
        some [⟨0x08, cfg.manPageUnderline⟩] ∧
      TokensFromString cfg [0x5F, 0x08, 0x08] = some ([⟨0x3C, styleBrokenUtf8⟩], ascii "<") ∧
      tokensFromStyledString cfg ⟨[0xC2, 0x08, 0xC2], StyleDefault⟩ =
        some [⟨0xFFFD, cfg.manPageBold⟩] ∧
      TokensFromString cfg [0xC2, 0x08, 0xC2] = some ([⟨0x3F, styleBrokenUtf8⟩], ascii "?") ∧
      tokensFromStyledString cfg ⟨[0x5F, 0x08, 0xC2], StyleDefault⟩ =
        some [⟨0xFFFD, cfg.manPageUnderline⟩] ∧
      TokensFromString cfg [0x5F, 0x08, 0xC2] = some ([⟨0x3F, styleBrokenUtf8⟩], ascii "?") := by
  obtain ⟨tokens, h, hall, _⟩ := TokensFromString_total cfg s
  have hrunes := stringToRunes_plainString tokens (fun t ht => (hall t ht).1)
  refine ⟨tokens, plainString tokens, h, fun t ht => ?_, fun r hr => ?_, fun b hb => ?_,
    rfl, rfl, rfl, rfl, rfl, rfl, rfl, rfl, rfl, rfl, rfl, rfl⟩
  · have := hall t ht
    exact ⟨this.2.1, this.2.2.2, this.2.2.1⟩
  · rw [hrunes] at hr
    obtain ⟨t, ht, rfl⟩ := List.mem_map.mp hr
    have := hall t ht
    exact ⟨this.2.1, this.2.2.2, this.2.2.1⟩
  · constructor
    · intro h9
      obtain ⟨t, ht, hr⟩ := plainString_ascii_byte tokens b hb (by omega)
      exact (hall t ht).2.1 (by omega)
    · intro h8
      obtain ⟨t, ht, hr⟩ := plainString_ascii_byte tokens b hb (by omega)
      exact (hall t ht).2.2.2 (by omega)

/-! ### The screen line with a search pattern -/

theorem highlight_length (ranges : List (Nat × Nat)) (index : Nat) (tokens : List Token) :
    (highlight ranges index tokens).length = tokens.length := by
  induction tokens generalizing index with
  | nil => rfl
  | cons token rest ih => rw [highlight, List.length_cons, List.length_cons, ih]

theorem highlight_getElem? (ranges : List (Nat × Nat)) (index : Nat) (tokens : List Token)
    (j : Nat) :
    (highlight ranges index tokens)[j]? = (tokens[j]?).map (fun token =>
      if InRange ranges (index + j) then Token.mk token.Rune (token.Style.Reverse true)
      else token) := by
  induction tokens generalizing index j with
  | nil => rfl
  | cons token rest ih =>
    rw [highlight]
    cases j with
    | zero => simp
    | succ j =>
      rw [List.getElem?_cons_succ, List.getElem?_cons_succ, ih,
        show index + 1 + j = index + (j + 1) by omega]

theorem InRange_getMatchRanges (pattern : SearchPattern) (plain : GoString) (index : Nat) :
    InRange (getMatchRanges plain (some pattern)) index = true ↔ InMatch pattern plain index := by
  unfold InRange getMatchRanges InMatch
  simp only [List.any_eq_true, List.mem_map, decide_eq_true_eq]
  constructor
  · rintro ⟨r, ⟨m, hm, rfl⟩, h⟩
    exact ⟨m, hm, h⟩
  · rintro ⟨m, hm, h⟩
    exact ⟨_, ⟨m, hm, rfl⟩, h⟩

/-- The cells before the cut at the right edge, one by one. -/
theorem cells_getElem? (ranges : List (Nat × Nat)) (start : Nat) (tokens : List Token) (k : Nat) :
    ((if start > 0 then [leftOverflow] else []) ++ highlight ranges start (tokens.drop start))[k]? =
      if 0 < start ∧ k = 0 then some leftOverflow
      else (tokens[start + k - leftCells start]?).map (fun token =>
        if InRange ranges (start + k - leftCells start) then
          Token.mk token.Rune (token.Style.Reverse true)
        else token) := by
  unfold leftCells
  by_cases hs : start > 0
  · rw [if_pos hs, if_pos hs]
    cases k with
    | zero => rw [if_pos ⟨hs, rfl⟩]; simp
    | succ k =>
      rw [if_neg (by omega), List.singleton_append, List.getElem?_cons_succ, highlight_getElem?,
        List.getElem?_drop, show start + (k + 1) - 1 = start + k by omega]
  · rw [if_neg hs, if_neg hs, if_neg (fun h => hs h.1), List.nil_append, highlight_getElem?,
      List.getElem?_drop, Nat.sub_zero]

theorem cells_length (ranges : List (Nat × Nat)) (start : Nat) (tokens : List Token) :
    ((if start > 0 then [leftOverflow] else []) ++
      highlight ranges start (tokens.drop start)).length =
      leftCells start + (tokens.length - start) := by
  unfold leftCells
  rw [List.length_append, highlight_length, List.length_drop]
  by_cases hs : start > 0
  · rw [if_pos hs, if_pos hs]; rfl
  · rw [if_neg hs, if_neg hs]; rfl

/-- The screen line with a search pattern, by cases. -/
theorem createScreenLine_some (cfg : ManPageFormat) (start width : Nat) (line : GoString)
    (pattern : SearchPattern) (tokens : List Token) (plain : GoString) (hne : line ≠ [])
    (h : TokensFromString cfg line = some (tokens, plain)) :
    createScreenLine cfg start width line (some pattern) =
      if ((if start > 0 then [leftOverflow] else []) ++
          highlight (getMatchRanges plain (some pattern)) start (tokens.drop start)).length >
          width then
        if width = 0 then some []
        else some (((if start > 0 then [leftOverflow] else []) ++
          highlight (getMatchRanges plain (some pattern)) start (tokens.drop start)).take
            (width - 1) ++ [rightOverflow])
      else some ((if start > 0 then [leftOverflow] else []) ++
        highlight (getMatchRanges plain (some pattern)) start (tokens.drop start)) := by
  unfold createScreenLine
  rw [if_neg hne, h]
  rfl

theorem plainString_append (a b : List Token) :
    plainString (a ++ b) = plainString a ++ plainString b := by
  unfold plainString
  rw [List.flatMap_append]

/-- The plain text up to the byte offset of a character has as many characters
as the character offset says. -/
theorem RuneCountInString_take_byteOffset (tokens : List Token)
    (hvalid : ∀ t ∈ tokens, ValidRune t.Rune) (a : Nat) (ha : a ≤ tokens.length) :
    RuneCountInString ((plainString tokens).take (byteOffset tokens a)) = a := by
  have hsplit : plainString tokens =
      plainString (tokens.take a) ++ plainString (tokens.drop a) := by
    rw [← plainString_append, List.take_append_drop]
  unfold byteOffset RuneCountInString
  rw [hsplit, List.take_left, stringToRunes_plainString _ (fun t ht =>
    hvalid t (List.mem_of_mem_take ht)), List.length_map, List.length_take]
  omega

/-- C21: for every line, window and search pattern `createScreenLine` returns
cells: none for an empty line, else as many as the window holds of the `<`
cell and the characters from `start` on. The pattern is matched against the
whole plain text of the line. A cell that is the last one of a line that goes
on is the indicator `>`; else the first cell of a scrolled line is the
indicator `<`; every other cell is the token of its character, with reverse
video on top of its style when the character offset lies inside a match,
counted in characters, and as it is when not. A match between the byte offsets
of the characters `a` and `b` is a match of the characters from `a` up to `b`.
So `abc` with `b` gives `a`, reverse `b`, `c`, and the lines of two-byte
letters at 0, 1 and 2 highlight the matched letter only. -/
theorem createScreenLine_search (cfg : ManPageFormat) (start width : Nat) (line : GoString)
    (pattern : SearchPattern) :
    ∃ tokens plain out, TokensFromString cfg line = some (tokens, plain) ∧
      createScreenLine cfg start width line (some pattern) = some out ∧
      (line = [] → out = []) ∧
      (line ≠ [] → out.length = min width (leftCells start + (tokens.length - start))) ∧
      (∀ k, k < out.length →
        (width < leftCells start + (tokens.length - start) ∧ k + 1 = out.length →
          out[k]? = some rightOverflow) ∧
        (¬ (width < leftCells start + (tokens.length - start) ∧ k + 1 = out.length) →
          0 < start ∧ k = 0 → out[k]? = some leftOverflow) ∧
        (¬ (width < leftCells start + (tokens.length - start) ∧ k + 1 = out.length) →
          ¬ (0 < start ∧ k = 0) →
          ∃ token, tokens[start + k - leftCells start]? = some token ∧
            (InMatch pattern plain (start + k - leftCells start) →
              out[k]? = some ⟨token.Rune, token.Style.Reverse true⟩) ∧
            (¬ InMatch pattern plain (start + k - leftCells start) →
              out[k]? = some token))) ∧
      (∀ a b i, a ≤ tokens.length → b ≤ tokens.length →
        (byteOffset tokens a, byteOffset tokens b) ∈ pattern plain → a ≤ i → i < b →
        InMatch pattern plain i) ∧
      createScreenLine cfg 0 3 (ascii "abc") (some (literalPattern (ascii "b"))) =
        some [⟨0x61, StyleDefault⟩, ⟨0x62, StyleDefault.Reverse true⟩, ⟨0x63, StyleDefault⟩] ∧
      createScreenLine cfg 0 3 [0xC3, 0xA5, 0xC3, 0xA4, 0xC3, 0xB6]
          (some (literalPattern [0xC3, 0xA4])) =
        some [⟨0xE5, StyleDefault⟩, ⟨0xE4, StyleDefault.Reverse true⟩, ⟨0xF6, StyleDefault⟩] ∧
      createScreenLine cfg 1 4 [0xC3, 0xA5, 0xC3, 0xA5, 0xC3, 0xA4, 0xC3, 0xB6]
          (some (literalPattern [0xC3, 0xA4])) =
        some [⟨0x3C, StyleDefault.Reverse true⟩, ⟨0xE5, StyleDefault⟩,
          ⟨0xE4, StyleDefault.Reverse true⟩, ⟨0xF6, StyleDefault⟩] ∧
      createScreenLine cfg 2 4 [0xC3, 0xA5, 0xC3, 0xA5, 0xC3, 0xA5, 0xC3, 0xA4, 0xC3, 0xB6]
          (some (literalPattern [0xC3, 0xA4])) =
        some [⟨0x3C, StyleDefault.Reverse true⟩, ⟨0xE5, StyleDefault⟩,
          ⟨0xE4, StyleDefault.Reverse true⟩, ⟨0xF6, StyleDefault⟩] := by
  obtain ⟨tokens, htokens, hall, _⟩ := TokensFromString_total cfg line
  have halign : ∀ a b i, a ≤ tokens.length → b ≤ tokens.length →
      (byteOffset tokens a, byteOffset tokens b) ∈ pattern (plainString tokens) → a ≤ i →
      i < b → InMatch pattern (plainString tokens) i := by
    intro a b i ha hb hmem hai hib
    refine ⟨_, hmem, ?_, ?_⟩
    · rw [RuneCountInString_take_byteOffset tokens (fun t ht => (hall t ht).1) a ha]
      exact hai
    · rw [RuneCountInString_take_byteOffset tokens (fun t ht => (hall t ht).1) b hb]
      exact hib
  by_cases hline : line = []
  · subst hline
    refine ⟨tokens, plainString tokens, [], htokens, rfl, fun _ => rfl,
      fun h => absurd rfl h, fun k hk => absurd hk (Nat.not_lt_zero k), halign,
      rfl, rfl, rfl, rfl⟩
  · have hout := createScreenLine_some cfg start width line pattern tokens _ hline htokens
    have hget := cells_getElem? (getMatchRanges (plainString tokens) (some pattern)) start tokens
    have hlen := cells_length (getMatchRanges (plainString tokens) (some pattern)) start tokens
    generalize (if start > 0 then [leftOverflow] else []) ++
      highlight (getMatchRanges (plainString tokens) (some pattern)) start
        (tokens.drop start) = cells at hout hget hlen
    have key : ∀ k, k < cells.length →
        (0 < start ∧ k = 0 → cells[k]? = some leftOverflow) ∧
        (¬ (0 < start ∧ k = 0) →
          ∃ token, tokens[start + k - leftCells start]? = some token ∧
            (InMatch pattern (plainString tokens) (start + k - leftCells start) →
              cells[k]? = some ⟨token.Rune, token.Style.Reverse true⟩) ∧
            (¬ InMatch pattern (plainString tokens) (start + k - leftCells start) →
              cells[k]? = some token)) := by
      intro k hk
      rw [hget k]
      refine ⟨fun h => by rw [if_pos h], fun h => ?_⟩
      rw [if_neg h]
      have hidx : start + k - leftCells start < tokens.length := by
        rw [hlen] at hk
        unfold leftCells at hk ⊢
        by_cases hs : start > 0
        · rw [if_pos hs] at hk ⊢
          have : k ≠ 0 := fun h0 => h ⟨hs, h0⟩
          omega
        · rw [if_neg hs] at hk ⊢
          omega
      refine ⟨tokens[start + k - leftCells start], List.getElem?_eq_getElem hidx, ?_, ?_⟩
      · intro hm
        rw [List.getElem?_eq_getElem hidx, Option.map_some',
          if_pos ((InRange_getMatchRanges _ _ _).mpr hm)]
      · intro hm
        rw [List.getElem?_eq_getElem hidx, Option.map_some',
          if_neg (fun h => hm ((InRange_getMatchRanges _ _ _).mp h))]
    by_cases hover : cells.length > width
    · rw [if_pos hover] at hout
      by_cases hw : width = 0
      · rw [if_pos hw] at hout
        refine ⟨tokens, plainString tokens, [], htokens, hout, fun _ => rfl, fun _ => ?_,
          fun k hk => absurd hk (Nat.not_lt_zero k), halign, rfl, rfl, rfl, rfl⟩
        rw [hw, Nat.zero_min]
        rfl
      · rw [if_neg hw] at hout
        have htake : (cells.take (width - 1)).length = width - 1 := by
          rw [List.length_take]; omega
        have holen : (cells.take (width - 1) ++ [rightOverflow]).length = width := by
          rw [List.length_append, htake, List.length_singleton]; omega
        refine ⟨tokens, plainString tokens, _, htokens, hout, fun h => absurd h hline,
          fun _ => ?_, fun k hk => ?_, halign, rfl, rfl, rfl, rfl⟩
        · rw [holen, ← hlen]; omega
        · rw [holen] at hk ⊢
          by_cases hlast : k + 1 = width
          · refine ⟨fun _ => ?_, fun h => absurd ⟨by rw [← hlen]; exact hover, hlast⟩ h,
              fun h => absurd ⟨by rw [← hlen]; exact hover, hlast⟩ h⟩
            rw [List.getElem?_append_right (by rw [htake]; omega), htake,
              show k - (width - 1) = 0 by omega]
            rfl
          · have hk' : k < width - 1 := by omega
            have hcell : (cells.take (width - 1) ++ [rightOverflow])[k]? = cells[k]? := by
              rw [List.getElem?_append_left (by rw [htake]; exact hk'),
                List.getElem?_take_of_lt hk']
            rw [hcell]
            have := key k (by omega)
            exact ⟨fun h => absurd h.2 hlast, fun _ => this.1, fun _ => this.2⟩
    · rw [if_neg hover] at hout
      refine ⟨tokens, plainString tokens, cells, htokens, hout, fun h => absurd h hline,
        fun _ => ?_, fun k hk => ?_, halign, rfl, rfl, rfl, rfl⟩
      · rw [← hlen]; omega
      · have := key k hk
        exact ⟨fun h => absurd (by rw [hlen]; exact h.1) hover, fun _ => this.1,
          fun _ => this.2⟩

set_option maxRecDepth 10000 in
theorem createScreenLine_search_witness :
    ([0xC3, 0xA5, 0xC3, 0xA5, 0xC3, 0xA4, 0xC3, 0xB6] : GoString) ≠ [] ∧
    ∃ tokens plain out,
      TokensFromString resetManPageFormatForTesting
        [0xC3, 0xA5, 0xC3, 0xA5, 0xC3, 0xA4, 0xC3, 0xB6] = some (tokens, plain) ∧
      createScreenLine resetManPageFormatForTesting 1 4
        [0xC3, 0xA5, 0xC3, 0xA5, 0xC3, 0xA4, 0xC3, 0xB6]
        (some (literalPattern [0xC3, 0xA4])) = some out ∧
      out.length = min 4 (leftCells 1 + (tokens.length - 1)) :=
  ⟨by decide,
    (createScreenLine_search resetManPageFormatForTesting 1 4
      [0xC3, 0xA5, 0xC3, 0xA5, 0xC3, 0xA4, 0xC3, 0xB6] (literalPattern [0xC3, 0xA4])).imp
      (fun _ h => h.imp (fun _ h => h.imp (fun _ h =>
        ⟨h.1, h.2.1, h.2.2.2.1 (by decide)⟩)))⟩

end Moor
